import Mathlib

/-!
# The pipelined BFT consensus engine: validator sets, message sets, epochs, rounds

A shallow embedding of the Go sources under `consensus/bft`, `consensus/message_set`,
`consensus/validator` and `core/types/bft.go`, followed by theorems about them.

Conventions of the embedding:
* a Go slice is a `List`, a Go map is a key/value list read with `List.lookup`;
* `uint64` and `int` values are `Nat`/`Int`, with `% 2 ^ 64` written where the source
  computes in `uint64`;
* a `*big.Int` is an `Int`;
* a nil pointer or nil interface is `none`;
* a method that mutates its receiver returns the receiver after the call;
* a byte is a `Nat`, a byte string a `List Nat`; the database is passed along as a value;
* where a theorem says what a call leaves untouched, structs and slices live in an explicit
  memory (`validator.Memory`, `types.Memory`), in which slices share arrays;
* the functions that sort take the rendering of an address as an argument; the rendering of
  the sources is `common.Address.String`.
-/

set_option linter.dupNamespace false

/-! ## Go runtime pieces the sources rely on -/

/-- A Go string is its sequence of bytes. -/
abbrev GoString := List Nat

/-- Go `strings.Compare`: bytewise lexicographic comparison, giving -1, 0 or 1. -/
def stringsCompare : GoString → GoString → Int
  | [], [] => 0
  | [], _ :: _ => -1
  | _ :: _, [] => 1
  | a :: as, b :: bs =>
    if a < b then -1 else if b < a then 1 else stringsCompare as bs

/-- Rounding of the quotient `num / den` to the nearest natural number, ties to the even one:
the rounding rule of IEEE 754 binary floating point. -/
def roundHalfEven (num den : Nat) : Nat :=
  let q := num / den
  let r := num % den
  if den < 2 * r ∨ (2 * r = den ∧ q % 2 = 1) then q + 1 else q

/-- The number of low bits a natural number loses when it is stored in the 53-bit significand
of a float64: the least `s` with `x < 2 ^ (53 + s)`. -/
def droppedBits (x : Nat) : Nat → Nat → Nat
  | 0, s => s
  | fuel + 1, s => if x < 2 ^ (53 + s) then s else droppedBits x fuel (s + 1)

/-- Go `float64(x)` for a non-negative integer `x`: the nearest float64, as the integer it
denotes. Integers below `2 ^ 53` are kept exactly. -/
def float64OfNat (x : Nat) : Nat :=
  let s := droppedBits x 64 0
  roundHalfEven x (2 ^ s) * 2 ^ s

/-- The binary scale of the float64 quotient `y / 3` when it is below `2 ^ 53`:
the least `k` with `2 ^ 52 ≤ y * 2 ^ k / 3`. -/
def scaleUp (y : Nat) : Nat → Nat → Nat
  | 0, k => k
  | fuel + 1, k => if 3 * 2 ^ 52 ≤ y * 2 ^ k then k else scaleUp y fuel (k + 1)

/-- The binary scale of the float64 quotient `y / 3` when it is at least `2 ^ 53`:
the least `j` with `y / 3 < 2 ^ (53 + j)`. -/
def scaleDown (y : Nat) : Nat → Nat → Nat
  | 0, j => j
  | fuel + 1, j => if y < 3 * 2 ^ (53 + j) then j else scaleDown y fuel (j + 1)

/-- Go `int(math.Ceil(float64(x) / 3))` for a non-negative integer `x`, computed as the
hardware does: `x` is converted to float64, the quotient by 3 is rounded to a 53-bit
significand `m` at scale `2 ^ k` (nearest, ties to even), and `math.Ceil` rounds `m / 2 ^ k`
up to an integer. -/
def ceilDiv3Float64 (x : Nat) : Nat :=
  let y := float64OfNat x
  if y = 0 then 0
  else if y < 3 * 2 ^ 53 then
    let k := scaleUp y 64 0
    let m := roundHalfEven (y * 2 ^ k) 3
    (m + 2 ^ k - 1) / 2 ^ k
  else
    let j := scaleDown y 64 0
    roundHalfEven y (3 * 2 ^ j) * 2 ^ j

/-- The value of an integer stored in an `int64`: its residue in `[-2 ^ 63, 2 ^ 63)`. -/
def wrapInt64 (x : Int) : Int := (x + 2 ^ 63) % 2 ^ 64 - 2 ^ 63

/-- Go `(*big.Int).Int64`: the low 64 bits, read as a signed number. -/
def bigInt64 (x : Int) : Int := wrapInt64 x

/-- Go `(*big.Int).Uint64`: the low 64 bits of the absolute value. -/
def bigUint64 (x : Int) : Nat := x.natAbs % 2 ^ 64

/-- The constant `time.Millisecond`, in nanoseconds. -/
def Millisecond : Int := 1000000

/-- The constant `time.Second`, in nanoseconds. -/
def Second : Int := 1000000000

/-- The `int64` a conversion of a float64 beyond the `int64` range yields. The language
leaves the value to the implementation; this is the one amd64 produces. -/
def int64OfHugeFloat : Int := -2 ^ 63

/-- Go `time.Duration(math.Pow(2, float64(round)))` for a `uint64` round: the power of two
is exact in float64, and converts to `int64` exactly while it is below `2 ^ 63`. -/
def pow2Duration (round : Nat) : Int :=
  let f := float64OfNat round
  if f < 63 then 2 ^ f else int64OfHugeFloat

/-- Go map assignment `m[k] = v`: an existing entry for the key is replaced. -/
def mapSet {κ ν : Type} [DecidableEq κ] (m : List (κ × ν)) (k : κ) (v : ν) : List (κ × ν) :=
  (k, v) :: m.filter (fun e => decide (e.1 ≠ k))

/-! ## Package `common` and `bft`: addresses, validators, policies -/

namespace bft

/-- The type `common.Address`, a 20-byte array, read as the number its bytes spell. -/
abbrev Address := Fin (2 ^ 160)

/-- The type `bft.SelectProposerPolicy`, a `uint64`. -/
abbrev SelectProposerPolicy := Nat

/-- The constant `bft.RoundRobin`. -/
def RoundRobin : SelectProposerPolicy := 0

/-- The constant `bft.Sticky`. -/
def Sticky : SelectProposerPolicy := 1

/-- The constant `bft.VRF`. -/
def VRF : SelectProposerPolicy := 2

/-- The method `Validators.Less` on two validators: `strings.Compare` of their `String()`.
The rendering `str` of an address (`common.Address.String`) is defined outside these
sources and is a parameter. -/
def Less (str : Address → GoString) (a b : Address) : Bool :=
  decide (stringsCompare (str a) (str b) < 0)

/-- The order `sort.Sort` establishes: `a` may stand before `b` when `b` is not `Less` than
`a`. -/
def notAfter (str : Address → GoString) (a b : Address) : Prop :=
  Less str b a = false

instance (str : Address → GoString) : DecidableRel (notAfter str) :=
  fun a b => inferInstanceAs (Decidable (Less str b a = false))

/-- The call `sort.Sort(validators)`: the validators in ascending order of `String()`.
Validators with equal strings are equal, so the sorted slice does not depend on the
sorting algorithm; it is computed here by insertion. -/
def sortValidators (str : Address → GoString) (l : List Address) : List Address :=
  l.insertionSort (notAfter str)

end bft

/-! ## Package `validator`: the default validator set -/

namespace validator

open bft

/-- The errors of package `validator`. -/
inductive Error
  | ErrInvalidParticipant
  deriving DecidableEq, Repr

/-- The three proposal selectors a set can hold in its `selector` field. -/
inductive Selector
  | roundRobin
  | sticky
  | vrf
  deriving DecidableEq, Repr

/-- The struct `defaultSet`. A validator is identified with its address; the proposer is a
validator or nil. -/
structure defaultSet where
  validators : List Address
  policy : SelectProposerPolicy
  proposer : Option Address
  selector : Selector
  deriving DecidableEq

/-- The method `Size`. The method `List` is the field `validators` itself. -/
def defaultSet.Size (valSet : defaultSet) : Nat := valSet.validators.length

/-- The method `AddressList`. -/
def defaultSet.AddressList (valSet : defaultSet) : List Address := valSet.validators

/-- The method `GetByIndex`. -/
def defaultSet.GetByIndex (valSet : defaultSet) (i : Nat) : Option Address :=
  if i < valSet.Size then valSet.validators[i]? else none

/-- The loop of `GetByAddress` over the validators from position `i` on. -/
def getByAddressFrom (addr : Address) : List Address → Nat → Int × Option Address
  | [], _ => (-1, none)
  | val :: rest, i => if addr = val then ((i : Int), some val) else getByAddressFrom addr rest (i + 1)

/-- The method `GetByAddress`: index and validator of the first entry with the address, or
`(-1, nil)`. -/
def defaultSet.GetByAddress (valSet : defaultSet) (addr : Address) : Int × Option Address :=
  getByAddressFrom addr valSet.validators 0

/-- The method `GetProposer`. -/
def defaultSet.GetProposer (valSet : defaultSet) : Option Address := valSet.proposer

/-- The method `IsProposer`: `reflect.DeepEqual` of the proposer and the validator found for
the address compares the two validators, or two nils, by value. -/
def defaultSet.IsProposer (valSet : defaultSet) (address : Address) : Bool :=
  decide (valSet.GetProposer = (valSet.GetByAddress address).2)

/-- The function `calcSeed`, in `uint64` arithmetic. -/
def calcSeed (valSet : defaultSet) (proposer : Address) (round : Nat) : Nat :=
  let offset : Int :=
    match valSet.GetByAddress proposer with
    | (idx, some _) => idx
    | (_, none) => 0
  (offset.toNat + round) % 2 ^ 64

/-- The function `emptyAddress`. -/
def emptyAddress (addr : Address) : Bool := decide (addr = 0)

/-- The function `roundRobinSelector`. -/
def roundRobinSelector (valSet : defaultSet) (proposer : Address) (round : Nat) :
    Option Address :=
  if valSet.Size = 0 then none
  else
    let seed := if emptyAddress proposer then round else (calcSeed valSet proposer round + 1) % 2 ^ 64
    let pick := seed % valSet.Size
    valSet.GetByIndex pick

/-- The function `stickySelector`. -/
def stickySelector (valSet : defaultSet) (proposer : Address) (round : Nat) :
    Option Address :=
  if valSet.Size = 0 then none
  else
    let seed := if emptyAddress proposer then round else calcSeed valSet proposer round
    let pick := seed % valSet.Size
    valSet.GetByIndex pick

/-- The function `vrfSelector`. -/
def vrfSelector (_valSet : defaultSet) (_proposer : Address) (_round : Nat) : Option Address :=
  none

/-- The call of the function value stored in the `selector` field. -/
def Selector.apply : Selector → defaultSet → Address → Nat → Option Address
  | .roundRobin => roundRobinSelector
  | .sticky => stickySelector
  | .vrf => vrfSelector

/-- The function `newDefaultSet`, which `NewSet` wraps. -/
def newDefaultSet (str : Address → GoString) (addrs : List Address)
    (policy : SelectProposerPolicy) : defaultSet :=
  let validators := sortValidators str addrs
  { validators := validators
    policy := policy
    proposer := if 0 < validators.length then validators[0]? else none
    selector :=
      if policy = VRF then Selector.vrf
      else if policy = Sticky then Selector.sticky
      else Selector.roundRobin }

/-- The function `NewSet`. -/
def NewSet (str : Address → GoString) (addrs : List Address)
    (policy : SelectProposerPolicy) : defaultSet :=
  newDefaultSet str addrs policy

/-- The method `CalcProposer`. -/
def defaultSet.CalcProposer (valSet : defaultSet) (lastProposer : Address) (round : Nat) :
    defaultSet :=
  { valSet with proposer := valSet.selector.apply valSet lastProposer round }

/-- The method `AddValidator`: the set after the call and the returned flag. -/
def defaultSet.AddValidator (str : Address → GoString) (valSet : defaultSet)
    (address : Address) : defaultSet × Bool :=
  if address ∈ valSet.validators then (valSet, false)
  else ({ valSet with validators := sortValidators str (valSet.validators ++ [address]) }, true)

/-- The loop of `RemoveValidator`: the slice without the first entry equal to `address`, or
nil when there is none. -/
def removeFirst (address : Address) : List Address → Option (List Address)
  | [] => none
  | v :: rest =>
    if v = address then some rest else (removeFirst address rest).map (fun r => v :: r)

/-- The method `RemoveValidator`: the set after the call and the returned flag. -/
def defaultSet.RemoveValidator (valSet : defaultSet) (address : Address) : defaultSet × Bool :=
  match removeFirst address valSet.validators with
  | some rest => ({ valSet with validators := rest }, true)
  | none => (valSet, false)

/-- The method `Copy`. -/
def defaultSet.Copy (str : Address → GoString) (valSet : defaultSet) : defaultSet :=
  NewSet str valSet.validators valSet.policy

/-- The method `ParticipantsNumber`. -/
def defaultSet.ParticipantsNumber (valSet : defaultSet) (list : List Address) : Nat :=
  list.foldl (fun size v => if (valSet.GetByAddress v).1 < 0 then size else size + 1) 0

/-- The method `F`: `int(math.Ceil(float64(Size()) / 3)) - 1`. -/
def defaultSet.F (valSet : defaultSet) : Int := (ceilDiv3Float64 valSet.Size : Int) - 1

/-- The method `Q`: `int(math.Ceil(float64(2 * Size()) / 3))`. -/
def defaultSet.Q (valSet : defaultSet) : Nat := ceilDiv3Float64 (2 * valSet.Size)

/-- The method `Policy`. -/
def defaultSet.Policy (valSet : defaultSet) : SelectProposerPolicy := valSet.policy

/-- The method `Cmp`. -/
def defaultSet.Cmp (valSet src : defaultSet) : Bool :=
  let n := valSet.ParticipantsNumber src.AddressList
  if n ≠ valSet.Size ∨ n ≠ src.Size then false else true

/-- The loop and final test of `CheckQuorum` on the working copy `validators`. -/
def checkQuorumLoop (validators : defaultSet) : List Address → Nat → Option Error
  | [], validSeal =>
    if validSeal ≤ validators.Q then some Error.ErrInvalidParticipant else none
  | addr :: rest, validSeal =>
    match validators.RemoveValidator addr with
    | (validators1, true) => checkQuorumLoop validators1 rest (validSeal + 1)
    | (_, false) => some Error.ErrInvalidParticipant

/-- The method `CheckQuorum`: nil, or `ErrInvalidParticipant`. -/
def defaultSet.CheckQuorum (str : Address → GoString) (valSet : defaultSet)
    (committers : List Address) : Option Error :=
  checkQuorumLoop (valSet.Copy str) committers 0

end validator

/-! ## Package `bft`: messages, views, proposals -/

namespace bft

/-- Modelled from the spec: the struct `bft.Message`, declared outside these sources:
`Code`, `Msg` (RLP bytes), `Address` (the sender), `Signature` and `CommittedSeal`. -/
structure Message where
  Code : Nat
  Msg : List Nat
  Address : Address
  Signature : List Nat
  CommittedSeal : List Nat
  deriving DecidableEq

/-- Modelled from the spec: the struct `bft.View`, a pair of `*big.Int`. -/
structure View where
  Round : Int
  Height : Int
  deriving DecidableEq

/-- Modelled from the spec: the method `Cmp` of `bft.View`, declared outside these sources:
views are totally ordered lexicographically, by the height first and the round second. The
result is -1, 0 or 1. -/
def View.Cmp (v y : View) : Int :=
  if v.Height < y.Height then -1
  else if y.Height < v.Height then 1
  else if v.Round < y.Round then -1
  else if y.Round < v.Round then 1
  else 0

/-- Modelled from the spec: the interface `bft.Proposal`, an opaque block reference that
exposes `Hash()` and `Number()`. -/
structure Proposal where
  hash : Nat
  number : Int
  deriving DecidableEq

/-- Modelled from the spec: the struct `bft.Request`, holding a proposal or nil. -/
structure Request where
  Proposal : Option Proposal
  deriving DecidableEq

/-- Modelled from the spec: the struct `bft.QuorumCert` with its fields `View`, `Proposer`,
`Hash`, `Extra` and `Seals`. -/
structure QuorumCert where
  View : View
  Proposer : Address
  Hash : Nat
  Extra : List Nat
  Seals : List (List Nat)
  deriving DecidableEq

/-- The struct `bft.Config`. -/
structure Config where
  RequestTimeout : Nat
  BlockPeriod : Nat
  LeaderPolicy : SelectProposerPolicy
  Test : Bool
  Epoch : Nat
  deriving DecidableEq

/-- The interface `bft.Backend` as far as `startNewRound` consults it. The chain head moves
while the engine runs, so `LastProposal i` is the answer to the i-th read made during one
call. -/
structure Backend where
  LastProposal : Nat → Option Proposal × Address
  Validators : Nat → validator.defaultSet

end bft

/-- The outcome of running a piece of Go code: a result, a run-time panic (nil dereference),
or no result within the given number of loop iterations. -/
inductive Outcome (α : Type)
  | ok (a : α)
  | panic
  | outOfFuel
  deriving DecidableEq

/-! ## Package `message_set` -/

namespace message_set

open bft validator

/-- The errors of package `message_set`. -/
inductive Error
  | unauthorizedAddress
  deriving DecidableEq, Repr

/-- The struct `MessageSet`; the map `msgs` is a list of entries with distinct keys. -/
structure MessageSet where
  view : View
  vs : defaultSet
  msgs : List (Address × Message)
  deriving DecidableEq

/-- The function `NewMessageSet`. -/
def NewMessageSet (valSet : defaultSet) : MessageSet :=
  { view := { Round := 0, Height := 0 }, vs := valSet, msgs := [] }

/-- The method `verify`. -/
def MessageSet.verify (s : MessageSet) (msg : Message) : Option Error :=
  match s.vs.GetByAddress msg.Address with
  | (_, none) => some Error.unauthorizedAddress
  | (_, some _) => none

/-- The method `Add`: the set after the call and the returned error. -/
def MessageSet.Add (s : MessageSet) (msg : Message) : MessageSet × Option Error :=
  match s.verify msg with
  | some err => (s, some err)
  | none => ({ s with msgs := mapSet s.msgs msg.Address msg }, none)

/-- The method `Values`; Go leaves the order of a map iteration open. -/
def MessageSet.Values (s : MessageSet) : List Message := s.msgs.map Prod.snd

/-- The method `Size`. -/
def MessageSet.Size (s : MessageSet) : Nat := s.msgs.length

/-- The method `Get`. -/
def MessageSet.Get (s : MessageSet) (addr : Address) : Option Message := s.msgs.lookup addr

/-- A sequence of `Add` calls: the set after the last call, and the messages whose `Add`
returned nil, in the order of the calls. -/
def addAll : MessageSet → List Message → MessageSet × List Message
  | s, [] => (s, [])
  | s, msg :: rest =>
    match s.Add msg with
    | (s1, none) => ((addAll s1 rest).1, msg :: (addAll s1 rest).2)
    | (s1, some _) => addAll s1 rest

/-- The invariant of a message set under `Add`: distinct keys, all of them validators. -/
def WellFormed (s : MessageSet) : Prop :=
  (s.msgs.map Prod.fst).Nodup ∧ ∀ a ∈ s.msgs.map Prod.fst, a ∈ s.vs.validators

end message_set

/-! ## Package `backend`: epochs -/

namespace backend

open bft validator

/-- The struct `Epoch`. -/
structure Epoch where
  StartHeight : Nat
  ValSet : defaultSet
  LastEpochStartHeight : Nat
  deriving DecidableEq

/-- The epoch fields of the struct `backend`: the map `epochs` and `maxEpochStartHeight`. -/
structure backend where
  epochs : List (Nat × Epoch)
  maxEpochStartHeight : Nat
  deriving DecidableEq

/-- The function `newValSet`. -/
def newValSet (str : Address → GoString) (list : List Address) : defaultSet :=
  NewSet str list RoundRobin

/-- The body of `Validators` from the value `startHeight` on, running at most `fuel` loop
tests. Reading a field of the nil epoch that a map miss returns is a panic. -/
def validatorsLoop (str : Address → GoString) (s : backend) (height : Nat) :
    Nat → Nat → Outcome defaultSet
  | 0, _ => Outcome.outOfFuel
  | fuel + 1, startHeight =>
    if height < startHeight then
      match s.epochs.lookup startHeight with
      | none => Outcome.panic
      | some epoch =>
        if height ≥ epoch.StartHeight then
          match s.epochs.lookup epoch.StartHeight with
          | none => Outcome.panic
          | some found => Outcome.ok (found.ValSet.Copy str)
        else validatorsLoop str s height fuel epoch.LastEpochStartHeight
    else
      match s.epochs.lookup startHeight with
      | none => Outcome.panic
      | some found => Outcome.ok (found.ValSet.Copy str)

/-- The method `Validators`, running at most `fuel` loop tests. -/
def backend.Validators (str : Address → GoString) (s : backend) (height : Nat) (fuel : Nat) :
    Outcome defaultSet :=
  validatorsLoop str s height fuel s.maxEpochStartHeight

/-- The epochs of a store as a chain: the first is stored under the height `k` and starts
there, each one names in `LastEpochStartHeight` the strictly lower start height of the next,
and the last one starts at height 0. -/
def Linked (s : backend) : Nat → List Epoch → Prop
  | _, [] => False
  | k, [e] => s.epochs.lookup k = some e ∧ e.StartHeight = k ∧ k = 0
  | k, e :: next :: rest =>
    s.epochs.lookup k = some e ∧ e.StartHeight = k ∧ e.LastEpochStartHeight < k ∧
      Linked s e.LastEpochStartHeight (next :: rest)

end backend

/-! ## Package `core`: round state and the start of a round -/

namespace core

open bft validator message_set

/-- Modelled from the spec: the type `State` of package `core`, declared outside these
sources, with the ten states the round state can be in. -/
inductive State
  | StateAcceptRequest
  | StateNewView
  | StateHighQC
  | StatePrepare
  | StatePrepareVote
  | StatePreCommit
  | StatePreCommitVote
  | StateCommit
  | StateCommitVote
  | StateCommitted
  deriving DecidableEq, Repr

open State

/-- The struct `roundState`. -/
structure roundState where
  vs : defaultSet
  round : Int
  height : Int
  state : State
  pendingRequest : Option Request
  proposal : Option Proposal
  proposalLocked : Bool
  newViews : MessageSet
  prepareVotes : MessageSet
  preCommitVotes : MessageSet
  commitVotes : MessageSet
  highQC : Option QuorumCert
  prepareQC : Option QuorumCert
  lockedQC : Option QuorumCert
  committedQC : Option QuorumCert
  deriving DecidableEq

/-- The function `newRoundState`; `QuorumCert.Copy` yields an equal certificate. -/
def newRoundState (view : View) (validatorSet : defaultSet) (prepareQC : Option QuorumCert) :
    roundState :=
  { vs := validatorSet
    round := view.Round
    height := view.Height
    state := StateAcceptRequest
    pendingRequest := none
    proposal := none
    proposalLocked := false
    newViews := NewMessageSet validatorSet
    prepareVotes := NewMessageSet validatorSet
    preCommitVotes := NewMessageSet validatorSet
    commitVotes := NewMessageSet validatorSet
    highQC := none
    prepareQC := prepareQC
    lockedQC := prepareQC
    committedQC := prepareQC }

/-- The method `Height`. -/
def roundState.Height (s : roundState) : Int := s.height

/-- The method `Round`. -/
def roundState.Round (s : roundState) : Int := s.round

/-- The method `View`. -/
def roundState.View (s : roundState) : View := { Round := s.round, Height := s.height }

/-- The method `SetState`. -/
def roundState.SetState (s : roundState) (state : State) : roundState :=
  { s with state := state }

/-- The method `State`. -/
def roundState.State (s : roundState) : State := s.state

/-- The method `SetProposal`. -/
def roundState.SetProposal (s : roundState) (proposal : Option Proposal) : roundState :=
  { s with proposal := proposal }

/-- The method `Proposal`. -/
def roundState.Proposal (s : roundState) : Option Proposal := s.proposal

/-- The method `LockProposal`. -/
def roundState.LockProposal (s : roundState) : roundState :=
  if s.proposal ≠ none ∧ s.proposalLocked = false then { s with proposalLocked := true } else s

/-- The method `UnLockProposal`. -/
def roundState.UnLockProposal (s : roundState) : roundState :=
  if s.proposal ≠ none ∧ s.proposalLocked = true then
    { s with proposalLocked := false, proposal := none }
  else s

/-- The method `IsProposalLocked`. -/
def roundState.IsProposalLocked (s : roundState) : Bool := s.proposalLocked

/-- The method `LastLockedProposal`. -/
def roundState.LastLockedProposal (s : roundState) : Bool × Option bft.Proposal :=
  (s.proposalLocked, s.proposal)

/-- The method `SetPendingRequest`. -/
def roundState.SetPendingRequest (s : roundState) (req : Option Request) : roundState :=
  { s with pendingRequest := req }

/-- The method `PendingRequest`. -/
def roundState.PendingRequest (s : roundState) : Option Request := s.pendingRequest

/-- The method `AddNewViews`. -/
def roundState.AddNewViews (s : roundState) (msg : Message) :
    roundState × Option message_set.Error :=
  ({ s with newViews := (s.newViews.Add msg).1 }, (s.newViews.Add msg).2)

/-- The method `NewViewSize`. -/
def roundState.NewViewSize (s : roundState) : Nat := s.newViews.Size

/-- The method `AddPrepareVote`. -/
def roundState.AddPrepareVote (s : roundState) (msg : Message) :
    roundState × Option message_set.Error :=
  ({ s with prepareVotes := (s.prepareVotes.Add msg).1 }, (s.prepareVotes.Add msg).2)

/-- The method `PrepareVotes`. -/
def roundState.PrepareVotes (s : roundState) : List Message := s.prepareVotes.Values

/-- The method `PrepareVoteSize`. -/
def roundState.PrepareVoteSize (s : roundState) : Nat := s.prepareVotes.Size

/-- The method `AddPreCommitVote`. -/
def roundState.AddPreCommitVote (s : roundState) (msg : Message) :
    roundState × Option message_set.Error :=
  ({ s with preCommitVotes := (s.preCommitVotes.Add msg).1 }, (s.preCommitVotes.Add msg).2)

/-- The method `PreCommitVoteSize`. -/
def roundState.PreCommitVoteSize (s : roundState) : Nat := s.preCommitVotes.Size

/-- The method `AddCommitVote`. -/
def roundState.AddCommitVote (s : roundState) (msg : Message) :
    roundState × Option message_set.Error :=
  ({ s with commitVotes := (s.commitVotes.Add msg).1 }, (s.commitVotes.Add msg).2)

/-- The method `CommitVoteSize`. -/
def roundState.CommitVoteSize (s : roundState) : Nat := s.commitVotes.Size

/-- The method `SetHighQC`. -/
def roundState.SetHighQC (s : roundState) (qc : Option QuorumCert) : roundState :=
  { s with highQC := qc }

/-- The method `HighQC`. -/
def roundState.HighQC (s : roundState) : Option QuorumCert := s.highQC

/-- The method `SetPrepareQC`. -/
def roundState.SetPrepareQC (s : roundState) (qc : Option QuorumCert) : roundState :=
  { s with prepareQC := qc }

/-- The method `PrepareQC`. -/
def roundState.PrepareQC (s : roundState) : Option QuorumCert := s.prepareQC

/-- The method `SetPreCommittedQC`. -/
def roundState.SetPreCommittedQC (s : roundState) (qc : Option QuorumCert) : roundState :=
  { s with lockedQC := qc }

/-- The method `PreCommittedQC`. -/
def roundState.PreCommittedQC (s : roundState) : Option QuorumCert := s.lockedQC

/-- The method `SetCommittedQC`. -/
def roundState.SetCommittedQC (s : roundState) (qc : Option QuorumCert) : roundState :=
  { s with committedQC := qc }

/-- The method `CommittedQC`. -/
def roundState.CommittedQC (s : roundState) : Option QuorumCert := s.committedQC

/-- A call of one of the three methods that write the proposal or the lock flag:
`SetProposal` with a proposal that is not nil, `LockProposal` or `UnLockProposal`. -/
inductive LockCall
  | setProposal (proposal : Proposal)
  | lockProposal
  | unLockProposal
  deriving DecidableEq

/-- The round state after a method call. -/
def roundState.call (s : roundState) : LockCall → roundState
  | LockCall.setProposal proposal => s.SetProposal (some proposal)
  | LockCall.lockProposal => s.LockProposal
  | LockCall.unLockProposal => s.UnLockProposal

/-- The round state after a sequence of method calls. -/
def roundState.callAll (s : roundState) (calls : List LockCall) : roundState :=
  calls.foldl roundState.call s

/-- What the engine does to the outside during a call, in order: sleeping, and the calls of
`sendNewView` and `processBacklog`. -/
inductive Effect
  | sleep (d : Int)
  | sendNewView (view : View)
  | processBacklog
  deriving DecidableEq

/-- A `*time.Timer` made by `time.AfterFunc`: its duration in nanoseconds and whether `Stop`
was called on it. -/
structure Timer where
  duration : Int
  stopped : Bool
  deriving DecidableEq

/-- The struct `core`, with the fields `startNewRound` reads or writes. The effects of a
call on the outside are appended to `trace`. -/
structure core where
  config : Config
  current : Option roundState
  valSet : Option defaultSet
  roundChangeTimer : Option Timer
  isRunning : Bool
  trace : List Effect
  deriving DecidableEq

/-- The constant `maxRetry`. -/
def maxRetry : Nat := 10

/-- The value `retryPeriod` of `startNewRound`:
`time.Duration(c.config.RequestTimeout/maxRetry) * time.Millisecond`, in `int64`. -/
def core.retryPeriod (c : core) : Int :=
  wrapInt64 (wrapInt64 ((c.config.RequestTimeout / maxRetry : Nat) : Int) * Millisecond)

/-- The method `stopTimer`. -/
def core.stopTimer (c : core) : core :=
  match c.roundChangeTimer with
  | some t => { c with roundChangeTimer := some { t with stopped := true } }
  | none => c

/-- Modelled from the spec: the method `processBacklog`, defined outside these sources,
re-injects stored messages as events (section 4.3) and leaves the round state as it is. -/
def core.processBacklog (c : core) : core :=
  { c with trace := c.trace ++ [Effect.processBacklog] }

/-- Modelled from the spec: the method `sendNewView`, defined outside these sources, hands a
`NewView` message for the proposer to the backend (section 4.4, step 6; outbound work is
fire-and-forget) and leaves the round state as it is. -/
def core.sendNewView (c : core) (view : View) : core :=
  { c with trace := c.trace ++ [Effect.sendNewView view] }

/-- The method `setCurrentState`. -/
def core.setCurrentState (c : core) (s : State) : Outcome core :=
  match c.current with
  | none => Outcome.panic
  | some cur => Outcome.ok ({ c with current := some (cur.SetState s) }).processBacklog

/-- The method `newRoundChangeTimer`, with `time.Duration` computed in `int64`. -/
def core.newRoundChangeTimer (c : core) : Outcome core :=
  let c1 := c.stopTimer
  let timeout := wrapInt64 (wrapInt64 (c1.config.RequestTimeout : Int) * Millisecond)
  match c1.current with
  | none => Outcome.panic
  | some cur =>
    let round := bigUint64 cur.Round
    let timeout1 :=
      if round > 0 then wrapInt64 (timeout + wrapInt64 (pow2Duration round * Second))
      else timeout
    Outcome.ok { c1 with roundChangeTimer := some { duration := timeout1, stopped := false } }

/-- How the label `catchup` of `startNewRound` ends: with a plain return, or with the last
proposal, its proposer and the flag `changeView` for the rest of the function. Both carry
the sleeps made on the way. -/
inductive Decision
  | reject (slept : List Effect)
  | proceed (lastProposal : Option Proposal) (lastProposer : Address) (changeView : Bool)
      (slept : List Effect)
  deriving DecidableEq

/-- One pass through the code of `startNewRound` from the label `catchup` to the
construction of the new view, on the answer `(lastProposal, lastProposer)` of
`LastProposal`. The argument `retry` is what the branch for round 0 leads to: it decrements
`catchUpRetryCnt` and returns, or sleeps and jumps back to the label. -/
def catchupPass (current : Option roundState) (round : Int) (lastProposal : Option Proposal)
    (lastProposer : Address) (slept : List Effect) (retry : Decision) : Decision :=
  match current with
  | none => Decision.proceed lastProposal lastProposer false slept
  | some cur =>
    match lastProposal with
    | none => Decision.reject slept
    | some last =>
      if last.number ≥ cur.Height then
        Decision.proceed lastProposal lastProposer false slept
      else if last.number = wrapInt64 (bigInt64 cur.Height - 1) then
        if round = 0 then retry
        else if round < cur.Round then Decision.reject slept
        else Decision.proceed lastProposal lastProposer true slept
      else Decision.reject slept

/-- The loop formed by the label `catchup` and the jump back to it. The first argument is
the value of `catchUpRetryCnt` minus one, the second the number of `LastProposal` reads made
so far. -/
def catchup (b : Backend) (current : Option roundState) (round : Int) (retryPeriod : Int) :
    Nat → Nat → List Effect → Decision
  | 0, reads, slept =>
    catchupPass current round (b.LastProposal reads).1 (b.LastProposal reads).2 slept
      (Decision.reject slept)
  | n + 1, reads, slept =>
    catchupPass current round (b.LastProposal reads).1 (b.LastProposal reads).2 slept
      (catchup b current round retryPeriod n (reads + 1) (slept ++ [Effect.sleep retryPeriod]))

/-- The method `startNewRound`. The function `proposal2QC` is defined outside these sources
and is a parameter. -/
def core.startNewRound (proposal2QC : Option Proposal → Int → Option QuorumCert)
    (b : Backend) (c : core) (round : Int) : Outcome core :=
  if c.isRunning = false then Outcome.ok c
  else
    match catchup b c.current round c.retryPeriod (maxRetry - 1) 0 [] with
    | Decision.reject slept => Outcome.ok { c with trace := c.trace ++ slept }
    | Decision.proceed lastProposal lastProposer changeView slept =>
      match lastProposal with
      | none => Outcome.panic
      | some last =>
        let newView : View :=
          match changeView, c.current with
          | true, some cur => { Height := cur.Height, Round := round }
          | _, _ => { Height := last.number + 1, Round := 0 }
        let lastLocked : Bool × Option Proposal :=
          match c.current with
          | some cur => cur.LastLockedProposal
          | none => (false, none)
        let lastPendingRequest : Option Request :=
          match c.current with
          | some cur => cur.PendingRequest
          | none => none
        let valSet := (b.Validators (bigUint64 newView.Height)).CalcProposer lastProposer
          (bigUint64 newView.Round)
        let prepareQC := proposal2QC lastProposal 0
        let cur0 := newRoundState newView valSet prepareQC
        let cur1 :=
          if changeView = true ∧ lastLocked.1 = true ∧ lastLocked.2 ≠ none then
            (cur0.SetProposal lastLocked.2).LockProposal
          else cur0
        let cur2 :=
          if changeView = true ∧ lastPendingRequest ≠ none then
            cur1.SetPendingRequest lastPendingRequest
          else cur1
        let c1 : core :=
          { c with valSet := some valSet, current := some cur2, trace := c.trace ++ slept }
        match c1.setCurrentState StateAcceptRequest with
        | Outcome.ok c2 => (c2.sendNewView newView).newRoundChangeTimer
        | Outcome.panic => Outcome.panic
        | Outcome.outOfFuel => Outcome.outOfFuel

/-- The method `Stop`; the event subscriptions are outside the model. -/
def core.Stop (c : core) : core :=
  { c.stopTimer with isRunning := false }

/-- The method `handleTimeoutMsg`. -/
def core.handleTimeoutMsg (proposal2QC : Option Proposal → Int → Option QuorumCert)
    (b : Backend) (c : core) : Outcome core :=
  match c.current with
  | none => Outcome.panic
  | some cur => c.startNewRound proposal2QC b (cur.Round + 1)

/-- The duration, in nanoseconds, of the timer that a call of `newRoundChangeTimer` installs;
nil when the call panics. -/
def core.timerDuration (c : core) : Option Int :=
  match c.newRoundChangeTimer with
  | Outcome.ok c1 => c1.roundChangeTimer.map fun t => t.duration
  | _ => none

end core

/-! ## Package `rlp`: the wire format of the header extra-data -/

deriving instance DecidableEq for Except

namespace rlp

/-- Modelled from the spec: the errors of the RLP decoder (package `rlp` lies outside these
sources; the spec names the kind "Decode: malformed RLP"). -/
inductive Error
  | ErrExpectedString
  | ErrExpectedList
  | ErrCanonSize
  | ErrElemTooLarge
  | ErrValueTooLarge
  | ErrMoreThanOneValue
  | errNotAtEOL
  | ErrUnexpectedEOF
  | tooFewElements
  | wrongArraySize
  deriving DecidableEq, Repr

/-- The number spelled by bytes in big-endian order. -/
def fromBigEndian : List Nat → Nat
  | [] => 0
  | b :: bs => b * 256 ^ bs.length + fromBigEndian bs

/-- The big-endian bytes of a number, prepended to `acc`, the most significant first and
without leading zero bytes; at most `fuel` bytes are produced. -/
def putintAux : Nat → Nat → List Nat → List Nat
  | 0, _, acc => acc
  | fuel + 1, n, acc => if n = 0 then acc else putintAux fuel (n / 256) (n % 256 :: acc)

/-- Modelled from the spec: the big-endian bytes of a `uint64` size, without leading zero
bytes, as the RLP format writes the length of a long string or list. -/
def putint (n : Nat) : List Nat := putintAux 8 n []

/-- Modelled from the spec: the RLP header of a payload of `size` bytes; `base` is `0x80`
for a string and `0xC0` for a list. Up to 55 bytes the size is in the first byte, above
that the first byte gives the number of size bytes that follow. -/
def encodeHeader (base size : Nat) : List Nat :=
  if size < 56 then [base + size] else (base + 55 + (putint size).length) :: putint size

/-- Modelled from the spec: the RLP encoding of a byte string. A single byte below `0x80`
is its own encoding. -/
def encodeString (b : List Nat) : List Nat :=
  match b with
  | [x] => if x < 128 then [x] else encodeHeader 128 1 ++ [x]
  | _ => encodeHeader 128 b.length ++ b

/-- Modelled from the spec: the RLP encoding of a list whose encoded elements are
`payload`. -/
def encodeList (payload : List Nat) : List Nat :=
  encodeHeader 192 payload.length ++ payload

/-- The kinds of value the decoder tells apart from the first byte. -/
inductive Kind
  | Byte
  | String
  | List
  deriving DecidableEq, Repr

/-- What the decoder knows after the header of a value: its kind, the size of its payload,
the value of a single byte, and the input after the header. -/
structure Head where
  kind : Kind
  size : Nat
  byteval : Nat
  rest : List Nat
  deriving DecidableEq

/-- Modelled from the spec: reading the size bytes of a long string or list. More than one
size byte must not start with a zero byte. -/
def readUint (size : Nat) (input : List Nat) : Except Error (Nat × List Nat) :=
  if size = 0 then Except.ok (0, input)
  else if input.length < size then Except.error Error.ErrUnexpectedEOF
  else if size ≠ 1 ∧ input.head? = some 0 then Except.error Error.ErrCanonSize
  else Except.ok (fromBigEndian (input.take size), input.drop size)

/-- Modelled from the spec: reading the header of the next value. A size that would have
fitted the first byte is rejected, and so is a payload longer than the input that is left
(`inList` tells which of the two errors of the decoder that is). -/
def readKind (inList : Bool) (input : List Nat) : Except Error Head :=
  match input with
  | [] => Except.error Error.ErrUnexpectedEOF
  | b :: rest =>
    let tooLarge := if inList then Error.ErrElemTooLarge else Error.ErrValueTooLarge
    if b < 128 then Except.ok { kind := Kind.Byte, size := 0, byteval := b, rest := rest }
    else if b < 184 then
      if rest.length < b - 128 then Except.error tooLarge
      else Except.ok { kind := Kind.String, size := b - 128, byteval := 0, rest := rest }
    else if b < 192 then
      match readUint (b - 183) rest with
      | Except.error e => Except.error e
      | Except.ok (size, rest1) =>
        if size < 56 then Except.error Error.ErrCanonSize
        else if rest1.length < size then Except.error tooLarge
        else Except.ok { kind := Kind.String, size := size, byteval := 0, rest := rest1 }
    else if b < 248 then
      if rest.length < b - 192 then Except.error tooLarge
      else Except.ok { kind := Kind.List, size := b - 192, byteval := 0, rest := rest }
    else
      match readUint (b - 247) rest with
      | Except.error e => Except.error e
      | Except.ok (size, rest1) =>
        if size < 56 then Except.error Error.ErrCanonSize
        else if rest1.length < size then Except.error tooLarge
        else Except.ok { kind := Kind.List, size := size, byteval := 0, rest := rest1 }

/-- Modelled from the spec: decoding a byte string (`Stream.Bytes`): the bytes and the input
after them. A one-byte string below `0x80` with a header is rejected. -/
def decodeBytes (inList : Bool) (input : List Nat) : Except Error (List Nat × List Nat) :=
  match readKind inList input with
  | Except.error e => Except.error e
  | Except.ok h =>
    match h.kind with
    | Kind.Byte => Except.ok ([h.byteval], h.rest)
    | Kind.String =>
      match h.rest.take h.size with
      | [x] =>
        if x < 128 then Except.error Error.ErrCanonSize
        else Except.ok ([x], h.rest.drop h.size)
      | b => Except.ok (b, h.rest.drop h.size)
    | Kind.List => Except.error Error.ErrExpectedString

/-- Modelled from the spec: entering a list (`Stream.List`): its payload and the input after
the list. -/
def openList (inList : Bool) (input : List Nat) : Except Error (List Nat × List Nat) :=
  match readKind inList input with
  | Except.error e => Except.error e
  | Except.ok h =>
    match h.kind with
    | Kind.List => Except.ok (h.rest.take h.size, h.rest.drop h.size)
    | _ => Except.error Error.ErrExpectedList

/-- Modelled from the spec: decoding the elements of a list of byte strings from its
payload, until the payload is used up. Every element takes at least one byte, so `fuel`
above the length of the payload suffices. -/
def decodeByteSlices : Nat → List Nat → Except Error (List (List Nat))
  | 0, _ => Except.error Error.ErrElemTooLarge
  | fuel + 1, payload =>
    if payload = [] then Except.ok []
    else
      match decodeBytes true payload with
      | Except.error e => Except.error e
      | Except.ok (b, rest) =>
        match decodeByteSlices fuel rest with
        | Except.error e => Except.error e
        | Except.ok bs => Except.ok (b :: bs)

end rlp

namespace rlp

open bft

/-- The bytes of a number in big-endian order at a fixed width. -/
def bigEndianBytes : Nat → Nat → List Nat
  | 0, _ => []
  | width + 1, n => n / 256 ^ width % 256 :: bigEndianBytes width n

/-- The 20 bytes of an address. -/
def addressBytes (a : Address) : List Nat := bigEndianBytes 20 a.val

/-- The address that 20 bytes spell. -/
def addressOfBytes (bs : List Nat) : Address :=
  ⟨fromBigEndian bs % 2 ^ 160, Nat.mod_lt _ (by norm_num)⟩

/-- Modelled from the spec: decoding a 20-byte array: only a string of exactly 20 bytes is
accepted. -/
def decodeAddress (inList : Bool) (input : List Nat) : Except Error (Address × List Nat) :=
  match readKind inList input with
  | Except.error e => Except.error e
  | Except.ok h =>
    match h.kind with
    | Kind.Byte => Except.error Error.wrongArraySize
    | Kind.String =>
      if h.size ≠ 20 then Except.error Error.wrongArraySize
      else Except.ok (addressOfBytes (h.rest.take h.size), h.rest.drop h.size)
    | Kind.List => Except.error Error.ErrExpectedString

/-- Modelled from the spec: decoding the elements of a list of addresses from its payload,
until the payload is used up. -/
def decodeAddresses : Nat → List Nat → Except Error (List Address)
  | 0, _ => Except.error Error.ErrElemTooLarge
  | fuel + 1, payload =>
    if payload = [] then Except.ok []
    else
      match decodeAddress true payload with
      | Except.error e => Except.error e
      | Except.ok (a, rest) =>
        match decodeAddresses fuel rest with
        | Except.error e => Except.error e
        | Except.ok more => Except.ok (a :: more)

end rlp

/-! ## Package `common`: the rendering of an address -/

namespace common

open bft

/-- One step of the linear feedback shift register that yields the bits of the round
constants: the state is a byte, the feedback polynomial `x^8 + x^6 + x^5 + x^4 + 1`. -/
def shiftRegisterStep (r : Nat) : Nat :=
  if 128 ≤ r then (2 * r ^^^ 113) % 256 else 2 * r

/-- The round constant that starts at a state of the shift register, and the state after
it: seven output bits of the register, the bit j placed at the position `2 ^ j - 1`. -/
def roundConstantFrom (state : Nat) : Nat × Nat :=
  (List.range 7).foldl
    (fun (acc : Nat × Nat) j =>
      (if acc.2 % 2 = 1 then acc.1 ^^^ 2 ^ (2 ^ j - 1) else acc.1, shiftRegisterStep acc.2))
    (0, state)

/-- The 24 round constants of Keccak-f[1600], the register starting at 1. -/
def roundConstants : List Nat :=
  ((List.range 24).foldl
    (fun (acc : List Nat × Nat) _ =>
      ((acc.1 ++ [(roundConstantFrom acc.2).1]), (roundConstantFrom acc.2).2))
    ([], 1)).1

/-- The rotation offsets of Keccak-f[1600], the lane (x, y) standing at position x + 5 y:
the walk starts at the lane (1, 0) and goes from (x, y) to (y, 2 x + 3 y); its step t has
the offset `(t + 1) (t + 2) / 2` modulo 64, and the lane (0, 0) the offset 0. -/
def rotationOffsets : List Nat :=
  ((List.range 24).foldl
    (fun (acc : List Nat × Nat × Nat) t =>
      (acc.1.set (acc.2.1 + 5 * acc.2.2) ((t + 1) * (t + 2) / 2 % 64),
        acc.2.2, (2 * acc.2.1 + 3 * acc.2.2) % 5))
    (List.replicate 25 0, 1, 0)).1

/-- Rotation of a 64-bit lane to the left. -/
def rotateLeft64 (x n : Nat) : Nat :=
  ((x <<< n) ||| (x >>> (64 - n))) % 2 ^ 64

/-- The lane (x, y) of a state of 25 lanes, the coordinates taken modulo 5. -/
def lane (a : List Nat) (x y : Nat) : Nat :=
  a.getD (x % 5 + 5 * (y % 5)) 0

/-- One round of Keccak-f[1600]: the steps theta, rho and pi, chi and iota. -/
def keccakRound (a : List Nat) (rc : Nat) : List Nat :=
  let c := (List.range 5).map fun x =>
    lane a x 0 ^^^ lane a x 1 ^^^ lane a x 2 ^^^ lane a x 3 ^^^ lane a x 4
  let d := (List.range 5).map fun x =>
    c.getD ((x + 4) % 5) 0 ^^^ rotateLeft64 (c.getD ((x + 1) % 5) 0) 1
  let a1 := (List.range 25).map fun i => a.getD i 0 ^^^ d.getD (i % 5) 0
  let b := (List.range 25).map fun i =>
    rotateLeft64 (lane a1 (i % 5 + 3 * (i / 5)) (i % 5))
      (rotationOffsets.getD ((i % 5 + 3 * (i / 5)) % 5 + 5 * (i % 5)) 0)
  let a2 := (List.range 25).map fun i =>
    lane b (i % 5) (i / 5) ^^^
      ((lane b (i % 5 + 1) (i / 5) ^^^ (2 ^ 64 - 1)) &&& lane b (i % 5 + 2) (i / 5))
  a2.set 0 (a2.getD 0 0 ^^^ rc)

/-- The permutation Keccak-f[1600]. -/
def keccakF (a : List Nat) : List Nat :=
  roundConstants.foldl keccakRound a

/-- The number that bytes spell in little-endian order. -/
def fromLittleEndian : List Nat → Nat
  | [] => 0
  | b :: bs => b + 256 * fromLittleEndian bs

/-- The eight bytes of a lane in little-endian order. -/
def laneBytes (x : Nat) : List Nat :=
  (List.range 8).map fun i => x / 256 ^ i % 256

/-- The padding of legacy Keccak to a multiple of the rate of 136 bytes. -/
def keccakPad (data : List Nat) : List Nat :=
  if data.length % 136 = 135 then data ++ [0x81]
  else data ++ [0x01] ++ List.replicate (134 - data.length % 136) 0 ++ [0x80]

/-- The absorption of the padded input, block by block; `fuel` bounds the blocks. -/
def keccakAbsorb : Nat → List Nat → List Nat → List Nat
  | 0, _, a => a
  | fuel + 1, data, a =>
    if data = [] then a
    else
      keccakAbsorb fuel (data.drop 136)
        (keccakF ((List.range 25).map fun i =>
          a.getD i 0 ^^^
            (if i < 17 then fromLittleEndian ((data.drop (8 * i)).take 8) else 0)))

/-- Modelled from the spec: the hash `sha3.NewLegacyKeccak256`, declared outside these
sources: Keccak-256 with the padding of the original submission. -/
def Keccak256 (data : List Nat) : List Nat :=
  ((keccakAbsorb (data.length + 1) (keccakPad data) (List.replicate 25 0)).take 4).flatMap
    laneBytes

/-- The ASCII code of a hexadecimal digit, in lower case. -/
def hexDigit (n : Nat) : Nat :=
  if n < 10 then 48 + n else 87 + n

/-- The 40 lower-case hexadecimal digits of an address. -/
def hexLower (a : Address) : List Nat :=
  (rlp.addressBytes a).flatMap fun b => [hexDigit (b / 16), hexDigit (b % 16)]

/-- Modelled from the spec: the method `String` of `common.Address`, declared outside these
sources: `0x` and the hexadecimal digits of the address with the checksum of EIP-55, in which
a letter is in upper case when the matching half-byte of the Keccak-256 hash of the
lower-case digits is above 7. -/
def Address.String (a : Address) : GoString :=
  let digits := hexLower a
  let hash := Keccak256 digits
  [48, 120] ++ (List.range 40).map fun i =>
    let hashByte := hash.getD (i / 2) 0
    let half := if i % 2 = 0 then hashByte / 16 else hashByte % 16
    let c := digits.getD i 0
    if 57 < c ∧ 7 < half then c - 32 else c

end common

/-! ## Package `types`: the extra-data of a block header -/

namespace types

open bft

/-- The variable `BftExtraVanity`. -/
def BftExtraVanity : Nat := 32

/-- The variable `BftExtraSeal`. -/
def BftExtraSeal : Nat := 65

/-- The errors `ExtractBftExtraPayload` returns: its own, or the one of the decoder. -/
inductive Error
  | ErrInvalidBftHeaderExtra
  | decode (e : rlp.Error)
  deriving DecidableEq

/-- The struct `BftExtra`. A nil slice and an empty one are the same list. -/
structure BftExtra where
  Validators : List Address
  Seal : List Nat
  CommittedSeal : List (List Nat)
  Salt : List Nat
  deriving DecidableEq

/-- Modelled from the spec: the struct `types.Header`, declared outside these sources, with
the two fields the engine reads here: the block number and the extra-data. -/
structure Header where
  Number : Int
  Extra : List Nat
  deriving DecidableEq

/-- The method `EncodeRLP`: the RLP list of the four fields. -/
def BftExtra.EncodeRLP (ist : BftExtra) : List Nat :=
  rlp.encodeList
    (rlp.encodeList (ist.Validators.flatMap fun a => rlp.encodeString (rlp.addressBytes a))
      ++ rlp.encodeString ist.Seal
      ++ rlp.encodeList (ist.CommittedSeal.flatMap rlp.encodeString)
      ++ rlp.encodeString ist.Salt)

/-- The method `DecodeRLP` on the bytes the stream holds: the decoded value and the bytes
after it. The struct is a list of exactly four elements. -/
def BftExtra.DecodeRLP (input : List Nat) : Except rlp.Error (BftExtra × List Nat) := do
  let (payload, rest) ← rlp.openList false input
  if payload = [] then throw rlp.Error.tooFewElements
  let (validatorsPayload, rest1) ← rlp.openList true payload
  let validators ← rlp.decodeAddresses (validatorsPayload.length + 1) validatorsPayload
  if rest1 = [] then throw rlp.Error.tooFewElements
  let (sealBytes, rest2) ← rlp.decodeBytes true rest1
  if rest2 = [] then throw rlp.Error.tooFewElements
  let (committedPayload, rest3) ← rlp.openList true rest2
  let committedSeal ← rlp.decodeByteSlices (committedPayload.length + 1) committedPayload
  if rest3 = [] then throw rlp.Error.tooFewElements
  let (salt, rest4) ← rlp.decodeBytes true rest3
  if rest4 ≠ [] then throw rlp.Error.errNotAtEOL
  return ({ Validators := validators, Seal := sealBytes, CommittedSeal := committedSeal,
            Salt := salt }, rest)

/-- Modelled from the spec: the call `rlp.DecodeBytes(b, &bftExtra)`: one value, and no
bytes after it. -/
def DecodeBytes (b : List Nat) : Except rlp.Error BftExtra :=
  match BftExtra.DecodeRLP b with
  | Except.error e => Except.error e
  | Except.ok (bftExtra, rest) =>
    if rest ≠ [] then Except.error rlp.Error.ErrMoreThanOneValue else Except.ok bftExtra

/-- The function `ExtractBftExtraPayload`. -/
def ExtractBftExtraPayload (extra : List Nat) : Except Error BftExtra :=
  if extra.length < BftExtraVanity then Except.error Error.ErrInvalidBftHeaderExtra
  else
    match DecodeBytes (extra.drop BftExtraVanity) with
    | Except.error e => Except.error (Error.decode e)
    | Except.ok bftExtra => Except.ok bftExtra

/-- The function `ExtractBftExtra`. -/
def ExtractBftExtra (h : Header) : Except Error BftExtra :=
  ExtractBftExtraPayload h.Extra

/-- Modelled from the spec: the call `rlp.EncodeToBytes` on a `BftExtra`, declared outside
these sources: the bytes that `EncodeRLP` writes. The encoder has no error for the field
types of `BftExtra`. -/
def EncodeToBytes (ist : BftExtra) : Except rlp.Error (List Nat) :=
  Except.ok ist.EncodeRLP

/-- Modelled from the spec: the function `CopyHeader`, declared outside these sources: a
header with the same field values, its extra-data in a byte slice of its own. -/
def CopyHeader (h : Header) : Header :=
  { Number := h.Number, Extra := h.Extra }

/-- The function `BftFilteredHeader`: the new header, or nil. -/
def BftFilteredHeader (h : Header) (keepSeal : Bool) : Option Header :=
  let newHeader := CopyHeader h
  match ExtractBftExtra newHeader with
  | Except.error _ => none
  | Except.ok extra =>
    let extra1 : BftExtra := if keepSeal = false then { extra with Seal := [] } else extra
    let extra2 : BftExtra := { extra1 with CommittedSeal := [] }
    match EncodeToBytes extra2 with
    | Except.error _ => none
    | Except.ok payload =>
      some { newHeader with Extra := newHeader.Extra.take BftExtraVanity ++ payload }

/-- The function `BftHeaderFillWithValidators`: the header after the call and the error. -/
def BftHeaderFillWithValidators (header : Header) (vals : List Address) :
    Header × Option rlp.Error :=
  let header1 : Header :=
    if header.Extra.length < BftExtraVanity then
      { header with
        Extra := header.Extra ++ List.replicate (BftExtraVanity - header.Extra.length) 0 }
    else header
  let buf := header1.Extra.take BftExtraVanity
  let ist : BftExtra := { Validators := vals, Seal := [], CommittedSeal := [], Salt := [] }
  match EncodeToBytes ist with
  | Except.error err => (header1, some err)
  | Except.ok payload => ({ header1 with Extra := buf ++ payload }, none)

end types

/-! ## Package `backend`: saving epochs -/

namespace backend

open bft validator

/-- The struct `epochJSON`. -/
structure epochJSON where
  StartHeight : Nat
  Validators : List Address
  LastEpochStartHeight : Nat
  deriving DecidableEq

/-- The method `toJSONStruct`. -/
def Epoch.toJSONStruct (e : Epoch) : epochJSON :=
  { StartHeight := e.StartHeight
    Validators := e.ValSet.AddressList
    LastEpochStartHeight := e.LastEpochStartHeight }

/-- Modelled from the spec: the calls the epoch store makes into `encoding/json` and `rawdb`,
declared outside these sources. `Marshal` gives the blob or an error; each write gives the
database after the call and the error, if any. -/
structure Storage (DB E : Type) where
  Marshal : epochJSON → Except E (List Nat)
  WriteEpoch : DB → Nat → List Nat → DB × Option E
  WriteCurrentEpochHeight : DB → Nat → DB × Option E

/-- The errors `UpdateEpoch` returns: the one of `ExtractBftExtra` or the one of the store. -/
inductive Error (E : Type)
  | extra (e : types.Error)
  | store (e : E)
  deriving DecidableEq

/-- The function `storeCurEpoch`: the database after the call and the error, if any. -/
def storeCurEpoch {DB E : Type} (env : Storage DB E) (db : DB) (epoch : Epoch) :
    DB × Option E :=
  match env.Marshal epoch.toJSONStruct with
  | Except.error err => (db, some err)
  | Except.ok blob =>
    match env.WriteEpoch db epoch.StartHeight blob with
    | (db1, some err) => (db1, some err)
    | (db1, none) => env.WriteCurrentEpochHeight db1 epoch.StartHeight

/-- The method `saveEpoch`: the store and the database after the call, and the error. -/
def backend.saveEpoch {DB E : Type} (env : Storage DB E) (str : Address → GoString)
    (s : backend) (db : DB) (height : Nat) (list : List Address) :
    backend × DB × Option E :=
  if (s.epochs.lookup height).isSome then (s, db, none)
  else if s.maxEpochStartHeight = height then (s, db, none)
  else
    let epoch : Epoch :=
      { StartHeight := height
        ValSet := newValSet str list
        LastEpochStartHeight := s.maxEpochStartHeight }
    match storeCurEpoch env db epoch with
    | (db1, some err) => (s, db1, some err)
    | (db1, none) =>
      ({ epochs := mapSet s.epochs height epoch, maxEpochStartHeight := height }, db1, none)

/-- The method `UpdateEpoch`: the store and the database after the call, and the error. -/
def backend.UpdateEpoch {DB E : Type} (env : Storage DB E) (str : Address → GoString)
    (s : backend) (db : DB) (parent header : types.Header) :
    backend × DB × Option (Error E) :=
  let height := bigUint64 header.Number
  if height ≤ s.maxEpochStartHeight ∨ height = 1 then (s, db, none)
  else
    match types.ExtractBftExtra parent with
    | Except.error err => (s, db, some (Error.extra err))
    | Except.ok parentExt =>
      if parentExt.Validators.length = 0 then (s, db, none)
      else
        match s.saveEpoch env str db height parentExt.Validators with
        | (s1, db1, err) => (s1, db1, err.map Error.store)

/-- The method `ChangeEpoch`. -/
def backend.ChangeEpoch {DB E : Type} (env : Storage DB E) (str : Address → GoString)
    (s : backend) (db : DB) (height : Nat) (list : List Address) :
    backend × DB × Option E :=
  s.saveEpoch env str db height list

/-- A sequence of `UpdateEpoch` calls, one for each pair of a parent and a header, as blocks
are inserted: the store and the database after the last call. -/
def updateAll {DB E : Type} (env : Storage DB E) (str : Address → GoString) :
    backend → DB → List (types.Header × types.Header) → backend × DB
  | s, db, [] => (s, db)
  | s, db, (parent, header) :: rest =>
    updateAll env str (s.UpdateEpoch env str db parent header).1
      (s.UpdateEpoch env str db parent header).2.1 rest

end backend

/-! ## The validator set in memory: slices and the arrays they share -/

namespace validator

open bft

/-- A Go slice of validators that starts at the beginning of its array: the array it points
into and its length. The capacity is the length of the array. -/
structure Slice where
  array : Nat
  len : Nat
  deriving DecidableEq

/-- A struct `defaultSet` in memory: the slice header of `validators` and the other
fields. -/
structure SetObject where
  validators : Slice
  policy : SelectProposerPolicy
  proposer : Option Address
  selector : Selector
  deriving DecidableEq

/-- The memory a validator set lives in: the arrays behind the slices and the `defaultSet`
structs behind the pointers, both addressed by their position. -/
structure Memory where
  arrays : List (List Address)
  sets : List SetObject
  deriving DecidableEq

/-- The elements a slice shows of its array. -/
def Memory.elements (m : Memory) (s : Slice) : List Address :=
  ((m.arrays[s.array]?).getD []).take s.len

/-- A new array with the given elements: the memory after `make` and the filling loop, and
the slice over the whole array. -/
def Memory.makeSlice (m : Memory) (elems : List Address) : Memory × Slice :=
  ({ m with arrays := m.arrays ++ [elems] }, { array := m.arrays.length, len := elems.length })

/-- The function `newDefaultSet` on the memory: the array of the validators is made, filled
and sorted in place, then the struct is allocated. The result is the pointer to it. -/
def Memory.newDefaultSet (str : Address → GoString) (m : Memory) (addrs : List Address)
    (policy : SelectProposerPolicy) : Memory × Nat :=
  let made := m.makeSlice (sortValidators str addrs)
  let valSet : SetObject :=
    { validators := made.2
      policy := policy
      proposer :=
        if 0 < made.2.len then (made.1.elements made.2)[0]? else none
      selector :=
        if policy = VRF then Selector.vrf
        else if policy = Sticky then Selector.sticky
        else Selector.roundRobin }
  ({ made.1 with sets := made.1.sets ++ [valSet] }, made.1.sets.length)

/-- The function `NewSet` on the memory. -/
def Memory.NewSet (str : Address → GoString) (m : Memory) (addrs : List Address)
    (policy : SelectProposerPolicy) : Memory × Nat :=
  m.newDefaultSet str addrs policy

/-- The method `Copy` on the memory: the slice `addresses` is made and filled with the
addresses of the receiver, and `NewSet` builds the new set from it. A nil receiver is a
panic. -/
def Memory.Copy (str : Address → GoString) (m : Memory) (valSet : Nat) :
    Outcome (Memory × Nat) :=
  match m.sets[valSet]? with
  | none => Outcome.panic
  | some obj =>
    let addresses := m.makeSlice (m.elements obj.validators)
    Outcome.ok (addresses.1.NewSet str (addresses.1.elements addresses.2) obj.policy)

/-- The array after `append(validators[:i], validators[i+1:]...)`: the elements behind
position i move one place to the front, inside the array; the last place the slice showed
keeps its element. -/
def removeAt (array : List Address) (len i : Nat) : List Address :=
  array.take i ++ (array.take len).drop (i + 1) ++ array.drop (len - 1)

/-- The method `RemoveValidator` on the memory: the memory after the call and the flag. -/
def Memory.RemoveValidator (m : Memory) (valSet : Nat) (address : Address) :
    Outcome (Memory × Bool) :=
  match m.sets[valSet]? with
  | none => Outcome.panic
  | some obj =>
    let validators := m.elements obj.validators
    if address ∈ validators then
      let i := validators.indexOf address
      let array := (m.arrays[obj.validators.array]?).getD []
      Outcome.ok
        ({ arrays := m.arrays.set obj.validators.array (removeAt array obj.validators.len i)
           sets := m.sets.set valSet
             { obj with validators := { obj.validators with len := obj.validators.len - 1 } } },
          true)
    else Outcome.ok (m, false)

/-- The method `Q` on the memory. -/
def Memory.Q (m : Memory) (valSet : Nat) : Outcome Nat :=
  match m.sets[valSet]? with
  | none => Outcome.panic
  | some obj => Outcome.ok (ceilDiv3Float64 (2 * obj.validators.len))

/-- The loop and final test of `CheckQuorum` on the memory; `validators` points to the
working copy. -/
def Memory.checkQuorumLoop (m : Memory) (validators : Nat) :
    List Address → Nat → Outcome (Memory × Option Error)
  | [], validSeal =>
    match m.Q validators with
    | Outcome.ok q =>
      Outcome.ok (m, if validSeal ≤ q then some Error.ErrInvalidParticipant else none)
    | Outcome.panic => Outcome.panic
    | Outcome.outOfFuel => Outcome.outOfFuel
  | addr :: rest, validSeal =>
    match m.RemoveValidator validators addr with
    | Outcome.ok (m1, true) => Memory.checkQuorumLoop m1 validators rest (validSeal + 1)
    | Outcome.ok (m1, false) => Outcome.ok (m1, some Error.ErrInvalidParticipant)
    | Outcome.panic => Outcome.panic
    | Outcome.outOfFuel => Outcome.outOfFuel

/-- The method `CheckQuorum` on the memory: the memory after the call and the error. -/
def Memory.CheckQuorum (str : Address → GoString) (m : Memory) (valSet : Nat)
    (committers : List Address) : Outcome (Memory × Option Error) :=
  match m.Copy str valSet with
  | Outcome.ok (m1, validators) => m1.checkQuorumLoop validators committers 0
  | Outcome.panic => Outcome.panic
  | Outcome.outOfFuel => Outcome.outOfFuel

/-- The value of the set a pointer points to: the struct with the elements of its slice. -/
def Memory.valSet (m : Memory) (valSet : Nat) : Option defaultSet :=
  (m.sets[valSet]?).map fun obj =>
    { validators := m.elements obj.validators
      policy := obj.policy
      proposer := obj.proposer
      selector := obj.selector }

/-- What the loop of `CheckQuorum` keeps: the first `na` arrays and the first `ns` structs
are those of the memory `m`, and the working copy is the struct at position `ns`, whose
slice points into the array at position `na + 1`. -/
def KeepsOld (m mk : Memory) (na ns : Nat) : Prop :=
  mk.arrays.take na = m.arrays.take na ∧ mk.sets.take ns = m.sets.take ns ∧
    ∃ objq, mk.sets[ns]? = some objq ∧ objq.validators.array = na + 1

/-- The working copy in memory and as a value: the struct at position `q` shows the value
`w`, and its slice lies inside an array of the memory. -/
def Shows (mk : Memory) (q : Nat) (w : defaultSet) : Prop :=
  ∃ objq array, mk.sets[q]? = some objq ∧ mk.arrays[objq.validators.array]? = some array ∧
    objq.validators.len ≤ array.length ∧
    w = { validators := array.take objq.validators.len, policy := objq.policy,
          proposer := objq.proposer, selector := objq.selector }

end validator

/-! ## Headers in memory: byte slices and the arrays they share -/

namespace types

open bft

/-- A Go byte slice that starts at the beginning of its array: the array it points into and
its length. The capacity is the length of the array. -/
structure ByteSlice where
  array : Nat
  len : Nat
  deriving DecidableEq

/-- A struct `Header` in memory: the block number and the slice header of `Extra`. -/
structure HeaderObject where
  Number : Int
  Extra : ByteSlice
  deriving DecidableEq

/-- The memory headers live in: the byte arrays behind the slices and the `Header` structs
behind the pointers, both addressed by their position. -/
structure Memory where
  arrays : List (List Nat)
  headers : List HeaderObject
  deriving DecidableEq

/-- The bytes a slice shows of its array. -/
def Memory.bytes (m : Memory) (s : ByteSlice) : List Nat :=
  ((m.arrays[s.array]?).getD []).take s.len

/-- The value of the header a pointer points to: its number and the bytes of its
extra-data. -/
def Memory.header (m : Memory) (h : Nat) : Option Header :=
  (m.headers[h]?).map fun obj => { Number := obj.Number, Extra := m.bytes obj.Extra }

/-- Modelled from the spec: the function `CopyHeader` on the memory, declared outside these
sources: a new struct with the fields of h; extra-data that is not empty is copied into a
new array. The result is the pointer to the new struct; a nil argument is a panic. -/
def Memory.CopyHeader (m : Memory) (h : Nat) : Outcome (Memory × Nat) :=
  match m.headers[h]? with
  | none => Outcome.panic
  | some obj =>
    if 0 < obj.Extra.len then
      Outcome.ok
        ({ arrays := m.arrays ++ [m.bytes obj.Extra]
           headers := m.headers ++
             [{ Number := obj.Number
                Extra := { array := m.arrays.length, len := obj.Extra.len } }] },
          m.headers.length)
    else Outcome.ok ({ m with headers := m.headers ++ [obj] }, m.headers.length)

/-- Go `append(s, elems...)` on bytes: the elements are written behind the slice into its
array when the array has room for them, and into a new array with the bytes of the slice
otherwise. -/
def Memory.append (m : Memory) (s : ByteSlice) (elems : List Nat) : Memory × ByteSlice :=
  let array := (m.arrays[s.array]?).getD []
  if s.len + elems.length ≤ array.length then
    ({ m with
       arrays := m.arrays.set s.array
         (array.take s.len ++ elems ++ array.drop (s.len + elems.length)) },
      { array := s.array, len := s.len + elems.length })
  else
    ({ m with arrays := m.arrays ++ [array.take s.len ++ elems] },
      { array := m.arrays.length, len := s.len + elems.length })

/-- The function `BftFilteredHeader` on the memory: the memory after the call and the
pointer to the new header, or nil. The decoded fields and the payload are values of their
own, as the decoder and the encoder allocate them. -/
def Memory.BftFilteredHeader (m : Memory) (h : Nat) (keepSeal : Bool) :
    Outcome (Memory × Option Nat) :=
  match m.CopyHeader h with
  | Outcome.panic => Outcome.panic
  | Outcome.outOfFuel => Outcome.outOfFuel
  | Outcome.ok (m1, newHeader) =>
    match m1.headers[newHeader]? with
    | none => Outcome.panic
    | some obj =>
      match ExtractBftExtraPayload (m1.bytes obj.Extra) with
      | Except.error _ => Outcome.ok (m1, none)
      | Except.ok extra =>
        let extra1 : BftExtra := if keepSeal = false then { extra with Seal := [] } else extra
        let extra2 : BftExtra := { extra1 with CommittedSeal := [] }
        match EncodeToBytes extra2 with
        | Except.error _ => Outcome.ok (m1, none)
        | Except.ok payload =>
          let appended := m1.append { obj.Extra with len := BftExtraVanity } payload
          Outcome.ok
            ({ appended.1 with
               headers := appended.1.headers.set newHeader { obj with Extra := appended.2 } },
              some newHeader)

end types

/-! ## Sample values used in the concrete instances -/

/-- A rendering of addresses used in examples: the single byte string of the number. -/
def sampleStr : bft.Address → GoString := fun a => [a.val]

/-- Four validators with the addresses 1, 2, 3, 4 under the round-robin policy. -/
def sampleSet4 : validator.defaultSet := validator.NewSet sampleStr [3, 1, 4, 2] bft.RoundRobin

/-- Three validators with the addresses 1, 2, 3 under the round-robin policy. -/
def sampleSet3 : validator.defaultSet := validator.NewSet sampleStr [2, 3, 1] bft.RoundRobin

/-- Three validators with the addresses 0, 1, 2, the first being the zero address. -/
def sampleSetZero : validator.defaultSet := validator.NewSet sampleStr [1, 0, 2] bft.RoundRobin

/-- One validator, with the address 4. -/
def sampleSet1 : validator.defaultSet := validator.NewSet sampleStr [4] bft.RoundRobin

/-- A vote of validator 3. -/
def sampleVote : bft.Message :=
  { Code := 2, Msg := [1], Address := 3, Signature := [7], CommittedSeal := [] }

/-- A second, conflicting vote of validator 3. -/
def sampleVoteAgain : bft.Message :=
  { Code := 2, Msg := [2], Address := 3, Signature := [8], CommittedSeal := [] }

/-- A vote of address 9, which is not among the validators 1, 2, 3, 4. -/
def sampleVoteOutsider : bft.Message :=
  { Code := 2, Msg := [1], Address := 9, Signature := [9], CommittedSeal := [] }

/-- The genesis epoch with the validators 1, 2, 3, 4. -/
def sampleEpoch0 : backend.Epoch :=
  { StartHeight := 0
    ValSet := backend.newValSet sampleStr [1, 2, 3, 4]
    LastEpochStartHeight := 0 }

/-- The epoch that starts at height 100 with the validators 1, 2, 3, 5. -/
def sampleEpoch100 : backend.Epoch :=
  { StartHeight := 100
    ValSet := backend.newValSet sampleStr [1, 2, 3, 5]
    LastEpochStartHeight := 0 }

/-- A block with hash 41 at height 4. -/
def sampleBlock4 : bft.Proposal := { hash := 41, number := 4 }

/-- A block with hash 71 at height 7. -/
def sampleBlock7 : bft.Proposal := { hash := 71, number := 7 }

/-- A block with hash 51 proposed at height 5. -/
def sampleBlock5 : bft.Proposal := { hash := 51, number := 5 }

/-- A backend whose chain head is the block at height 4, proposed by validator 2. -/
def sampleBackendAt4 : bft.Backend :=
  { LastProposal := fun _ => (some sampleBlock4, 2), Validators := fun _ => sampleSet4 }

/-- A backend whose chain head is the block at height 7, proposed by validator 2. -/
def sampleBackendAt7 : bft.Backend :=
  { LastProposal := fun _ => (some sampleBlock7, 2), Validators := fun _ => sampleSet4 }

/-- A stand-in for `proposal2QC`: a certificate for the proposal at the given round. -/
def sampleProposal2QC (proposal : Option bft.Proposal) (round : Int) : Option bft.QuorumCert :=
  proposal.map fun p =>
    { View := { Round := round, Height := p.number }
      Proposer := 0
      Hash := p.hash
      Extra := []
      Seals := [] }

/-- A round state at height 5, round 3, with the block at height 5 locked. -/
def sampleRoundLocked : core.roundState :=
  { (core.newRoundState ⟨3, 5⟩ sampleSet4 none) with
    proposal := some sampleBlock5, proposalLocked := true }

/-- The configuration `DefaultBasicConfig`. -/
def sampleConfig : bft.Config :=
  { RequestTimeout := 6000
    BlockPeriod := 3
    LeaderPolicy := bft.RoundRobin
    Test := false
    Epoch := 30000 }

/-- A running engine in the locked sample round state. -/
def sampleCore : core.core :=
  { config := sampleConfig
    current := some sampleRoundLocked
    valSet := some sampleSet4
    roundChangeTimer := none
    isRunning := true
    trace := [] }

/-- The running sample engine with its round state moved to the given round. -/
def sampleCoreAtRound (round : Int) : core.core :=
  { sampleCore with current := some { sampleRoundLocked with round := round } }

/-- An epoch store holding the two sample epochs. -/
def sampleStore : backend.backend :=
  { epochs := [(100, sampleEpoch100), (0, sampleEpoch0)], maxEpochStartHeight := 100 }

/-- The extra-data fields that name the validators 1, 2, 3, 5, with a seal of two bytes, two
committed seals and an empty salt. -/
def sampleExtra : types.BftExtra :=
  { Validators := [1, 2, 3, 5], Seal := [200, 7], CommittedSeal := [[9], [128, 1]], Salt := [] }

/-- A header at height 99 whose extra-data is 32 vanity bytes and the sample fields. -/
def sampleParent : types.Header :=
  { Number := 99, Extra := List.replicate 32 0 ++ sampleExtra.EncodeRLP }

/-- A header at height 100. -/
def sampleHeader100 : types.Header := { Number := 100, Extra := [] }

/-- A header at height 1. -/
def sampleHeader1 : types.Header := { Number := 1, Extra := [] }

/-- A database that keeps the blobs and the current height, and whose writes succeed. -/
def sampleStorage : backend.Storage (List (Nat × List Nat) × Nat) Unit :=
  { Marshal := fun j => Except.ok (j.StartHeight :: j.LastEpochStartHeight ::
      j.Validators.map fun a => a.val)
    WriteEpoch := fun db height blob => ((mapSet db.1 height blob, db.2), none)
    WriteCurrentEpochHeight := fun db height => ((db.1, height), none) }

/-- An epoch store holding the genesis epoch only. -/
def sampleStoreGenesis : backend.backend :=
  { epochs := [(0, sampleEpoch0)], maxEpochStartHeight := 0 }

/-- The genesis header: height 0, with the sample fields in its extra-data. -/
def sampleGenesisHeader : types.Header :=
  { Number := 0, Extra := List.replicate 32 7 ++ sampleExtra.EncodeRLP }

/-- Three validators with the addresses 1, 2, 3 under the sticky policy. -/
def sampleSetSticky : validator.defaultSet := validator.NewSet sampleStr [2, 3, 1] bft.Sticky

/-- Three validators with the addresses 1, 2, 3 under the VRF policy. -/
def sampleSetVRF : validator.defaultSet := validator.NewSet sampleStr [2, 3, 1] bft.VRF

/-- The set of no validators. -/
def sampleSetEmpty : validator.defaultSet := validator.NewSet sampleStr [] bft.RoundRobin

/-- The epoch that starts at height 50 with the validators 1, 2, 3 and follows on 100. -/
def sampleEpoch50 : backend.Epoch :=
  { StartHeight := 50
    ValSet := backend.newValSet sampleStr [1, 2, 3]
    LastEpochStartHeight := 100 }

/-- The epoch store that `ChangeEpoch(50, [1, 2, 3])` leaves of the store with the two sample
epochs: records at the heights 50, 100 and 0, and `maxEpochStartHeight` 50. -/
def sampleStoreLowered : backend.backend :=
  { epochs := [(50, sampleEpoch50), (100, sampleEpoch100), (0, sampleEpoch0)]
    maxEpochStartHeight := 50 }

/-- A header at height 99 with no extra-data at all. -/
def sampleParentBare : types.Header := { Number := 99, Extra := [] }

/-- A backend whose chain head is the block at height 3 when the engine is at height 5. -/
def sampleBackendAt3 : bft.Backend :=
  { LastProposal := fun _ => (some { hash := 31, number := 3 }, 2)
    Validators := fun _ => sampleSet4 }

/-- An engine that was just started: running, without a round state. -/
def sampleCoreInitial : core.core :=
  { sampleCore with current := none, valSet := none }

/-- A certificate for the block at height 4, round 0. -/
def sampleQC : bft.QuorumCert :=
  { View := { Round := 0, Height := 4 }
    Proposer := 0
    Hash := 41
    Extra := []
    Seals := [] }

/-- A memory that holds one validator set, built by `NewSet` from the addresses 3, 1, 4, 2
under the round-robin policy; the pointer to the set is 0. -/
def sampleMemory : validator.Memory :=
  (validator.Memory.NewSet sampleStr { arrays := [], sets := [] } [3, 1, 4, 2]
    bft.RoundRobin).1

/-- Seven validators with the addresses 1 to 7 under the round-robin policy. -/
def sampleSet7 : validator.defaultSet :=
  validator.NewSet sampleStr [1, 2, 3, 4, 5, 6, 7] bft.RoundRobin

/-- The running sample engine with a `RequestTimeout` of `10 ^ 14` milliseconds. -/
def sampleCoreHugeTimeout : core.core :=
  { sampleCore with config := { sampleConfig with RequestTimeout := 100000000000000 } }

/-- A header at height 7 with three bytes of extra-data. -/
def sampleHeaderShort : types.Header := { Number := 7, Extra := [1, 2, 3] }

/-- A memory that holds one header: the sample parent header, behind the pointer 0. -/
def sampleHeaderMemory : types.Memory :=
  { arrays := [sampleParent.Extra]
    headers := [{ Number := 99, Extra := { array := 0, len := sampleParent.Extra.length } }] }

/-- A round state at the height `2 ^ 64 + 5`, round 3, with the block at height 5 locked. -/
def sampleRoundHugeHeight : core.roundState :=
  { sampleRoundLocked with height := 2 ^ 64 + 5 }

/-- A running engine whose round state is at the height `2 ^ 64 + 5`. -/
def sampleCoreHugeHeight : core.core :=
  { sampleCore with current := some sampleRoundHugeHeight }

/-! ## Float64 arithmetic of `F` and `Q` -/

theorem float64OfNat_exact (x : Nat) (h : x < 2 ^ 53) : float64OfNat x = x := by
  have hs : droppedBits x 64 0 = 0 := by
    simp only [droppedBits]
    rw [if_pos (by simpa using h)]
  simp [float64OfNat, hs, roundHalfEven, Nat.mod_one]

theorem scaleUp_ge (y : Nat) : ∀ fuel k, k ≤ scaleUp y fuel k := by
  intro fuel
  induction fuel with
  | zero => intro k; simp [scaleUp]
  | succ n ih =>
    intro k
    simp only [scaleUp]
    split
    · exact le_refl k
    · exact Nat.le_of_succ_le (ih (k + 1))

theorem scaleUp_pos (y : Nat) (h : y < 3 * 2 ^ 52) : 1 ≤ scaleUp y 64 0 := by
  have h1 : scaleUp y 64 0 = scaleUp y 63 1 := by
    show (if 3 * 2 ^ 52 ≤ y * 2 ^ 0 then 0 else scaleUp y 63 (0 + 1)) = scaleUp y 63 1
    rw [if_neg (by simpa using h)]
  rw [h1]
  exact scaleUp_ge y 63 1

theorem roundHalfEven_three (n : Nat) :
    roundHalfEven n 3 = if n % 3 = 2 then n / 3 + 1 else n / 3 := by
  unfold roundHalfEven
  have h3 : n % 3 < 3 := Nat.mod_lt _ (by norm_num)
  by_cases h : n % 3 = 2
  · simp [h]
  · rw [if_neg h, if_neg]
    omega

theorem ceil_scaled_quotient (y P : Nat) (hP : 2 ≤ P) :
    (roundHalfEven (y * P) 3 + P - 1) / P = (y + 2) / 3 := by
  have hPpos : 0 < P := by omega
  obtain ⟨m, t, ht, hy⟩ : ∃ m t, t < 3 ∧ y = 3 * m + t :=
    ⟨y / 3, y % 3, Nat.mod_lt _ (by norm_num), by omega⟩
  have hyP : y * P = 3 * (m * P) + t * P := by rw [hy]; ring
  rw [roundHalfEven_three, hyP]
  have hres : (y + 2) / 3 = if t = 0 then m else m + 1 := by
    split <;> omega
  rw [hres]
  generalize hmP : m * P = w
  interval_cases t
  · simp only [Nat.zero_mul, Nat.add_zero, if_true]
    have h0 : (3 * w) % 3 = 0 := by omega
    have h1 : (3 * w) / 3 = w := by omega
    rw [if_neg (by omega), h1, ← hmP]
    have : m * P + P - 1 = P - 1 + P * m := by
      have := Nat.mul_comm m P
      omega
    rw [this, Nat.add_mul_div_left _ _ hPpos, Nat.div_eq_of_lt (by omega)]
    simp
  · simp only [Nat.one_mul, if_neg (by norm_num : ¬ (1 = 0))]
    apply Nat.div_eq_of_lt_le
    · rw [← hmP]
      have h2 : (m + 1) * P = m * P + P := by ring
      split <;> omega
    · rw [← hmP]
      have h2 : (m + 1 + 1) * P = m * P + P + P := by ring
      split <;> omega
  · simp only [if_neg (by norm_num : ¬ (2 = 0))]
    apply Nat.div_eq_of_lt_le
    · rw [← hmP]
      have h2 : (m + 1) * P = m * P + P := by ring
      split <;> omega
    · rw [← hmP]
      have h2 : (m + 1 + 1) * P = m * P + P + P := by ring
      split <;> omega

theorem ceilDiv3Float64_eq (x : Nat) (h : x < 2 ^ 53) : ceilDiv3Float64 x = (x + 2) / 3 := by
  unfold ceilDiv3Float64
  simp only [float64OfNat_exact x h]
  by_cases h0 : x = 0
  · simp [h0]
  · rw [if_neg h0, if_pos (by omega)]
    apply ceil_scaled_quotient
    have hk := scaleUp_pos x (by omega)
    calc 2 = 2 ^ 1 := by norm_num
      _ ≤ 2 ^ scaleUp x 64 0 := Nat.pow_le_pow_right (by norm_num) hk

theorem ceil_third (x : Nat) : ⌈((x : Nat) : ℚ) / 3⌉ = (((x + 2) / 3 : Nat) : Int) := by
  generalize hq : (x + 2) / 3 = q
  have h1 : 3 * q ≤ x + 2 := by omega
  have h2 : x + 2 < 3 * q + 3 := by omega
  have h1q : (3 : ℚ) * (q : ℚ) ≤ (x : ℚ) + 2 := by exact_mod_cast h1
  have h2q : (x : ℚ) + 2 < 3 * (q : ℚ) + 3 := by exact_mod_cast h2
  rw [Int.ceil_eq_iff]
  have h3 : (0 : ℚ) < 3 := by norm_num
  constructor
  · rw [lt_div_iff₀ h3]
    push_cast
    by_contra hc
    have hx : (x : ℚ) + 3 ≤ 3 * q := by linarith
    have hx2 : x + 3 ≤ 3 * q := by exact_mod_cast hx
    omega
  · rw [div_le_iff₀ h3]
    push_cast
    by_contra hc
    have hx : 3 * (q : ℚ) < x := by linarith
    have hx2 : 3 * q < x := by exact_mod_cast hx
    omega

/-! ## Lemmas on the validator set -/

namespace validator

open bft

theorem sortValidators_perm (str : Address → GoString) (l : List Address) :
    (sortValidators str l).Perm l :=
  List.perm_insertionSort _ l

theorem Copy_validators_perm (str : Address → GoString) (valSet : defaultSet) :
    (valSet.Copy str).validators.Perm valSet.validators :=
  sortValidators_perm str valSet.validators

theorem removeFirst_eq (a : Address) (l : List Address) :
    removeFirst a l = if a ∈ l then some (l.erase a) else none := by
  induction l with
  | nil => simp [removeFirst]
  | cons b l ih =>
    by_cases hb : b = a
    · subst hb
      simp [removeFirst]
    · have hab : ¬ a = b := fun h => hb h.symm
      simp only [removeFirst, if_neg hb, ih, List.mem_cons, hab, false_or]
      by_cases hm : a ∈ l
      · simp [hm, List.erase_cons, hb]
      · simp [hm]

theorem count_cons_le_iff (a : Address) (cs l : List Address) :
    (∀ b, (a :: cs).count b ≤ l.count b) ↔ a ∈ l ∧ ∀ b, cs.count b ≤ (l.erase a).count b := by
  constructor
  · intro h
    have ha : a ∈ l := by
      have := h a
      rw [List.count_cons_self] at this
      exact List.count_pos_iff.mp (by omega)
    refine ⟨ha, fun b => ?_⟩
    have hb := h b
    rw [List.count_cons] at hb
    rw [List.count_erase]
    by_cases hab : a = b
    · subst hab
      simp only [beq_self_eq_true, if_true] at hb ⊢
      omega
    · simp only [beq_iff_eq, hab, if_false] at hb ⊢
      omega
  · rintro ⟨ha, h⟩ b
    have hb := h b
    rw [List.count_erase] at hb
    rw [List.count_cons]
    by_cases hab : a = b
    · subst hab
      have hpos : 0 < l.count a := List.count_pos_iff.mpr ha
      simp only [beq_self_eq_true, if_true] at hb ⊢
      omega
    · simp only [beq_iff_eq, hab, if_false] at hb ⊢
      omega

theorem checkQuorumLoop_eq_none (committers : List Address) :
    ∀ (validators : defaultSet) (validSeal : Nat),
      checkQuorumLoop validators committers validSeal = none ↔
        (∀ a, committers.count a ≤ validators.validators.count a) ∧
          ceilDiv3Float64 (2 * (validators.Size - committers.length)) <
            validSeal + committers.length := by
  induction committers with
  | nil =>
    intro validators validSeal
    simp [checkQuorumLoop, defaultSet.Q]
  | cons a cs ih =>
    intro validators validSeal
    rw [count_cons_le_iff]
    simp only [checkQuorumLoop, defaultSet.RemoveValidator, removeFirst_eq]
    by_cases ha : a ∈ validators.validators
    · simp only [ha, if_true, true_and]
      rw [ih]
      have hlen : (validators.validators.erase a).length = validators.validators.length - 1 :=
        List.length_erase_of_mem ha
      have hpos : 0 < validators.validators.length := List.length_pos_of_mem ha
      simp only [defaultSet.Size, hlen, List.length_cons]
      have e1 : validators.validators.length - 1 - cs.length
          = validators.validators.length - (cs.length + 1) := by omega
      have e2 : validSeal + 1 + cs.length = validSeal + (cs.length + 1) := by omega
      rw [e1, e2]
    · simp [ha]

theorem count_le_iff_of_nodup (cs l : List Address) (hl : l.Nodup) :
    (∀ a, cs.count a ≤ l.count a) ↔ (∀ a ∈ cs, a ∈ l) ∧ cs.Nodup := by
  constructor
  · intro h
    refine ⟨fun a ha => ?_, ?_⟩
    · have h1 : 0 < cs.count a := List.count_pos_iff.mpr ha
      exact List.count_pos_iff.mp (lt_of_lt_of_le h1 (h a))
    · rw [List.nodup_iff_count_le_one]
      intro a
      exact le_trans (h a) (List.nodup_iff_count_le_one.mp hl a)
  · rintro ⟨hmem, hnd⟩ a
    by_cases ha : a ∈ cs
    · have h1 : cs.count a ≤ 1 := List.nodup_iff_count_le_one.mp hnd a
      have h2 : 0 < l.count a := List.count_pos_iff.mpr (hmem a ha)
      omega
    · rw [List.count_eq_zero_of_not_mem ha]
      exact Nat.zero_le _

theorem getByAddressFrom_eq (addr : Address) (l : List Address) :
    ∀ i : Nat, getByAddressFrom addr l i =
      if addr ∈ l then (((i + l.indexOf addr : Nat) : Int), some addr) else (-1, none) := by
  induction l with
  | nil => intro i; simp [getByAddressFrom]
  | cons b l ih =>
    intro i
    by_cases hb : addr = b
    · subst hb
      simp [getByAddressFrom]
    · have hba : ¬ b = addr := fun h => hb h.symm
      simp only [getByAddressFrom, if_neg hb, ih, List.mem_cons, hb, false_or,
        List.indexOf_cons_ne _ hba]
      by_cases hm : addr ∈ l
      · simp only [hm, if_true]
        have : i + 1 + List.indexOf addr l = i + (List.indexOf addr l).succ := by omega
        simp only [this, if_false]
      · simp [hm]

theorem calcSeed_eq (valSet : defaultSet) (proposer : Address) (round : Nat) :
    calcSeed valSet proposer round =
      ((if proposer ∈ valSet.validators then valSet.validators.indexOf proposer else 0) + round)
        % 2 ^ 64 := by
  unfold calcSeed defaultSet.GetByAddress
  rw [getByAddressFrom_eq]
  by_cases hm : proposer ∈ valSet.validators
  · simp [hm]
  · simp [hm]

theorem GetByIndex_mod (valSet : defaultSet) (seed : Nat) (hn : 0 < valSet.Size) :
    valSet.GetByIndex (seed % valSet.Size) = valSet.validators[seed % valSet.Size]? := by
  unfold defaultSet.GetByIndex
  rw [if_pos (Nat.mod_lt _ hn)]

end validator

/-! ## Theorems on the validator set -/

namespace validator

open bft

theorem CheckQuorum_eq_none_iff (str : Address → GoString) (valSet : defaultSet)
    (committers : List Address) :
    valSet.CheckQuorum str committers = none ↔
      (∀ a, committers.count a ≤ valSet.validators.count a) ∧
        ceilDiv3Float64 (2 * (valSet.Size - committers.length)) < committers.length := by
  unfold defaultSet.CheckQuorum
  rw [checkQuorumLoop_eq_none]
  have hperm := Copy_validators_perm str valSet
  have hsize : (valSet.Copy str).Size = valSet.Size := hperm.length_eq
  simp only [hsize, Nat.zero_add]
  constructor
  · rintro ⟨h1, h2⟩
    exact ⟨fun a => by rw [← hperm.count_eq a]; exact h1 a, h2⟩
  · rintro ⟨h1, h2⟩
    exact ⟨fun a => by rw [hperm.count_eq a]; exact h1 a, h2⟩

/-- What `CheckQuorum` does guarantee with the threshold it reads from the working copy: on
a validator set of size n (below `2 ^ 52`, as every slice is), `CheckQuorum` returns nil
only if every committer is a member of the set and, the set being
duplicate-free, no address occurs twice in the list; it does return nil when every committer
is a member, no address occurs twice and the number of committers is at least
`Q() = ceil(2n/3)` of the non-empty set; and whenever it does not return nil it returns
`ErrInvalidParticipant`. -/
theorem CheckQuorum_members_distinct_quorum (str : Address → GoString)
    (valSet : defaultSet) (committers : List Address) (hsize : valSet.Size < 2 ^ 52) :
    (valSet.CheckQuorum str committers = none →
        (∀ a ∈ committers, a ∈ valSet.validators) ∧
          (valSet.validators.Nodup → committers.Nodup)) ∧
      ((∀ a ∈ committers, a ∈ valSet.validators) → committers.Nodup → 0 < valSet.Size →
        valSet.Q ≤ committers.length → valSet.CheckQuorum str committers = none) ∧
      (valSet.CheckQuorum str committers ≠ none →
        valSet.CheckQuorum str committers = some Error.ErrInvalidParticipant) := by
  refine ⟨fun h => ?_, fun hmem hnd hpos hq => ?_, fun hne => ?_⟩
  · have hcount := ((CheckQuorum_eq_none_iff str valSet committers).mp h).1
    refine ⟨fun a ha => ?_, fun hv => ?_⟩
    · have h1 : 0 < committers.count a := List.count_pos_iff.mpr ha
      exact List.count_pos_iff.mp (lt_of_lt_of_le h1 (hcount a))
    · exact ((count_le_iff_of_nodup committers valSet.validators hv).mp hcount).2
  · rw [CheckQuorum_eq_none_iff]
    have hsub : committers.Subperm valSet.validators :=
      List.subperm_of_subset hnd (fun a ha => hmem a ha)
    have hlen : committers.length ≤ valSet.Size := hsub.length_le
    refine ⟨fun a => hsub.count_le a, ?_⟩
    have hQ : valSet.Q = (2 * valSet.Size + 2) / 3 := by
      unfold defaultSet.Q
      exact ceilDiv3Float64_eq _ (by omega)
    rw [ceilDiv3Float64_eq _ (by omega)]
    rw [hQ] at hq
    omega
  · cases h : valSet.CheckQuorum str committers with
    | none => exact absurd h hne
    | some e => cases e; rfl

/-- An instance of these guarantees: the four validators 1, 2, 3, 4 and the committers 1, 2,
3. -/
theorem CheckQuorum_members_distinct_quorum_witness :
    sampleSet4.Size < 2 ^ 52 ∧ (∀ a ∈ ([1, 2, 3] : List Address), a ∈ sampleSet4.validators) ∧
      ([1, 2, 3] : List Address).Nodup ∧ 0 < sampleSet4.Size ∧
      sampleSet4.Q ≤ ([1, 2, 3] : List Address).length ∧
      sampleSet4.CheckQuorum sampleStr [1, 2, 3] = none :=
  have hmem : ∀ a ∈ ([1, 2, 3] : List Address), a ∈ sampleSet4.validators := by
    intro a ha
    simp only [List.mem_cons, List.mem_singleton, List.not_mem_nil, or_false] at ha
    rcases ha with rfl | rfl | rfl <;> decide
  ⟨by decide, hmem, by decide, by decide, by decide,
    (CheckQuorum_members_distinct_quorum sampleStr sampleSet4 [1, 2, 3] (by decide)).2.1
      hmem (by decide) (by decide) (by decide)⟩

/-- C3 (as stated, refuted): with the three validators 1, 2, 3, last proposer 1 (index 0) and
round `2 ^ 64 - 1`, `CalcProposer` picks index 0, not index `(0 + round + 1) mod 3 = 1`:
the seed is computed in `uint64` and wraps to 0. And with the validators 0, 1, 2 and round 0
the leader after the validator at index 0, the zero address, is again the one at index 0,
not the one at index 1. -/
theorem CalcProposer_roundRobin_wraps :
    sampleSet3.validators = [1, 2, 3] ∧
      (sampleSet3.CalcProposer 1 (2 ^ 64 - 1)).proposer = sampleSet3.validators[0]? ∧
      (sampleSet3.CalcProposer 1 (2 ^ 64 - 1)).proposer ≠
        sampleSet3.validators[(sampleSet3.validators.indexOf 1 + (2 ^ 64 - 1) + 1) % 3]? ∧
      sampleSetZero.validators = [0, 1, 2] ∧
      (sampleSetZero.CalcProposer 0 0).proposer = sampleSetZero.validators[0]? ∧
      (sampleSetZero.CalcProposer 0 0).proposer ≠ sampleSetZero.validators[(0 + 1) % 3]? := by
  decide

/-- C3 (amended): on a non-empty set of size n whose selector is `roundRobinSelector` (the
one `NewSet` installs for the RoundRobin policy), `CalcProposer(lastProposer, round)` sets the
proposer to the validator at index `round mod n` when `lastProposer` is the zero address, and
otherwise at index `((idx + round + 1) mod 2 ^ 64) mod n`, where idx is the position of the
first entry equal to `lastProposer`, or 0 when it is not in the set; this is
`(idx + round + 1) mod n` whenever `idx + round + 1 < 2 ^ 64`. With round 0 the leader after
a non-zero validator that stands at index i, and nowhere before, is the one at index
`(i + 1) mod n`. -/
theorem CalcProposer_roundRobin (str : Address → GoString) (valSet : defaultSet)
    (lastProposer : Address) (round : Nat)
    (hsel : valSet.selector = Selector.roundRobin) (hn : 0 < valSet.Size) :
    (∀ addrs, (NewSet str addrs RoundRobin).selector = Selector.roundRobin) ∧
    (lastProposer = 0 →
      (valSet.CalcProposer lastProposer round).proposer
        = valSet.validators[round % valSet.Size]?) ∧
    (lastProposer ≠ 0 →
      (valSet.CalcProposer lastProposer round).proposer
        = valSet.validators[((if lastProposer ∈ valSet.validators
            then valSet.validators.indexOf lastProposer else 0) + round + 1) % 2 ^ 64
              % valSet.Size]?) ∧
    (lastProposer ≠ 0 →
      (if lastProposer ∈ valSet.validators
        then valSet.validators.indexOf lastProposer else 0) + round + 1 < 2 ^ 64 →
      (valSet.CalcProposer lastProposer round).proposer
        = valSet.validators[((if lastProposer ∈ valSet.validators
            then valSet.validators.indexOf lastProposer else 0) + round + 1)
              % valSet.Size]?) ∧
    (∀ (i : Nat) (v : Address), valSet.validators[i]? = some v → v ≠ 0 →
      valSet.validators.indexOf v = i → valSet.Size < 2 ^ 64 →
      (valSet.CalcProposer v 0).proposer = valSet.validators[(i + 1) % valSet.Size]?) := by
  have hne : ¬ valSet.Size = 0 := by omega
  have hnz : ∀ a : Address, a ≠ 0 →
      (valSet.CalcProposer a round).proposer
        = valSet.validators[((if a ∈ valSet.validators
            then valSet.validators.indexOf a else 0) + round + 1) % 2 ^ 64
              % valSet.Size]? := by
    intro a ha
    simp only [defaultSet.CalcProposer, hsel, Selector.apply, roundRobinSelector, if_neg hne,
      emptyAddress, ha, decide_False, Bool.false_eq_true, if_false, calcSeed_eq,
      GetByIndex_mod _ _ hn, Nat.add_mod_mod, Nat.mod_add_mod]
  refine ⟨fun _ => by simp [NewSet, newDefaultSet, RoundRobin, VRF, Sticky], ?_,
    hnz lastProposer, ?_, ?_⟩
  · intro h0
    simp only [defaultSet.CalcProposer, hsel, Selector.apply, roundRobinSelector, if_neg hne,
      emptyAddress, h0, decide_True, if_true, GetByIndex_mod _ _ hn]
  · intro h0 hlt
    rw [hnz lastProposer h0, Nat.mod_eq_of_lt hlt]
  · intro i v hv hv0 hidx hsize
    have hi : i < valSet.Size := by
      have := List.getElem?_eq_some.mp hv
      exact this.1
    have hmem : v ∈ valSet.validators := List.mem_iff_getElem?.mpr ⟨i, hv⟩
    have h1 : (valSet.CalcProposer v 0).proposer
        = valSet.validators[((if v ∈ valSet.validators
            then valSet.validators.indexOf v else 0) + 0 + 1) % 2 ^ 64
              % valSet.Size]? := by
      simp only [defaultSet.CalcProposer, hsel, Selector.apply, roundRobinSelector, if_neg hne,
        emptyAddress, hv0, decide_False, Bool.false_eq_true, if_false, calcSeed_eq,
        GetByIndex_mod _ _ hn, Nat.add_mod_mod, Nat.mod_add_mod]
    have hlt : i + 1 < 2 ^ 64 := by
      have : valSet.Size < 18446744073709551616 := by simpa using hsize
      norm_num
      omega
    rw [h1, if_pos hmem, hidx, Nat.add_zero, Nat.mod_eq_of_lt hlt]

/-- C3 (amended), instance: on the validators 1, 2, 3 the leader after 1 in round 4. -/
theorem CalcProposer_roundRobin_witness :
    sampleSet3.selector = Selector.roundRobin ∧ 0 < sampleSet3.Size ∧
      ((2 : Address) ≠ 0 →
        (sampleSet3.CalcProposer 2 4).proposer
          = sampleSet3.validators[((if (2 : Address) ∈ sampleSet3.validators
              then sampleSet3.validators.indexOf (2 : Address) else 0) + 4 + 1) % 2 ^ 64
                % sampleSet3.Size]?) :=
  ⟨by decide, by decide,
    (CalcProposer_roundRobin sampleStr sampleSet3 2 4 (by decide) (by decide)).2.2.1⟩

/-- C4: on a validator set of size n (below `2 ^ 52`, as every slice is), `Q()` is the
ceiling of 2n/3 and `F()` is the ceiling of n/3, minus 1; so n = 1 gives Q = 1 and F = 0,
n = 4 gives Q = 3 and F = 1, and n = 7 gives Q = 5 and F = 2. -/
theorem Q_F_ceiling (valSet : defaultSet) (hsize : valSet.Size < 2 ^ 52) :
    (valSet.Q : Int) = ⌈(((2 * valSet.Size : Nat) : ℚ)) / 3⌉ ∧
      valSet.F = ⌈((valSet.Size : Nat) : ℚ) / 3⌉ - 1 ∧
      (valSet.Size = 1 → valSet.Q = 1 ∧ valSet.F = 0) ∧
      (valSet.Size = 4 → valSet.Q = 3 ∧ valSet.F = 1) ∧
      (valSet.Size = 7 → valSet.Q = 5 ∧ valSet.F = 2) := by
  have hQ : valSet.Q = (2 * valSet.Size + 2) / 3 := by
    unfold defaultSet.Q
    exact ceilDiv3Float64_eq _ (by omega)
  have hF : valSet.F = (((valSet.Size + 2) / 3 : Nat) : Int) - 1 := by
    unfold defaultSet.F
    rw [ceilDiv3Float64_eq _ (by omega)]
  refine ⟨?_, ?_, ?_, ?_, ?_⟩
  · rw [ceil_third, hQ]
  · rw [ceil_third, hF]
  · intro h; rw [hQ, hF, h]; decide
  · intro h; rw [hQ, hF, h]; decide
  · intro h; rw [hQ, hF, h]; decide

/-- C4, instance: the four validators 1, 2, 3, 4. -/
theorem Q_F_ceiling_witness :
    sampleSet4.Size < 2 ^ 52 ∧ (sampleSet4.Size = 4 → sampleSet4.Q = 3 ∧ sampleSet4.F = 1) :=
  ⟨by decide, (Q_F_ceiling sampleSet4 (by decide)).2.2.2.1⟩

end validator

/-! ## Lemmas and theorems on the message set -/

theorem mapSet_keys {κ ν : Type} [DecidableEq κ] (m : List (κ × ν)) (k : κ) (v : ν) :
    (mapSet m k v).map Prod.fst = k :: (m.map Prod.fst).filter (fun a => decide (a ≠ k)) := by
  unfold mapSet
  rw [List.map_cons]
  congr 1
  induction m with
  | nil => rfl
  | cons e m ih =>
    simp only [ne_eq, decide_not] at ih
    by_cases he : e.1 = k
    · simp [List.filter_cons, he, ih]
    · simp [List.filter_cons, he, ih]

theorem lookup_filter_ne {κ ν : Type} [DecidableEq κ] (m : List (κ × ν)) (k a : κ)
    (hak : a ≠ k) :
    (m.filter (fun e => decide (e.1 ≠ k))).lookup a = m.lookup a := by
  induction m with
  | nil => rfl
  | cons e m ih =>
    obtain ⟨k1, v1⟩ := e
    simp only [ne_eq, decide_not] at ih
    by_cases he : k1 = k
    · subst he
      have hne : (a == k1) = false := by simpa using hak
      simp [List.filter_cons, List.lookup_cons, hne, ih]
    · by_cases ha : a = k1
      · subst ha
        simp [List.filter_cons, List.lookup_cons, he]
      · have hne : (a == k1) = false := by simpa using ha
        simp [List.filter_cons, List.lookup_cons, he, hne, ih]

theorem lookup_mapSet_self {κ ν : Type} [DecidableEq κ] (m : List (κ × ν)) (k : κ) (v : ν) :
    (mapSet m k v).lookup k = some v := by
  simp [mapSet, List.lookup_cons]

theorem lookup_mapSet_ne {κ ν : Type} [DecidableEq κ] (m : List (κ × ν)) (k a : κ) (v : ν)
    (hak : a ≠ k) : (mapSet m k v).lookup a = m.lookup a := by
  have hne : (a == k) = false := by simpa using hak
  simp only [mapSet, List.lookup_cons, hne]
  exact lookup_filter_ne m k a hak

theorem lookup_ne_none_iff {κ ν : Type} [DecidableEq κ] (m : List (κ × ν)) (a : κ) :
    m.lookup a ≠ none ↔ a ∈ m.map Prod.fst := by
  induction m with
  | nil => simp
  | cons e m ih =>
    obtain ⟨k1, v1⟩ := e
    by_cases ha : a = k1
    · subst ha
      simp [List.lookup_cons]
    · have hne : (a == k1) = false := by simpa using ha
      simp only [List.lookup_cons, hne, ih, List.map_cons, List.mem_cons, ha, false_or]

theorem length_filter_ne_of_nodup {κ : Type} [DecidableEq κ] (l : List κ) (k : κ)
    (hnd : l.Nodup) :
    (l.filter (fun a => decide (a ≠ k))).length + (if k ∈ l then 1 else 0) = l.length := by
  induction l with
  | nil => simp
  | cons b l ih =>
    have hb : b ∉ l := (List.nodup_cons.mp hnd).1
    have ih1 := ih (List.nodup_cons.mp hnd).2
    by_cases hbk : b = k
    · subst hbk
      rw [if_neg hb, Nat.add_zero] at ih1
      rw [List.filter_cons, if_neg (by simp), ih1, if_pos (List.mem_cons_self _ _),
        List.length_cons]
    · have hkb : ¬ k = b := fun h => hbk h.symm
      rw [List.filter_cons, if_pos (by simpa using hbk), List.length_cons, List.length_cons]
      by_cases hkl : k ∈ l
      · rw [if_pos hkl] at ih1
        rw [if_pos (List.mem_cons_of_mem _ hkl)]
        omega
      · rw [if_neg hkl] at ih1
        rw [if_neg (by simp [hkb, hkl])]
        omega

namespace message_set

open bft validator

theorem verify_eq_none_iff (s : MessageSet) (msg : Message) :
    s.verify msg = none ↔ msg.Address ∈ s.vs.validators := by
  unfold MessageSet.verify defaultSet.GetByAddress
  rw [getByAddressFrom_eq]
  by_cases hm : msg.Address ∈ s.vs.validators
  · simp [hm]
  · simp [hm]

theorem Add_of_member (s : MessageSet) (msg : Message) (hm : msg.Address ∈ s.vs.validators) :
    s.Add msg = ({ s with msgs := mapSet s.msgs msg.Address msg }, none) := by
  have hv := (verify_eq_none_iff s msg).mpr hm
  simp [MessageSet.Add, hv]

theorem Add_of_not_member (s : MessageSet) (msg : Message)
    (hm : msg.Address ∉ s.vs.validators) :
    s.Add msg = (s, some Error.unauthorizedAddress) := by
  have hv : s.verify msg = some Error.unauthorizedAddress := by
    cases h : s.verify msg with
    | none => exact absurd ((verify_eq_none_iff s msg).mp h) hm
    | some e => cases e; rfl
  simp [MessageSet.Add, hv]

theorem addAll_invariant (msgs : List Message) :
    ∀ s : MessageSet, WellFormed s →
      WellFormed (addAll s msgs).1 ∧ (addAll s msgs).1.vs = s.vs ∧
        ∀ a, a ∈ (addAll s msgs).1.msgs.map Prod.fst ↔
          a ∈ s.msgs.map Prod.fst ∨ a ∈ (addAll s msgs).2.map Message.Address := by
  induction msgs with
  | nil => intro s hs; simp [addAll, hs]
  | cons msg rest ih =>
    intro s hs
    by_cases hm : msg.Address ∈ s.vs.validators
    · have hadd := Add_of_member s msg hm
      have hwf : WellFormed { s with msgs := mapSet s.msgs msg.Address msg } := by
        refine ⟨?_, ?_⟩
        · show ((mapSet s.msgs msg.Address msg).map Prod.fst).Nodup
          rw [mapSet_keys, List.nodup_cons]
          exact ⟨by simp [List.mem_filter], hs.1.filter _⟩
        · intro a ha
          have ha1 : a ∈ (mapSet s.msgs msg.Address msg).map Prod.fst := ha
          rw [mapSet_keys, List.mem_cons] at ha1
          rcases ha1 with rfl | ha2
          · exact hm
          · exact hs.2 a (List.mem_filter.mp ha2).1
      obtain ⟨h1, h2, h3⟩ := ih _ hwf
      simp only [addAll, hadd]
      refine ⟨h1, h2, fun a => ?_⟩
      rw [h3 a]
      show a ∈ (mapSet s.msgs msg.Address msg).map Prod.fst ∨ _ ↔ _
      rw [mapSet_keys]
      simp only [List.mem_cons, List.mem_filter, List.map_cons, ne_eq, decide_eq_true_eq]
      by_cases hak : a = msg.Address
      · simp [hak]
      · simp [hak]
    · have hadd := Add_of_not_member s msg hm
      simp only [addAll, hadd]
      exact ih s hs

theorem NewMessageSet_wellFormed (valSet : defaultSet) : WellFormed (NewMessageSet valSet) := by
  simp [WellFormed, NewMessageSet]

/-- C5: when the address of a message is not a member of the validator set the message set
is bound to, `Add` returns an error and leaves the set unchanged: the same set, hence the
same `Size` and the same stored message for every address. -/
theorem Add_rejects_non_member (s : MessageSet) (msg : Message)
    (hnot : msg.Address ∉ s.vs.validators) :
    (s.Add msg).2 = some Error.unauthorizedAddress ∧ (s.Add msg).1 = s ∧
      (s.Add msg).1.Size = s.Size ∧ ∀ a, (s.Add msg).1.Get a = s.Get a := by
  rw [Add_of_not_member s msg hnot]
  exact ⟨rfl, rfl, rfl, fun _ => rfl⟩

/-- C6: when the address of `msg` is a member of the bound validator set, `Add(msg)`
returns nil, afterwards `Get(msg.Address)` is `msg`, whatever was stored there before, and
`Get` of every other address is unchanged. -/
theorem Add_member_overwrites (s : MessageSet) (msg : Message)
    (hmem : msg.Address ∈ s.vs.validators) :
    (s.Add msg).2 = none ∧ (s.Add msg).1.Get msg.Address = some msg ∧
      ∀ a, a ≠ msg.Address → (s.Add msg).1.Get a = s.Get a := by
  rw [Add_of_member s msg hmem]
  refine ⟨rfl, ?_, fun a ha => ?_⟩
  · exact lookup_mapSet_self s.msgs msg.Address msg
  · exact lookup_mapSet_ne s.msgs msg.Address a msg ha

/-- C7: after any sequence of `Add` calls on a fresh message set, no two stored messages
have the same address and `Size()` is the number of distinct addresses among the messages
whose `Add` returned nil; a further message from a signer already present is accepted,
leaves `Size()` unchanged and replaces the stored one. -/
theorem addAll_one_message_per_signer (valSet : defaultSet) (msgs : List Message)
    (msg : Message) :
    ((addAll (NewMessageSet valSet) msgs).1.msgs.map Prod.fst).Nodup ∧
      (addAll (NewMessageSet valSet) msgs).1.Size
        = ((addAll (NewMessageSet valSet) msgs).2.map Message.Address).dedup.length ∧
      ((addAll (NewMessageSet valSet) msgs).1.Get msg.Address ≠ none →
        ((addAll (NewMessageSet valSet) msgs).1.Add msg).2 = none ∧
        ((addAll (NewMessageSet valSet) msgs).1.Add msg).1.Size
          = (addAll (NewMessageSet valSet) msgs).1.Size ∧
        ((addAll (NewMessageSet valSet) msgs).1.Add msg).1.Get msg.Address = some msg) := by
  obtain ⟨hwf, hvs, hkeys⟩ := addAll_invariant msgs _ (NewMessageSet_wellFormed valSet)
  generalize addAll (NewMessageSet valSet) msgs = r at hwf hvs hkeys
  refine ⟨hwf.1, ?_, ?_⟩
  · have hperm : (r.1.msgs.map Prod.fst).Perm ((r.2.map Message.Address).dedup) := by
      rw [List.perm_ext_iff_of_nodup hwf.1 (List.nodup_dedup _)]
      intro a
      rw [hkeys a, List.mem_dedup]
      simp [NewMessageSet]
    have := hperm.length_eq
    simpa [MessageSet.Size] using this
  · intro hget
    have hkey : msg.Address ∈ r.1.msgs.map Prod.fst :=
      (lookup_ne_none_iff r.1.msgs msg.Address).mp hget
    have hmem : msg.Address ∈ r.1.vs.validators := hwf.2 _ hkey
    rw [Add_of_member r.1 msg hmem]
    refine ⟨rfl, ?_, lookup_mapSet_self _ _ _⟩
    show (mapSet r.1.msgs msg.Address msg).length = r.1.msgs.length
    have h1 : (mapSet r.1.msgs msg.Address msg).length
        = ((mapSet r.1.msgs msg.Address msg).map Prod.fst).length := by simp
    have h2 := length_filter_ne_of_nodup (r.1.msgs.map Prod.fst) msg.Address hwf.1
    rw [h1, mapSet_keys, List.length_cons]
    simp only [hkey, if_true, List.length_map] at h2
    exact h2

/-- C5, instance: a vote of address 9 offered to a set bound to the validators 1, 2, 3, 4
that already holds a vote of validator 3. -/
theorem Add_rejects_non_member_witness :
    sampleVoteOutsider.Address ∉ (addAll (NewMessageSet sampleSet4) [sampleVote]).1.vs.validators ∧
      (((addAll (NewMessageSet sampleSet4) [sampleVote]).1.Add sampleVoteOutsider).2
          = some Error.unauthorizedAddress ∧
        ((addAll (NewMessageSet sampleSet4) [sampleVote]).1.Add sampleVoteOutsider).1
          = (addAll (NewMessageSet sampleSet4) [sampleVote]).1) :=
  ⟨by decide,
    (Add_rejects_non_member (addAll (NewMessageSet sampleSet4) [sampleVote]).1
      sampleVoteOutsider (by decide)).1,
    (Add_rejects_non_member (addAll (NewMessageSet sampleSet4) [sampleVote]).1
      sampleVoteOutsider (by decide)).2.1⟩

/-- C6, instance: the second vote of validator 3 replaces the first. -/
theorem Add_member_overwrites_witness :
    sampleVoteAgain.Address ∈ (addAll (NewMessageSet sampleSet4) [sampleVote]).1.vs.validators ∧
      ((addAll (NewMessageSet sampleSet4) [sampleVote]).1.Add sampleVoteAgain).2 = none ∧
      ((addAll (NewMessageSet sampleSet4) [sampleVote]).1.Add sampleVoteAgain).1.Get
          sampleVoteAgain.Address = some sampleVoteAgain :=
  ⟨by decide,
    (Add_member_overwrites (addAll (NewMessageSet sampleSet4) [sampleVote]).1
      sampleVoteAgain (by decide)).1,
    (Add_member_overwrites (addAll (NewMessageSet sampleSet4) [sampleVote]).1
      sampleVoteAgain (by decide)).2.1⟩

/-- C7, instance: a vote of validator 3, a rejected vote of address 9, then a second,
conflicting vote of validator 3. -/
theorem addAll_one_message_per_signer_witness :
    (addAll (NewMessageSet sampleSet4) [sampleVote, sampleVoteOutsider]).1.Get
        sampleVoteAgain.Address ≠ none ∧
      (addAll (NewMessageSet sampleSet4) [sampleVote, sampleVoteOutsider]).1.Size = 1 ∧
      ((addAll (NewMessageSet sampleSet4) [sampleVote, sampleVoteOutsider]).1.Add
          sampleVoteAgain).1.Size
        = (addAll (NewMessageSet sampleSet4) [sampleVote, sampleVoteOutsider]).1.Size ∧
      ((addAll (NewMessageSet sampleSet4) [sampleVote, sampleVoteOutsider]).1.Add
          sampleVoteAgain).1.Get sampleVoteAgain.Address = some sampleVoteAgain :=
  ⟨by decide, by decide,
    ((addAll_one_message_per_signer sampleSet4 [sampleVote, sampleVoteOutsider]
      sampleVoteAgain).2.2 (by decide)).2.1,
    ((addAll_one_message_per_signer sampleSet4 [sampleVote, sampleVoteOutsider]
      sampleVoteAgain).2.2 (by decide)).2.2⟩

end message_set

/-! ## Lemmas and theorems on the epochs -/

namespace backend

open bft validator

theorem Linked_head (s : backend) (k : Nat) (e : Epoch) (rest : List Epoch)
    (h : Linked s k (e :: rest)) : s.epochs.lookup k = some e ∧ e.StartHeight = k := by
  cases rest with
  | nil => exact ⟨h.1, h.2.1⟩
  | cons next rest => exact ⟨h.1, h.2.1⟩

theorem Linked_le (s : backend) : ∀ (chain : List Epoch) (k : Nat), Linked s k chain →
    ∀ e ∈ chain, e.StartHeight ≤ k := by
  intro chain
  induction chain with
  | nil => intro k h; exact absurd h (by simp [Linked])
  | cons e rest ih =>
    intro k h e1 he1
    cases rest with
    | nil =>
      rw [List.mem_singleton] at he1
      rw [he1, h.2.1]
    | cons next rest =>
      rcases List.mem_cons.mp he1 with rfl | hmem
      · rw [h.2.1]
      · have := ih e.LastEpochStartHeight h.2.2.2 e1 hmem
        have hlt := h.2.2.1
        omega

theorem Copy_AddressList_of_sorted (str : Address → GoString) (valSet : defaultSet)
    (h : valSet.validators.Sorted (notAfter str)) :
    (valSet.Copy str).AddressList = valSet.AddressList := by
  simp only [defaultSet.Copy, NewSet, newDefaultSet, defaultSet.AddressList, sortValidators]
  exact List.Sorted.insertionSort_eq h

theorem validatorsLoop_spec (str : Address → GoString) (s : backend) (height : Nat) :
    ∀ (chain : List Epoch) (k : Nat), Linked s k chain →
      ∃ e ∈ chain, e.StartHeight ≤ height ∧
        (∀ e1 ∈ chain, e1.StartHeight ≤ height → e1.StartHeight ≤ e.StartHeight) ∧
        ∀ fuel, chain.length ≤ fuel →
          validatorsLoop str s height fuel k = Outcome.ok (e.ValSet.Copy str) := by
  intro chain
  induction chain with
  | nil => intro k h; exact absurd h (by simp [Linked])
  | cons e rest ih =>
    intro k h
    obtain ⟨hlook, hstart⟩ := Linked_head s k e rest h
    by_cases hk : height < k
    · cases rest with
      | nil => exact absurd h.2.2 (by omega)
      | cons next rest =>
        obtain ⟨e0, he0, hle, hmax, hrun⟩ := ih e.LastEpochStartHeight h.2.2.2
        refine ⟨e0, List.mem_cons_of_mem _ he0, hle, ?_, ?_⟩
        · intro e1 he1 h1
          rcases List.mem_cons.mp he1 with rfl | hmem
          · omega
          · exact hmax e1 hmem h1
        · intro fuel hfuel
          cases fuel with
          | zero => simp at hfuel
          | succ n =>
            have hn : (next :: rest).length ≤ n := by
              simp only [List.length_cons] at hfuel ⊢
              omega
            simp only [validatorsLoop, if_pos hk, hlook]
            rw [if_neg (by omega)]
            exact hrun n hn
    · refine ⟨e, List.mem_cons_self _ _, by omega, ?_, ?_⟩
      · intro e1 he1 _
        have := Linked_le s (e :: rest) k h e1 he1
        omega
      · intro fuel hfuel
        cases fuel with
        | zero => simp at hfuel
        | succ n => simp only [validatorsLoop, if_neg hk, hlook]

/-- C2: in an epoch store whose epochs form a chain from `maxEpochStartHeight` back to start
height 0, linked by `LastEpochStartHeight` with strictly decreasing start heights (and whose
validator sets are sorted, as `NewSet` builds them), `Validators(h)` returns, once the loop
is given as many tests as the chain has epochs, a validator set with the address list of the
epoch that contains h: the epoch of the chain with the largest `StartHeight` that is at most
h. -/
theorem Validators_epoch_containing (str : Address → GoString) (s : backend)
    (chain : List Epoch) (h : Nat)
    (hlinked : Linked s s.maxEpochStartHeight chain)
    (hsorted : ∀ e ∈ chain, e.ValSet.validators.Sorted (notAfter str)) :
    ∃ e ∈ chain, e.StartHeight ≤ h ∧
      (∀ e1 ∈ chain, e1.StartHeight ≤ h → e1.StartHeight ≤ e.StartHeight) ∧
      ∀ fuel, chain.length ≤ fuel →
        ∃ valSet, s.Validators str h fuel = Outcome.ok valSet ∧
          valSet.AddressList = e.ValSet.AddressList := by
  obtain ⟨e, he, hle, hmax, hrun⟩ := validatorsLoop_spec str s h chain _ hlinked
  refine ⟨e, he, hle, hmax, fun fuel hfuel => ⟨e.ValSet.Copy str, hrun fuel hfuel, ?_⟩⟩
  exact Copy_AddressList_of_sorted str e.ValSet (hsorted e he)

theorem sampleChain_linked :
    Linked sampleStore sampleStore.maxEpochStartHeight [sampleEpoch100, sampleEpoch0] := by
  refine ⟨by decide, by decide, by decide, by decide, by decide, by decide⟩

theorem sampleChain_sorted :
    ∀ e ∈ [sampleEpoch100, sampleEpoch0], e.ValSet.validators.Sorted (notAfter sampleStr) := by
  intro e he
  simp only [List.mem_cons, List.mem_singleton, List.not_mem_nil, or_false] at he
  rcases he with rfl | rfl <;> decide

/-- C2, instance: the store with epochs at heights 0 and 100, read at height 99. -/
theorem Validators_epoch_containing_witness :
    Linked sampleStore sampleStore.maxEpochStartHeight [sampleEpoch100, sampleEpoch0] ∧
      (∀ e ∈ [sampleEpoch100, sampleEpoch0],
        e.ValSet.validators.Sorted (notAfter sampleStr)) ∧
      ∃ e ∈ [sampleEpoch100, sampleEpoch0], e.StartHeight ≤ 99 ∧
        (∀ e1 ∈ [sampleEpoch100, sampleEpoch0],
          e1.StartHeight ≤ 99 → e1.StartHeight ≤ e.StartHeight) ∧
        ∀ fuel, [sampleEpoch100, sampleEpoch0].length ≤ fuel →
          ∃ valSet, sampleStore.Validators sampleStr 99 fuel = Outcome.ok valSet ∧
            valSet.AddressList = e.ValSet.AddressList :=
  ⟨sampleChain_linked, sampleChain_sorted,
    Validators_epoch_containing sampleStr sampleStore [sampleEpoch100, sampleEpoch0] 99
      sampleChain_linked sampleChain_sorted⟩

end backend

/-! ## Lemmas and theorems on the start of a round -/

namespace core

open bft validator message_set

theorem catchup_eq_pass (b : Backend) (current : Option roundState) (round retryPeriod : Int)
    (retriesLeft reads : Nat) (slept : List Effect) :
    ∃ retry, catchup b current round retryPeriod retriesLeft reads slept
      = catchupPass current round (b.LastProposal reads).1 (b.LastProposal reads).2 slept
          retry := by
  cases retriesLeft with
  | zero => exact ⟨_, rfl⟩
  | succ n => exact ⟨_, rfl⟩

theorem catchup_catch_up (b : Backend) (cur : roundState) (round retryPeriod : Int)
    (retriesLeft reads : Nat) (slept : List Effect) (last : Proposal) (proposer : Address)
    (hlast : b.LastProposal reads = (some last, proposer)) (hnum : last.number ≥ cur.height) :
    catchup b (some cur) round retryPeriod retriesLeft reads slept
      = Decision.proceed (some last) proposer false slept := by
  obtain ⟨retry, h⟩ := catchup_eq_pass b (some cur) round retryPeriod retriesLeft reads slept
  rw [h, hlast]
  simp only [catchupPass, roundState.Height]
  rw [if_pos hnum]

theorem catchup_view_change (b : Backend) (cur : roundState) (round retryPeriod : Int)
    (retriesLeft reads : Nat) (slept : List Effect) (last : Proposal) (proposer : Address)
    (hlast : b.LastProposal reads = (some last, proposer))
    (hnum : last.number = wrapInt64 (bigInt64 cur.height - 1)) (hlow : last.number < cur.height)
    (hround : round ≠ 0) (hge : cur.round ≤ round) :
    catchup b (some cur) round retryPeriod retriesLeft reads slept
      = Decision.proceed (some last) proposer true slept := by
  obtain ⟨retry, h⟩ := catchup_eq_pass b (some cur) round retryPeriod retriesLeft reads slept
  rw [h, hlast]
  simp only [catchupPass, roundState.Height, roundState.Round]
  rw [if_neg (by omega), if_pos hnum, if_neg hround, if_neg (by omega)]

theorem catchup_stale_round (b : Backend) (cur : roundState) (round retryPeriod : Int)
    (retriesLeft reads : Nat) (slept : List Effect) (last : Proposal) (proposer : Address)
    (hlast : b.LastProposal reads = (some last, proposer))
    (hnum : last.number = wrapInt64 (bigInt64 cur.height - 1)) (hlow : last.number < cur.height)
    (hround : round ≠ 0) (hlt : round < cur.round) :
    catchup b (some cur) round retryPeriod retriesLeft reads slept = Decision.reject slept := by
  obtain ⟨retry, h⟩ := catchup_eq_pass b (some cur) round retryPeriod retriesLeft reads slept
  rw [h, hlast]
  simp only [catchupPass, roundState.Height, roundState.Round]
  rw [if_neg (by omega), if_pos hnum, if_neg hround, if_pos hlt]

theorem height_minus_one (h : Int) (hlo : -2 ^ 63 < h) (hhi : h < 2 ^ 63) :
    wrapInt64 (bigInt64 h - 1) = h - 1 := by
  unfold bigInt64 wrapInt64
  have h1 : (h + 2 ^ 63) % 2 ^ 64 = h + 2 ^ 63 :=
    Int.emod_eq_of_lt (by omega) (by omega)
  rw [h1]
  have h2 : (h + 2 ^ 63 - 2 ^ 63 - 1 + 2 ^ 63) % 2 ^ 64 = h + 2 ^ 63 - 2 ^ 63 - 1 + 2 ^ 63 :=
    Int.emod_eq_of_lt (by omega) (by omega)
  rw [h2]
  omega

theorem catchupPass_change_view (current : Option roundState) (round : Int)
    (lastProposal : Option Proposal) (lastProposer : Address) (slept : List Effect)
    (retry : Decision) (lp : Option Proposal) (proposer : Address) (slept1 : List Effect)
    (h : catchupPass current round lastProposal lastProposer slept retry
      = Decision.proceed lp proposer true slept1) :
    (∃ cur last, current = some cur ∧ lp = some last ∧ round ≠ 0 ∧ cur.round ≤ round ∧
        last.number = wrapInt64 (bigInt64 cur.height - 1) ∧ last.number < cur.height) ∨
      (round = 0 ∧ retry = Decision.proceed lp proposer true slept1) := by
  unfold catchupPass at h
  cases current with
  | none => simp at h
  | some cur =>
    cases lastProposal with
    | none => simp at h
    | some last =>
      simp only [roundState.Height, roundState.Round] at h
      by_cases h1 : last.number ≥ cur.height
      · rw [if_pos h1] at h
        simp at h
      · rw [if_neg h1] at h
        by_cases h2 : last.number = wrapInt64 (bigInt64 cur.height - 1)
        · rw [if_pos h2] at h
          by_cases h3 : round = 0
          · rw [if_pos h3] at h
            exact Or.inr ⟨h3, h⟩
          · rw [if_neg h3] at h
            by_cases h4 : round < cur.round
            · rw [if_pos h4] at h
              simp at h
            · rw [if_neg h4] at h
              injection h with e1 e2 e3 e4
              exact Or.inl ⟨cur, last, rfl, e1.symm, h3, by omega, h2, by omega⟩
        · rw [if_neg h2] at h
          simp at h

theorem catchup_change_view (b : Backend) (current : Option roundState)
    (round retryPeriod : Int) :
    ∀ (retriesLeft reads : Nat) (slept slept1 : List Effect) (lp : Option Proposal)
      (proposer : Address),
      catchup b current round retryPeriod retriesLeft reads slept
        = Decision.proceed lp proposer true slept1 →
      ∃ cur last, current = some cur ∧ lp = some last ∧ round ≠ 0 ∧ cur.round ≤ round ∧
        last.number = wrapInt64 (bigInt64 cur.height - 1) ∧ last.number < cur.height := by
  intro retriesLeft
  induction retriesLeft with
  | zero =>
    intro reads slept slept1 lp proposer h
    rcases catchupPass_change_view _ _ _ _ _ _ _ _ _ h with hcur | ⟨_, hretry⟩
    · exact hcur
    · simp at hretry
  | succ n ih =>
    intro reads slept slept1 lp proposer h
    rcases catchupPass_change_view _ _ _ _ _ _ _ _ _ h with hcur | ⟨hzero, hretry⟩
    · exact hcur
    · obtain ⟨cur, last, hc, hl, hne, _⟩ := ih _ _ _ _ _ hretry
      exact absurd hzero hne

/-- The round state `startNewRound` installs when the label `catchup` is left towards the
new view. -/
theorem startNewRound_proceed (proposal2QC : Option Proposal → Int → Option QuorumCert)
    (b : Backend) (c : core) (round : Int) (cur : roundState) (last : Proposal)
    (proposer : Address) (changeView : Bool) (slept : List Effect)
    (hrun : c.isRunning = true) (hcur : c.current = some cur)
    (hcatch : catchup b c.current round c.retryPeriod (maxRetry - 1) 0 []
      = Decision.proceed (some last) proposer changeView slept) :
    ∃ c1 cur1, c.startNewRound proposal2QC b round = Outcome.ok c1 ∧
      c1.current = some cur1 ∧
      cur1.View = (if changeView = true then { Height := cur.height, Round := round }
        else { Height := last.number + 1, Round := 0 }) ∧
      cur1.state = State.StateAcceptRequest ∧
      cur1.proposal = (if changeView = true ∧ cur.proposalLocked = true then cur.proposal
        else none) ∧
      cur1.proposalLocked = (changeView && cur.proposalLocked && cur.proposal.isSome) ∧
      cur1.pendingRequest = (if changeView = true then cur.pendingRequest else none) := by
  rw [hcur] at hcatch
  unfold core.startNewRound
  simp only [hrun, hcur, hcatch, Bool.true_eq_false, if_false]
  cases changeView <;> cases hl : cur.proposalLocked <;> cases hp : cur.proposal <;>
    cases hq : cur.pendingRequest <;> cases ht : c.roundChangeTimer <;>
    simp [core.setCurrentState, core.sendNewView, core.newRoundChangeTimer, core.stopTimer,
      core.processBacklog, roundState.SetState, roundState.SetProposal,
      roundState.LockProposal, roundState.SetPendingRequest, roundState.LastLockedProposal,
      roundState.PendingRequest, roundState.View, roundState.Height, newRoundState, hl, hp,
      hq, ht]

/-- C8: on a running engine with a round state, when the last proposal of the backend has
`Number >= current.Height`, `startNewRound` moves, whatever the round argument, to the view
(height = `lastProposal.Number + 1`, round = 0), and not as a view change: the new round
state holds no proposal and `proposalLocked` is false. -/
theorem startNewRound_catch_up (proposal2QC : Option Proposal → Int → Option QuorumCert)
    (b : Backend) (c : core) (round : Int) (cur : roundState) (last : Proposal)
    (proposer : Address)
    (hrun : c.isRunning = true) (hcur : c.current = some cur)
    (hlast : b.LastProposal 0 = (some last, proposer))
    (hnum : last.number ≥ cur.Height) :
    ∃ c1 cur1, c.startNewRound proposal2QC b round = Outcome.ok c1 ∧
      c1.current = some cur1 ∧
      cur1.View = { Height := last.number + 1, Round := 0 } ∧
      cur1.Proposal = none ∧ cur1.IsProposalLocked = false := by
  have hcatch := catchup_catch_up b cur round c.retryPeriod (maxRetry - 1) 0 [] last proposer
    hlast hnum
  rw [← hcur] at hcatch
  obtain ⟨c1, cur1, h1, h2, h3, _, h5, h6, _⟩ :=
    startNewRound_proceed proposal2QC b c round cur last proposer false [] hrun hcur hcatch
  refine ⟨c1, cur1, h1, h2, ?_, ?_, ?_⟩
  · simpa using h3
  · simpa [roundState.Proposal] using h5
  · simpa [roundState.IsProposalLocked] using h6

/-- C8, instance: the engine at height 5, round 3, when the chain head is at height 7. -/
theorem startNewRound_catch_up_witness :
    sampleCore.isRunning = true ∧ sampleCore.current = some sampleRoundLocked ∧
      sampleBackendAt7.LastProposal 0 = (some sampleBlock7, 2) ∧
      sampleBlock7.number ≥ sampleRoundLocked.Height ∧
      ∃ c1 cur1, sampleCore.startNewRound sampleProposal2QC sampleBackendAt7 9 = Outcome.ok c1 ∧
        c1.current = some cur1 ∧
        cur1.View = { Height := sampleBlock7.number + 1, Round := 0 } ∧
        cur1.Proposal = none ∧ cur1.IsProposalLocked = false :=
  ⟨by decide, by decide, by decide, by decide,
    startNewRound_catch_up sampleProposal2QC sampleBackendAt7 sampleCore 9 sampleRoundLocked
      sampleBlock7 2 (by decide) (by decide) (by decide) (by decide)⟩

/-- C9 (as stated, refuted): the engine is at height 5, round 3, the last proposal has number
4 = 5 - 1 and the round argument is 1 > 0; `startNewRound` returns with the engine as it was,
so the view is still (5, 3) and not (5, 1). -/
theorem startNewRound_rejects_lower_round :
    sampleCore.isRunning = true ∧ sampleCore.current = some sampleRoundLocked ∧
      sampleBackendAt4.LastProposal 0 = (some sampleBlock4, 2) ∧
      sampleBlock4.number = sampleRoundLocked.Height - 1 ∧ (1 : Int) > 0 ∧
      sampleCore.startNewRound sampleProposal2QC sampleBackendAt4 1 = Outcome.ok sampleCore ∧
      sampleRoundLocked.View ≠ { Height := sampleRoundLocked.Height, Round := 1 } := by
  decide

/-- C9 (amended): on a running engine with a round state whose height lies in the `int64`
range, when the last proposal of the backend has `Number == current.Height - 1` and the
round argument is > 0, `startNewRound` performs a view change if the round argument is not
below the current round: the new view keeps the current height and its round is the
round argument. If the round argument is below the current round, the call returns and
leaves the engine as it was. -/
theorem startNewRound_view_change (proposal2QC : Option Proposal → Int → Option QuorumCert)
    (b : Backend) (c : core) (round : Int) (cur : roundState) (last : Proposal)
    (proposer : Address)
    (hrun : c.isRunning = true) (hcur : c.current = some cur)
    (hlast : b.LastProposal 0 = (some last, proposer))
    (hlo : -2 ^ 63 < cur.Height) (hhi : cur.Height < 2 ^ 63)
    (hnum : last.number = cur.Height - 1) (hround : round > 0) :
    (cur.Round ≤ round →
      ∃ c1 cur1, c.startNewRound proposal2QC b round = Outcome.ok c1 ∧
        c1.current = some cur1 ∧ cur1.View = { Height := cur.Height, Round := round }) ∧
    (round < cur.Round → c.startNewRound proposal2QC b round = Outcome.ok c) := by
  have hwrap : last.number = wrapInt64 (bigInt64 cur.height - 1) := by
    rw [height_minus_one cur.height hlo hhi]; exact hnum
  have hlow : last.number < cur.height := by
    simp only [roundState.Height] at hnum; omega
  have hne : round ≠ 0 := by omega
  constructor
  · intro hge
    have hcatch := catchup_view_change b cur round c.retryPeriod (maxRetry - 1) 0 [] last
      proposer hlast hwrap hlow hne hge
    rw [← hcur] at hcatch
    obtain ⟨c1, cur1, h1, h2, h3, _⟩ :=
      startNewRound_proceed proposal2QC b c round cur last proposer true [] hrun hcur hcatch
    exact ⟨c1, cur1, h1, h2, by simpa [roundState.Height] using h3⟩
  · intro hlt
    have hcatch := catchup_stale_round b cur round c.retryPeriod (maxRetry - 1) 0 [] last
      proposer hlast hwrap hlow hne hlt
    unfold core.startNewRound
    simp only [hrun, hcur, hcatch, Bool.true_eq_false, if_false, List.append_nil]
    rw [← hcur, ← hrun]

/-- C9 (amended), instance: the engine at height 5, round 3, chain head at height 4,
round argument 4. -/
theorem startNewRound_view_change_witness :
    sampleCore.isRunning = true ∧ sampleCore.current = some sampleRoundLocked ∧
      sampleBackendAt4.LastProposal 0 = (some sampleBlock4, 2) ∧
      -2 ^ 63 < sampleRoundLocked.Height ∧ sampleRoundLocked.Height < 2 ^ 63 ∧
      sampleBlock4.number = sampleRoundLocked.Height - 1 ∧ (4 : Int) > 0 ∧
      (sampleRoundLocked.Round ≤ 4 →
        ∃ c1 cur1, sampleCore.startNewRound sampleProposal2QC sampleBackendAt4 4
            = Outcome.ok c1 ∧
          c1.current = some cur1 ∧
          cur1.View = { Height := sampleRoundLocked.Height, Round := 4 }) :=
  ⟨by decide, by decide, by decide, by decide, by decide, by decide, by decide,
    (startNewRound_view_change sampleProposal2QC sampleBackendAt4 sampleCore 4
      sampleRoundLocked sampleBlock4 2 (by decide) (by decide) (by decide) (by decide)
      (by decide) (by decide) (by decide)).1⟩

end core

/-! ## Lemmas and theorems on the round-change timer -/

namespace core

open bft validator message_set

theorem wrapInt64_of_fits (x : Int) (hlo : -2 ^ 63 ≤ x) (hhi : x < 2 ^ 63) : wrapInt64 x = x := by
  unfold wrapInt64
  rw [Int.emod_eq_of_lt (by omega) (by omega)]
  omega

theorem timerDuration_eq (c : core) (cur : roundState) (hcur : c.current = some cur) :
    c.timerDuration = some
      (if bigUint64 cur.Round > 0 then
        wrapInt64 (wrapInt64 (wrapInt64 (c.config.RequestTimeout : Int) * Millisecond)
          + wrapInt64 (pow2Duration (bigUint64 cur.Round) * Second))
      else wrapInt64 (wrapInt64 (c.config.RequestTimeout : Int) * Millisecond)) := by
  unfold core.timerDuration core.newRoundChangeTimer core.stopTimer
  cases ht : c.roundChangeTimer <;> simp [hcur]

theorem pow2Duration_small (r : Nat) (hr : r < 63) : pow2Duration r = 2 ^ r := by
  unfold pow2Duration
  have h53 : r < 2 ^ 53 := by
    have : (63 : Nat) < 2 ^ 53 := by norm_num
    omega
  simp only [float64OfNat_exact r h53]
  rw [if_pos hr]

theorem pow_lt_63 (r : Nat) (h : (2 : Int) ^ r * Second < 2 ^ 63) : r < 63 := by
  by_contra hge
  have hge' : 63 ≤ r := by omega
  have h1 : (2 : Int) ^ 63 ≤ 2 ^ r := pow_le_pow_right₀ (by norm_num) hge'
  have h2 : (2 : Int) ^ r ≤ 2 ^ r * Second := by
    have : (0 : Int) < 2 ^ r := by positivity
    unfold Second
    nlinarith
  omega

theorem timerDuration_of_fits (c : core) (cur : roundState) (r : Nat)
    (hcur : c.current = some cur) (hr : cur.Round = (r : Int))
    (hfit : (if r = 0 then (c.config.RequestTimeout : Int) * Millisecond
        else (c.config.RequestTimeout : Int) * Millisecond + 2 ^ r * Second) < 2 ^ 63) :
    c.timerDuration = some
      (if r = 0 then (c.config.RequestTimeout : Int) * Millisecond
        else (c.config.RequestTimeout : Int) * Millisecond + 2 ^ r * Second) := by
  rw [timerDuration_eq c cur hcur, hr]
  have hRT0 : (0 : Int) ≤ (c.config.RequestTimeout : Int) := Int.ofNat_nonneg _
  have hms : (c.config.RequestTimeout : Int) ≤ (c.config.RequestTimeout : Int) * Millisecond := by
    unfold Millisecond; nlinarith
  by_cases h0 : r = 0
  · subst h0
    simp only [if_true] at hfit
    have h1 : wrapInt64 (c.config.RequestTimeout : Int) = c.config.RequestTimeout :=
      wrapInt64_of_fits _ (by omega) (by omega)
    have h2 : wrapInt64 ((c.config.RequestTimeout : Int) * Millisecond)
        = c.config.RequestTimeout * Millisecond := wrapInt64_of_fits _ (by omega) (by omega)
    simp [bigUint64, h1, h2]
  · rw [if_neg h0] at hfit ⊢
    have hpos : (0 : Int) < 2 ^ r * Second := by unfold Second; positivity
    have hpowfit : (2 : Int) ^ r * Second < 2 ^ 63 := by omega
    have hr63 : r < 63 := pow_lt_63 r hpowfit
    have hu : bigUint64 (r : Int) = r := by
      unfold bigUint64
      rw [Int.natAbs_ofNat]
      apply Nat.mod_eq_of_lt
      have : (63 : Nat) < 2 ^ 64 := by norm_num
      omega
    have h1 : wrapInt64 (c.config.RequestTimeout : Int) = c.config.RequestTimeout :=
      wrapInt64_of_fits _ (by omega) (by omega)
    have h2 : wrapInt64 ((c.config.RequestTimeout : Int) * Millisecond)
        = c.config.RequestTimeout * Millisecond := wrapInt64_of_fits _ (by omega) (by omega)
    have h3 : wrapInt64 ((2 : Int) ^ r * Second) = 2 ^ r * Second :=
      wrapInt64_of_fits _ (by omega) (by omega)
    rw [hu, if_pos (by omega), h1, h2, pow2Duration_small r hr63, h3]
    exact congrArg some (wrapInt64_of_fits _ (by omega) (by omega))

/-- C15 (as stated, refuted): with the default `RequestTimeout` of 6000 ms the timer for round
34 is shorter than the one for round 33: `2 ^ 34` seconds do not fit the `int64` nanoseconds
of a `time.Duration`, and the product wraps to a negative number. -/
theorem timer_backoff_wraps :
    (sampleCoreAtRound 33).timerDuration = some 8589934598000000000 ∧
      (sampleCoreAtRound 34).timerDuration = some (-1266874883709551616) ∧
      ¬ ((8589934598000000000 : Int) < -1266874883709551616) := by
  decide

/-- C15 (amended): for a configured `RequestTimeout` and a round r such that
`RequestTimeout` milliseconds plus `2 ^ (r + 1)` seconds fit a `time.Duration` (are below
`2 ^ 63` nanoseconds), the timer duration `newRoundChangeTimer` computes for round r + 1 is
strictly greater than the one it computes for round r. -/
theorem timer_backoff_monotone (c cNext : core) (cur curNext : roundState) (r : Nat)
    (hcur : c.current = some cur) (hnext : cNext.current = some curNext)
    (hconfig : cNext.config.RequestTimeout = c.config.RequestTimeout)
    (hr : cur.Round = (r : Int)) (hrnext : curNext.Round = ((r + 1 : Nat) : Int))
    (hfit : (c.config.RequestTimeout : Int) * Millisecond + 2 ^ (r + 1) * Second < 2 ^ 63) :
    ∃ d dNext, c.timerDuration = some d ∧ cNext.timerDuration = some dNext ∧ d < dNext := by
  have hpow : (2 : Int) ^ (r + 1) = 2 * 2 ^ r := by rw [pow_succ]; ring
  have hpos : (0 : Int) < 2 ^ r * Second := by unfold Second; positivity
  have hsec : (2 : Int) ^ (r + 1) * Second = 2 * (2 ^ r * Second) := by rw [hpow]; ring
  have hfitNext : (if r + 1 = 0 then (cNext.config.RequestTimeout : Int) * Millisecond
      else (cNext.config.RequestTimeout : Int) * Millisecond + 2 ^ (r + 1) * Second)
        < 2 ^ 63 := by
    rw [if_neg (by omega), hconfig]; exact hfit
  have hfitCur : (if r = 0 then (c.config.RequestTimeout : Int) * Millisecond
      else (c.config.RequestTimeout : Int) * Millisecond + 2 ^ r * Second) < 2 ^ 63 := by
    split <;> omega
  refine ⟨_, _, timerDuration_of_fits c cur r hcur hr hfitCur,
    timerDuration_of_fits cNext curNext (r + 1) hnext hrnext hfitNext, ?_⟩
  rw [if_neg (by omega : ¬ r + 1 = 0), hconfig]
  split <;> omega

/-- C15 (amended), instance: the default configuration, rounds 3 and 4. -/
theorem timer_backoff_monotone_witness :
    (sampleCoreAtRound 3).current = some { sampleRoundLocked with round := 3 } ∧
      (sampleCoreAtRound 4).current = some { sampleRoundLocked with round := 4 } ∧
      ((sampleCoreAtRound 3).config.RequestTimeout : Int) * Millisecond + 2 ^ (3 + 1) * Second
        < 2 ^ 63 ∧
      ∃ d dNext, (sampleCoreAtRound 3).timerDuration = some d ∧
        (sampleCoreAtRound 4).timerDuration = some dNext ∧ d < dNext :=
  ⟨rfl, rfl, by decide,
    timer_backoff_monotone (sampleCoreAtRound 3) (sampleCoreAtRound 4) _ _ 3 rfl rfl rfl rfl rfl
      (by decide)⟩

/-- C16 (as stated, refuted): with the default `RequestTimeout` of 6000 ms and the current
round 34 the timer duration is a negative number of nanoseconds, not 6000 milliseconds plus
`2 ^ 34` seconds. -/
theorem timer_duration_wraps :
    (sampleCoreAtRound 34).timerDuration = some (-1266874883709551616) ∧
      (sampleCoreAtRound 34).timerDuration
        ≠ some ((sampleConfig.RequestTimeout : Int) * Millisecond + 2 ^ 34 * Second) := by
  decide

/-- C16 (amended): for a configured `RequestTimeout` (milliseconds) and a current round r,
the round-change timer lasts exactly `RequestTimeout` milliseconds when r = 0 and
`RequestTimeout` milliseconds plus `2 ^ r` seconds when r > 0, provided that duration fits a
`time.Duration` (is below `2 ^ 63` nanoseconds). -/
theorem timer_duration_exact (c : core) (cur : roundState) (r : Nat)
    (hcur : c.current = some cur) (hr : cur.Round = (r : Int))
    (hfit : (if r = 0 then (c.config.RequestTimeout : Int) * Millisecond
        else (c.config.RequestTimeout : Int) * Millisecond + 2 ^ r * Second) < 2 ^ 63) :
    (∃ c1, c.newRoundChangeTimer = Outcome.ok c1 ∧
      c1.roundChangeTimer.map (fun t => t.duration) = c.timerDuration) ∧
    c.timerDuration = some
      (if r = 0 then (c.config.RequestTimeout : Int) * Millisecond
        else (c.config.RequestTimeout : Int) * Millisecond + 2 ^ r * Second) := by
  refine ⟨?_, timerDuration_of_fits c cur r hcur hr hfit⟩
  unfold core.timerDuration core.newRoundChangeTimer core.stopTimer
  cases ht : c.roundChangeTimer <;> simp [hcur]

/-- C16 (amended), instance: the default configuration at round 3. -/
theorem timer_duration_exact_witness :
    (sampleCoreAtRound 3).current = some { sampleRoundLocked with round := 3 } ∧
      (if (3 : Nat) = 0 then ((sampleCoreAtRound 3).config.RequestTimeout : Int) * Millisecond
        else ((sampleCoreAtRound 3).config.RequestTimeout : Int) * Millisecond
          + 2 ^ 3 * Second) < 2 ^ 63 ∧
      (sampleCoreAtRound 3).timerDuration = some
        (if (3 : Nat) = 0 then ((sampleCoreAtRound 3).config.RequestTimeout : Int) * Millisecond
          else ((sampleCoreAtRound 3).config.RequestTimeout : Int) * Millisecond
            + 2 ^ 3 * Second) :=
  ⟨rfl, by decide,
    (timer_duration_exact (sampleCoreAtRound 3) _ 3 rfl rfl (by decide)).2⟩

end core

/-! ## The order of the validators: construction and copy -/

theorem stringsCompare_antisymm : ∀ s t : GoString, stringsCompare s t = - stringsCompare t s := by
  intro s
  induction s with
  | nil => intro t; cases t <;> simp [stringsCompare]
  | cons a as ih =>
    intro t
    cases t with
    | nil => simp [stringsCompare]
    | cons b bs =>
      simp only [stringsCompare]
      have := ih bs
      split_ifs <;> omega

theorem stringsCompare_trans : ∀ s t u : GoString,
    stringsCompare s t ≤ 0 → stringsCompare t u ≤ 0 → stringsCompare s u ≤ 0 := by
  intro s
  induction s with
  | nil => intro t u _ _; cases u <;> simp [stringsCompare]
  | cons a as ih =>
    intro t u h1 h2
    cases t with
    | nil => simp [stringsCompare] at h1
    | cons b bs =>
      cases u with
      | nil => simp [stringsCompare] at h2
      | cons c cs =>
        simp only [stringsCompare] at h1 h2 ⊢
        have := ih bs cs
        split_ifs at h1 h2 ⊢ <;> omega

namespace validator

open bft

theorem notAfter_iff (str : Address → GoString) (a b : Address) :
    notAfter str a b ↔ stringsCompare (str a) (str b) ≤ 0 := by
  unfold notAfter Less
  rw [stringsCompare_antisymm (str b) (str a)]
  simp only [decide_eq_false_iff_not]
  omega

instance notAfter_total (str : Address → GoString) : IsTotal Address (notAfter str) :=
  ⟨fun a b => by
    rw [notAfter_iff, notAfter_iff, stringsCompare_antisymm (str b) (str a)]
    omega⟩

instance notAfter_trans (str : Address → GoString) : IsTrans Address (notAfter str) :=
  ⟨fun a b c hab hbc => by
    rw [notAfter_iff] at hab hbc ⊢
    exact stringsCompare_trans _ _ _ hab hbc⟩

theorem sortValidators_sorted (str : Address → GoString) (l : List Address) :
    (sortValidators str l).Sorted (notAfter str) :=
  List.sorted_insertionSort (notAfter str) l

theorem sortValidators_of_sorted (str : Address → GoString) (l : List Address)
    (h : l.Sorted (notAfter str)) : sortValidators str l = l :=
  List.Sorted.insertionSort_eq h

/-- For every rendering of the addresses, every list of addresses and every policy, the
`AddressList()` of the set `NewSet` builds is a permutation of the input list in ascending
order, the order being the one `Validators.Less` sorts by: `strings.Compare` of the
renderings of the addresses. `Size()` is the length of the input, and when the input is not
empty the initial proposer is the validator at index 0. -/
theorem NewSet_sorted_permutation (str : Address → GoString) (addrs : List Address)
    (policy : SelectProposerPolicy) :
    (NewSet str addrs policy).AddressList.Perm addrs ∧
      (NewSet str addrs policy).AddressList.Pairwise
        (fun a b => stringsCompare (str a) (str b) ≤ 0) ∧
      (NewSet str addrs policy).Size = addrs.length ∧
      (addrs ≠ [] →
        (NewSet str addrs policy).GetProposer ≠ none ∧
        (NewSet str addrs policy).GetProposer = (NewSet str addrs policy).GetByIndex 0) := by
  have hperm : (sortValidators str addrs).Perm addrs := sortValidators_perm str addrs
  refine ⟨hperm, ?_, hperm.length_eq, fun hne => ?_⟩
  · have h := sortValidators_sorted str addrs
    exact List.Pairwise.imp (fun {a b} hab => (notAfter_iff str a b).mp hab) h
  · have hlen : 0 < (sortValidators str addrs).length := by
      rw [hperm.length_eq]; exact List.length_pos.mpr hne
    simp only [NewSet, newDefaultSet, defaultSet.GetProposer, defaultSet.GetByIndex,
      defaultSet.Size, hlen, if_true]
    refine ⟨?_, trivial⟩
    rw [List.getElem?_eq_getElem hlen]
    simp

/-- C20: for every validator set (its validators in sorted order, as `NewSet`, `AddValidator`
and `RemoveValidator` leave them), `Copy()` returns a set whose `AddressList()` is the same
list, element by element in the same order, and whose `Policy()` is the same. -/
theorem Copy_preserves_list_and_policy (str : Address → GoString) (valSet : defaultSet)
    (hsorted : valSet.validators.Sorted (notAfter str)) :
    (valSet.Copy str).AddressList = valSet.AddressList ∧
      (valSet.Copy str).Policy = valSet.Policy := by
  refine ⟨?_, rfl⟩
  simp only [defaultSet.Copy, NewSet, newDefaultSet, defaultSet.AddressList]
  exact sortValidators_of_sorted str _ hsorted

/-- C20, instance: the four validators 1, 2, 3, 4. -/
theorem Copy_preserves_list_and_policy_witness :
    sampleSet4.validators.Sorted (notAfter sampleStr) ∧
      (sampleSet4.Copy sampleStr).AddressList = sampleSet4.AddressList ∧
      (sampleSet4.Copy sampleStr).Policy = sampleSet4.Policy :=
  ⟨by decide, Copy_preserves_list_and_policy sampleStr sampleSet4 (by decide)⟩

end validator

/-! ## Lemmas on the RLP wire format -/

namespace rlp

theorem fromBigEndian_append_singleton (ds : List Nat) (d : Nat) :
    fromBigEndian (ds ++ [d]) = fromBigEndian ds * 256 + d := by
  induction ds with
  | nil => simp [fromBigEndian]
  | cons x xs ih =>
    show x * 256 ^ (xs ++ [d]).length + fromBigEndian (xs ++ [d])
      = (x * 256 ^ xs.length + fromBigEndian xs) * 256 + d
    rw [ih, List.length_append, List.length_singleton, pow_succ]
    ring

theorem putintAux_zero (fuel : Nat) (acc : List Nat) : putintAux fuel 0 acc = acc := by
  cases fuel <;> simp [putintAux]

theorem putintAux_spec : ∀ (fuel n : Nat) (acc : List Nat), n < 256 ^ fuel →
    ∃ ds, putintAux fuel n acc = ds ++ acc ∧ fromBigEndian ds = n ∧ ds.length ≤ fuel ∧
      (n ≠ 0 → ds ≠ [] ∧ ds.head? ≠ some 0) := by
  intro fuel
  induction fuel with
  | zero =>
    intro n acc hn
    have h0 : n = 0 := by simpa using hn
    exact ⟨[], by simp [putintAux], by simp [fromBigEndian, h0], by simp, fun h => absurd h0 h⟩
  | succ f ih =>
    intro n acc hn
    by_cases h0 : n = 0
    · exact ⟨[], by simp [putintAux, h0], by simp [fromBigEndian, h0], by simp,
        fun h => absurd h0 h⟩
    · have hdiv : n / 256 < 256 ^ f := by
        rw [Nat.div_lt_iff_lt_mul (by norm_num)]
        rw [pow_succ] at hn
        exact hn
      obtain ⟨ds, h1, h2, h3, h4⟩ := ih (n / 256) (n % 256 :: acc) hdiv
      refine ⟨ds ++ [n % 256], ?_, ?_, ?_, fun _ => ⟨by simp, ?_⟩⟩
      · simp only [putintAux, if_neg h0, h1, List.append_assoc, List.singleton_append]
      · rw [fromBigEndian_append_singleton, h2]
        omega
      · simp only [List.length_append, List.length_singleton]
        omega
      · by_cases hq : n / 256 = 0
        · have hds : ds = [] := by
            have := h1
            rw [hq, putintAux_zero] at this
            have hlen := congrArg List.length this
            simp only [List.length_append] at hlen
            exact List.length_eq_zero.mp (by omega)
          subst hds
          have hlt : n < 256 := by
            by_contra hge
            have : 1 ≤ n / 256 := Nat.div_pos (by omega) (by norm_num)
            omega
          simp only [List.nil_append, List.head?_cons, ne_eq, Option.some.injEq]
          omega
        · obtain ⟨hne, hhead⟩ := h4 hq
          cases ds with
          | nil => exact absurd rfl hne
          | cons x xs => simpa using hhead

theorem putint_spec (n : Nat) (hn : n < 2 ^ 64) :
    fromBigEndian (putint n) = n ∧ (putint n).length ≤ 8 ∧
      (n ≠ 0 → putint n ≠ [] ∧ (putint n).head? ≠ some 0) := by
  obtain ⟨ds, h1, h2, h3, h4⟩ := putintAux_spec 8 n [] (by
    have : (256 : Nat) ^ 8 = 2 ^ 64 := by norm_num
    omega)
  have h : putint n = ds := by simp [putint, h1]
  rw [h]
  exact ⟨h2, h3, h4⟩

theorem readUint_putint (n : Nat) (tail : List Nat) (hn : n < 2 ^ 64) (h56 : 56 ≤ n) :
    readUint (putint n).length (putint n ++ tail) = Except.ok (n, tail) := by
  obtain ⟨h1, h2, h3⟩ := putint_spec n hn
  obtain ⟨hne, hhead⟩ := h3 (by omega)
  have hlen : 0 < (putint n).length := List.length_pos.mpr hne
  unfold readUint
  rw [if_neg (by omega), if_neg (by simp), if_neg]
  · simp [h1]
  · rintro ⟨_, hz⟩
    apply hhead
    cases hp : putint n with
    | nil => exact absurd hp hne
    | cons x xs =>
      rw [hp] at hz
      simpa using hz

/-- Reading back the header that `encodeHeader` wrote for a string or a list. -/
theorem readKind_encodeHeader (inList : Bool) (isList : Bool) (payload tail : List Nat)
    (hn : payload.length < 2 ^ 64) :
    readKind inList (encodeHeader (if isList then 192 else 128) payload.length ++ payload ++ tail)
      = Except.ok { kind := if isList then Kind.List else Kind.String, size := payload.length,
                    byteval := 0, rest := payload ++ tail } := by
  unfold encodeHeader
  by_cases hsmall : payload.length < 56
  · rw [if_pos hsmall]
    cases isList
    · simp only [Bool.false_eq_true, if_false, List.singleton_append, List.cons_append,
        readKind]
      rw [if_neg (by omega), if_pos (by omega), if_neg (by simp)]
      simp
    · simp only [if_true, List.singleton_append, List.cons_append, readKind]
      rw [if_neg (by omega), if_neg (by omega), if_neg (by omega), if_pos (by omega),
        if_neg (by simp)]
      simp
  · rw [if_neg hsmall]
    obtain ⟨h1, h2, h3⟩ := putint_spec payload.length hn
    obtain ⟨hne, _⟩ := h3 (by omega)
    have hlen : 0 < (putint payload.length).length := List.length_pos.mpr hne
    have hru := readUint_putint payload.length (payload ++ tail) hn (by omega)
    cases isList
    · simp only [Bool.false_eq_true, if_false, List.cons_append, readKind]
      rw [if_neg (by omega), if_neg (by omega), if_pos (by omega)]
      have e : 128 + 55 + (putint payload.length).length - 183 = (putint payload.length).length := by
        omega
      rw [e, List.append_assoc, hru]
      simp only
      rw [if_neg hsmall, if_neg (by simp)]
    · simp only [if_true, List.cons_append, readKind]
      rw [if_neg (by omega), if_neg (by omega), if_neg (by omega), if_neg (by omega)]
      have e : 192 + 55 + (putint payload.length).length - 247 = (putint payload.length).length := by
        omega
      rw [e, List.append_assoc, hru]
      simp only
      rw [if_neg hsmall, if_neg (by simp)]

end rlp

namespace rlp

theorem encodeString_of_not_singleton (b : List Nat) (h : b.length ≠ 1) :
    encodeString b = encodeHeader 128 b.length ++ b := by
  match b, h with
  | [], _ => rfl
  | [_], h => exact absurd rfl h
  | _ :: _ :: _, _ => rfl

theorem encodeHeader_ne_nil (base size : Nat) : encodeHeader base size ≠ [] := by
  unfold encodeHeader
  split <;> simp

theorem encodeString_ne_nil (b : List Nat) : encodeString b ≠ [] := by
  by_cases h : b.length = 1
  · match b, h with
    | [x], _ =>
      simp only [encodeString]
      split
      · simp
      · simp [encodeHeader_ne_nil]
  · rw [encodeString_of_not_singleton b h]
    simp [encodeHeader_ne_nil]

theorem length_le_encodeString (b : List Nat) : b.length ≤ (encodeString b).length := by
  by_cases h : b.length = 1
  · have := List.length_pos.mpr (encodeString_ne_nil b)
    omega
  · rw [encodeString_of_not_singleton b h, List.length_append]
    omega

theorem length_le_encodeList (payload : List Nat) :
    payload.length ≤ (encodeList payload).length := by
  unfold encodeList
  rw [List.length_append]
  omega

theorem decodeBytes_encodeString (inList : Bool) (b tail : List Nat)
    (hn : b.length < 2 ^ 64) :
    decodeBytes inList (encodeString b ++ tail) = Except.ok (b, tail) := by
  by_cases h1 : b.length = 1
  · match b, h1 with
    | [x], _ =>
      by_cases hx : x < 128
      · simp [encodeString, hx, decodeBytes, readKind]
      · have hk := readKind_encodeHeader inList false [x] tail (by simp)
        simp only [Bool.false_eq_true, if_false, List.length_singleton] at hk
        simp only [encodeString, if_neg hx, decodeBytes, hk]
        simp [hx]
  · have hk := readKind_encodeHeader inList false b tail hn
    simp only [Bool.false_eq_true, if_false] at hk
    rw [encodeString_of_not_singleton b h1]
    simp only [decodeBytes, hk, List.take_left, List.drop_left]
    rcases b with _ | ⟨x, _ | ⟨y, zs⟩⟩
    · rfl
    · exact absurd rfl h1
    · rfl

theorem openList_encodeList (inList : Bool) (payload tail : List Nat)
    (hn : payload.length < 2 ^ 64) :
    openList inList (encodeList payload ++ tail) = Except.ok (payload, tail) := by
  have hk := readKind_encodeHeader inList true payload tail hn
  simp only [if_true] at hk
  simp only [encodeList, openList, hk, List.take_left, List.drop_left]

theorem decodeByteSlices_flatMap (l : List (List Nat)) :
    ∀ fuel, l.length < fuel → (∀ b ∈ l, b.length < 2 ^ 64) →
      decodeByteSlices fuel (l.flatMap encodeString) = Except.ok l := by
  induction l with
  | nil =>
    intro fuel hfuel _
    cases fuel with
    | zero => simp at hfuel
    | succ f => simp [decodeByteSlices]
  | cons b bs ih =>
    intro fuel hfuel hsize
    cases fuel with
    | zero => simp at hfuel
    | succ f =>
      have hne : encodeString b ++ bs.flatMap encodeString ≠ [] := by
        simp [encodeString_ne_nil]
      have hrec := ih f (by simp only [List.length_cons] at hfuel; omega)
        (fun x hx => hsize x (List.mem_cons_of_mem _ hx))
      simp only [List.flatMap_cons, decodeByteSlices, if_neg hne,
        decodeBytes_encodeString true b _ (hsize b (List.mem_cons_self _ _)), hrec]

theorem length_le_flatMap_encodeString (l : List (List Nat)) :
    l.length ≤ (l.flatMap encodeString).length := by
  induction l with
  | nil => simp
  | cons b bs ih =>
    have := List.length_pos.mpr (encodeString_ne_nil b)
    simp only [List.flatMap_cons, List.length_cons, List.length_append]
    omega

theorem length_le_of_mem_flatMap (l : List (List Nat)) (b : List Nat) (hb : b ∈ l) :
    b.length ≤ (l.flatMap encodeString).length := by
  induction l with
  | nil => simp at hb
  | cons x xs ih =>
    simp only [List.flatMap_cons, List.length_append]
    rcases List.mem_cons.mp hb with rfl | hmem
    · have := length_le_encodeString b
      omega
    · have := ih hmem
      omega

end rlp

namespace rlp

open bft

theorem length_bigEndianBytes (width n : Nat) : (bigEndianBytes width n).length = width := by
  induction width with
  | zero => rfl
  | succ w ih => simp [bigEndianBytes, ih]

theorem fromBigEndian_bigEndianBytes (width n : Nat) :
    fromBigEndian (bigEndianBytes width n) = n % 256 ^ width := by
  induction width with
  | zero => simp [bigEndianBytes, fromBigEndian, Nat.mod_one]
  | succ w ih =>
    simp only [bigEndianBytes, fromBigEndian, ih, length_bigEndianBytes]
    rw [Nat.mod_pow_succ]
    ring

theorem addressOfBytes_addressBytes (a : Address) : addressOfBytes (addressBytes a) = a := by
  apply Fin.ext
  simp only [addressOfBytes, addressBytes, fromBigEndian_bigEndianBytes]
  have h : (256 : Nat) ^ 20 = 2 ^ 160 := by norm_num
  rw [h, Nat.mod_mod, Nat.mod_eq_of_lt a.isLt]

theorem decodeAddress_encode (inList : Bool) (a : Address) (tail : List Nat) :
    decodeAddress inList (encodeString (addressBytes a) ++ tail) = Except.ok (a, tail) := by
  have hlen : (addressBytes a).length = 20 := length_bigEndianBytes 20 a.val
  have hk := readKind_encodeHeader inList false (addressBytes a) tail (by rw [hlen]; norm_num)
  simp only [Bool.false_eq_true, if_false] at hk
  rw [encodeString_of_not_singleton _ (by omega)]
  unfold decodeAddress
  rw [hk]
  simp only [hlen, ne_eq, not_true_eq_false, if_false]
  rw [← hlen, List.take_left, List.drop_left, addressOfBytes_addressBytes]

theorem decodeAddresses_flatMap (l : List Address) :
    ∀ fuel, l.length < fuel →
      decodeAddresses fuel (l.flatMap fun a => encodeString (addressBytes a)) = Except.ok l := by
  induction l with
  | nil =>
    intro fuel hfuel
    cases fuel with
    | zero => simp at hfuel
    | succ f => simp [decodeAddresses]
  | cons a as ih =>
    intro fuel hfuel
    cases fuel with
    | zero => simp at hfuel
    | succ f =>
      have hne : encodeString (addressBytes a)
          ++ as.flatMap (fun a => encodeString (addressBytes a)) ≠ [] := by
        simp [encodeString_ne_nil]
      have hrec := ih f (by simp only [List.length_cons] at hfuel; omega)
      simp only [List.flatMap_cons, decodeAddresses, if_neg hne, decodeAddress_encode, hrec]

theorem length_le_flatMap_addresses (l : List Address) :
    l.length ≤ (l.flatMap fun a => encodeString (addressBytes a)).length := by
  induction l with
  | nil => simp
  | cons a as ih =>
    have := List.length_pos.mpr (encodeString_ne_nil (addressBytes a))
    simp only [List.flatMap_cons, List.length_cons, List.length_append]
    omega

theorem encodeList_ne_nil (payload : List Nat) : encodeList payload ≠ [] := by
  simp [encodeList, encodeHeader_ne_nil]

end rlp

namespace types

open bft

theorem DecodeRLP_EncodeRLP (x : BftExtra) (tail : List Nat)
    (hsize : x.EncodeRLP.length < 2 ^ 64) :
    BftExtra.DecodeRLP (x.EncodeRLP ++ tail) = Except.ok (x, tail) := by
  obtain ⟨vals, sealBytes, committed, salt⟩ := x
  simp only [BftExtra.EncodeRLP] at hsize ⊢
  generalize hA : (vals.flatMap fun a => rlp.encodeString (rlp.addressBytes a)) = A at hsize ⊢
  generalize hC : committed.flatMap rlp.encodeString = C at hsize ⊢
  have hP := rlp.length_le_encodeList
    (rlp.encodeList A ++ rlp.encodeString sealBytes ++ rlp.encodeList C ++ rlp.encodeString salt)
  have hAl := rlp.length_le_encodeList A
  have hCl := rlp.length_le_encodeList C
  have hsl := rlp.length_le_encodeString sealBytes
  have hst := rlp.length_le_encodeString salt
  simp only [List.length_append] at hP
  have hvals : vals.length ≤ A.length := by rw [← hA]; exact rlp.length_le_flatMap_addresses vals
  have hcom : committed.length ≤ C.length := by
    rw [← hC]; exact rlp.length_le_flatMap_encodeString committed
  have hcomEach : ∀ b ∈ committed, b.length < 2 ^ 64 := by
    intro b hb
    have := rlp.length_le_of_mem_flatMap committed b hb
    rw [hC] at this
    omega
  have h1 := rlp.openList_encodeList false
    (rlp.encodeList A ++ rlp.encodeString sealBytes ++ rlp.encodeList C ++ rlp.encodeString salt)
    tail (by simp only [List.length_append]; omega)
  have h2 := rlp.openList_encodeList true A
    (rlp.encodeString sealBytes ++ rlp.encodeList C ++ rlp.encodeString salt) (by omega)
  have h3 := rlp.decodeAddresses_flatMap vals (A.length + 1) (by omega)
  have h4 := rlp.decodeBytes_encodeString true sealBytes
    (rlp.encodeList C ++ rlp.encodeString salt) (by omega)
  have h5 := rlp.openList_encodeList true C (rlp.encodeString salt) (by omega)
  have h6 := rlp.decodeByteSlices_flatMap committed (C.length + 1) (by omega) hcomEach
  have h7 := rlp.decodeBytes_encodeString true salt [] (by omega)
  rw [hA] at h3
  rw [hC] at h6
  rw [List.append_nil] at h7
  simp only [List.append_assoc] at h1 h2 h4 ⊢
  simp [BftExtra.DecodeRLP, h1, h2, h3, h4, h5, h6, h7, rlp.encodeList_ne_nil,
    rlp.encodeString_ne_nil, bind, Except.bind, pure, Except.pure]

end types

namespace types

open bft

theorem DecodeBytes_EncodeRLP (x : BftExtra) (hsize : x.EncodeRLP.length < 2 ^ 64) :
    DecodeBytes x.EncodeRLP = Except.ok x := by
  have h := DecodeRLP_EncodeRLP x [] hsize
  rw [List.append_nil] at h
  simp [DecodeBytes, h]

theorem ExtractBftExtraPayload_short (extra : List Nat) (h : extra.length < 32) :
    ExtractBftExtraPayload extra = Except.error Error.ErrInvalidBftHeaderExtra := by
  simp [ExtractBftExtraPayload, BftExtraVanity, h]

theorem ExtractBftExtraPayload_long (extra : List Nat) (h : 32 ≤ extra.length) :
    ExtractBftExtraPayload extra =
      match DecodeBytes (extra.drop 32) with
      | Except.error e => Except.error (Error.decode e)
      | Except.ok bftExtra => Except.ok bftExtra := by
  simp only [ExtractBftExtraPayload, BftExtraVanity]
  rw [if_neg (by omega)]

theorem ExtractBftExtraPayload_encoded (vanity : List Nat) (x : BftExtra)
    (hvanity : vanity.length = 32) (hsize : x.EncodeRLP.length < 2 ^ 64) :
    ExtractBftExtraPayload (vanity ++ x.EncodeRLP) = Except.ok x := by
  rw [ExtractBftExtraPayload_long _ (by rw [List.length_append]; omega), ← hvanity,
    List.drop_left, DecodeBytes_EncodeRLP x hsize]

end types

theorem sampleParent_extra : types.ExtractBftExtra sampleParent = Except.ok sampleExtra :=
  types.ExtractBftExtraPayload_encoded (List.replicate 32 0) sampleExtra (by decide)
    (by decide)

/-! ## Theorems on the extra-data of a header -/

namespace types

open bft

/-- C17: for every `BftExtra` x whose encoding has a length below 2^64, as every byte slice
of the program has, decoding the bytes that `EncodeRLP` writes with `DecodeRLP` succeeds,
uses up all of them, and yields a value whose fields `Validators`, `Seal`, `CommittedSeal`
and `Salt` are those of x (a nil slice and an empty one being the same list). -/
theorem EncodeRLP_DecodeRLP_roundtrip (x : BftExtra) (hsize : x.EncodeRLP.length < 2 ^ 64) :
    ∃ y : BftExtra, BftExtra.DecodeRLP x.EncodeRLP = Except.ok (y, []) ∧
      y.Validators = x.Validators ∧ y.Seal = x.Seal ∧
      y.CommittedSeal = x.CommittedSeal ∧ y.Salt = x.Salt := by
  have h := DecodeRLP_EncodeRLP x [] hsize
  rw [List.append_nil] at h
  exact ⟨x, h, rfl, rfl, rfl, rfl⟩

/-- C17, instance: four validators, a seal, two committed seals and an empty salt. -/
theorem EncodeRLP_DecodeRLP_roundtrip_witness :
    sampleExtra.EncodeRLP.length < 2 ^ 64 ∧
      ∃ y : BftExtra, BftExtra.DecodeRLP sampleExtra.EncodeRLP = Except.ok (y, []) ∧
        y.Validators = sampleExtra.Validators ∧ y.Seal = sampleExtra.Seal ∧
        y.CommittedSeal = sampleExtra.CommittedSeal ∧ y.Salt = sampleExtra.Salt :=
  ⟨by decide, EncodeRLP_DecodeRLP_roundtrip sampleExtra (by decide)⟩

/-- C18: for every byte string `extra`, `ExtractBftExtraPayload` returns
`ErrInvalidBftHeaderExtra` when `len(extra) < 32`; when `len(extra) >= 32` it succeeds, with
the value x, whenever the bytes from index 32 on are the RLP encoding of a `BftExtra` x, and
its result, value or error, is the same for every other byte string of at least 32 bytes
that has the same bytes from index 32 on. -/
theorem ExtractBftExtraPayload_vanity (extra : List Nat) :
    (extra.length < 32 →
        ExtractBftExtraPayload extra = Except.error Error.ErrInvalidBftHeaderExtra) ∧
      (32 ≤ extra.length →
        (∀ x : BftExtra, x.EncodeRLP.length < 2 ^ 64 → extra.drop 32 = x.EncodeRLP →
          ExtractBftExtraPayload extra = Except.ok x) ∧
        (∀ other : List Nat, 32 ≤ other.length → other.drop 32 = extra.drop 32 →
          ExtractBftExtraPayload other = ExtractBftExtraPayload extra)) := by
  refine ⟨ExtractBftExtraPayload_short extra, fun hlen => ⟨?_, ?_⟩⟩
  · intro x hsize hdrop
    rw [ExtractBftExtraPayload_long extra hlen, hdrop, DecodeBytes_EncodeRLP x hsize]
  · intro other hother hdrop
    rw [ExtractBftExtraPayload_long extra hlen, ExtractBftExtraPayload_long other hother,
      hdrop]

set_option maxRecDepth 8000 in
/-- C18, instance: the extra-data of the sample parent header, and the same fields after
another vanity. -/
theorem ExtractBftExtraPayload_vanity_witness :
    32 ≤ sampleParent.Extra.length ∧ sampleExtra.EncodeRLP.length < 2 ^ 64 ∧
      sampleParent.Extra.drop 32 = sampleExtra.EncodeRLP ∧
      32 ≤ sampleGenesisHeader.Extra.length ∧
      sampleGenesisHeader.Extra.drop 32 = sampleParent.Extra.drop 32 ∧
      ExtractBftExtraPayload sampleParent.Extra = Except.ok sampleExtra ∧
      ExtractBftExtraPayload sampleGenesisHeader.Extra =
        ExtractBftExtraPayload sampleParent.Extra :=
  ⟨by decide, by decide, by decide, by decide, by decide,
    ((ExtractBftExtraPayload_vanity sampleParent.Extra).2 (by decide)).1 sampleExtra
      (by decide) (by decide),
    ((ExtractBftExtraPayload_vanity sampleParent.Extra).2 (by decide)).2
      sampleGenesisHeader.Extra (by decide) (by decide)⟩

end types

/-! ## Lemmas and theorems on saving epochs -/

namespace backend

open bft validator

theorem saveEpoch_saved {DB E : Type} (env : Storage DB E) (str : Address → GoString)
    (s : backend) (db db1 : DB) (height : Nat) (list : List Address)
    (hfresh : s.epochs.lookup height = none) (hmax : s.maxEpochStartHeight ≠ height)
    (hstore : storeCurEpoch env db
      { StartHeight := height, ValSet := newValSet str list,
        LastEpochStartHeight := s.maxEpochStartHeight } = (db1, none)) :
    s.saveEpoch env str db height list =
      ({ epochs := mapSet s.epochs height
          { StartHeight := height, ValSet := newValSet str list,
            LastEpochStartHeight := s.maxEpochStartHeight },
         maxEpochStartHeight := height }, db1, none) := by
  simp only [backend.saveEpoch, hfresh, Option.isSome_none, Bool.false_eq_true, if_false,
    if_neg hmax, hstore]

theorem saveEpoch_cases {DB E : Type} (env : Storage DB E) (str : Address → GoString)
    (s : backend) (db : DB) (height : Nat) (list : List Address) :
    (s.saveEpoch env str db height list).1 = s ∨
      (s.epochs.lookup height = none ∧ s.maxEpochStartHeight ≠ height ∧
        (s.saveEpoch env str db height list).1 =
          { epochs := mapSet s.epochs height
              { StartHeight := height, ValSet := newValSet str list,
                LastEpochStartHeight := s.maxEpochStartHeight },
            maxEpochStartHeight := height }) := by
  unfold backend.saveEpoch
  cases hlook : s.epochs.lookup height with
  | some e => left; simp
  | none =>
    by_cases hmax : s.maxEpochStartHeight = height
    · left; simp [hmax]
    · simp only [Option.isSome_none, Bool.false_eq_true, if_false, if_neg hmax]
      rcases hstore : storeCurEpoch env db
        { StartHeight := height, ValSet := newValSet str list,
          LastEpochStartHeight := s.maxEpochStartHeight } with ⟨db1, _ | err⟩
      · right; exact ⟨trivial, hmax, rfl⟩
      · left; rfl

theorem UpdateEpoch_cases {DB E : Type} (env : Storage DB E) (str : Address → GoString)
    (s : backend) (db : DB) (parent header : types.Header) :
    (s.UpdateEpoch env str db parent header).1 = s ∨
      ∃ parentExt, types.ExtractBftExtra parent = Except.ok parentExt ∧
        parentExt.Validators ≠ [] ∧
        s.maxEpochStartHeight < bigUint64 header.Number ∧
        s.epochs.lookup (bigUint64 header.Number) = none ∧
        (s.UpdateEpoch env str db parent header).1 =
          { epochs := mapSet s.epochs (bigUint64 header.Number)
              { StartHeight := bigUint64 header.Number
                ValSet := newValSet str parentExt.Validators
                LastEpochStartHeight := s.maxEpochStartHeight },
            maxEpochStartHeight := bigUint64 header.Number } := by
  unfold backend.UpdateEpoch
  simp only
  by_cases hguard : bigUint64 header.Number ≤ s.maxEpochStartHeight ∨
      bigUint64 header.Number = 1
  · left; rw [if_pos hguard]
  · rw [if_neg hguard]
    cases hext : types.ExtractBftExtra parent with
    | error err => left; rfl
    | ok parentExt =>
      by_cases hlen : parentExt.Validators.length = 0
      · left; simp [hlen]
      · simp only [if_neg hlen]
        rcases saveEpoch_cases env str s db (bigUint64 header.Number)
          parentExt.Validators with hsame | ⟨hfresh, _, hsaved⟩
        · left; exact hsame
        · right
          refine ⟨parentExt, rfl, ?_, by omega, hfresh, hsaved⟩
          intro hnil
          exact hlen (by rw [hnil]; rfl)

theorem validatorsLoop_mapSet (str : Address → GoString) (s : backend) (height key : Nat)
    (epoch : Epoch) (hfresh : s.epochs.lookup key = none) (top : Nat) :
    ∀ (fuel startHeight : Nat) (valSet : defaultSet),
      validatorsLoop str s height fuel startHeight = Outcome.ok valSet →
      validatorsLoop str { epochs := mapSet s.epochs key epoch, maxEpochStartHeight := top }
        height fuel startHeight = Outcome.ok valSet := by
  have hkeep : ∀ (k : Nat) (e : Epoch), s.epochs.lookup k = some e →
      (mapSet s.epochs key epoch).lookup k = some e := by
    intro k e hk
    have hne : k ≠ key := by
      intro h
      rw [h, hfresh] at hk
      exact Option.noConfusion hk
    rw [lookup_mapSet_ne _ _ _ _ hne, hk]
  intro fuel
  induction fuel with
  | zero => intro startHeight valSet h; simp [validatorsLoop] at h
  | succ n ih =>
    intro startHeight valSet h
    simp only [validatorsLoop] at h ⊢
    by_cases hlt : height < startHeight
    · rw [if_pos hlt] at h ⊢
      cases hlook : s.epochs.lookup startHeight with
      | none => rw [hlook] at h; exact Outcome.noConfusion h
      | some e =>
        rw [hlook] at h
        rw [hkeep _ _ hlook]
        simp only at h ⊢
        by_cases hge : height ≥ e.StartHeight
        · rw [if_pos hge] at h ⊢
          cases hfound : s.epochs.lookup e.StartHeight with
          | none => rw [hfound] at h; exact Outcome.noConfusion h
          | some found =>
            rw [hfound] at h
            rw [hkeep _ _ hfound]
            exact h
        · rw [if_neg hge] at h ⊢
          exact ih _ _ h
    · rw [if_neg hlt] at h ⊢
      cases hlook : s.epochs.lookup startHeight with
      | none => rw [hlook] at h; exact Outcome.noConfusion h
      | some e =>
        rw [hlook] at h
        rw [hkeep _ _ hlook]
        exact h

theorem Validators_after_save (str : Address → GoString) (s : backend) (key : Nat)
    (list : List Address) (hfresh : s.epochs.lookup key = none) :
    (∀ h fuel, key ≤ h → 0 < fuel →
      ∃ valSet,
        backend.Validators str
          { epochs := mapSet s.epochs key
              { StartHeight := key, ValSet := newValSet str list,
                LastEpochStartHeight := s.maxEpochStartHeight },
            maxEpochStartHeight := key } h fuel = Outcome.ok valSet ∧
        valSet.AddressList = (newValSet str list).AddressList) ∧
      (∀ h fuel valSet, h < key → s.Validators str h fuel = Outcome.ok valSet →
        backend.Validators str
          { epochs := mapSet s.epochs key
              { StartHeight := key, ValSet := newValSet str list,
                LastEpochStartHeight := s.maxEpochStartHeight },
            maxEpochStartHeight := key } h (fuel + 1) = Outcome.ok valSet) := by
  constructor
  · intro h fuel hge hfuel
    cases fuel with
    | zero => exact absurd hfuel (by decide)
    | succ n =>
      refine ⟨(newValSet str list).Copy str, ?_, ?_⟩
      · simp only [backend.Validators, validatorsLoop]
        rw [if_neg (by omega), lookup_mapSet_self]
      · exact Copy_AddressList_of_sorted str _ (sortValidators_sorted str list)
  · intro h fuel valSet hlt hrun
    simp only [backend.Validators, validatorsLoop]
    rw [if_pos hlt, lookup_mapSet_self]
    simp only
    rw [if_neg (by omega)]
    exact validatorsLoop_mapSet str s h key _ hfresh key fuel _ valSet hrun

end backend

namespace backend

open bft validator

theorem bigUint64_of_fits (x : Int) (h0 : 0 ≤ x) (h1 : x < 2 ^ 64) : bigUint64 x = x.toNat := by
  unfold bigUint64
  have h : x.natAbs = x.toNat := by omega
  rw [h]
  exact Nat.mod_eq_of_lt (by omega)

theorem UpdateEpoch_maxEpochStartHeight_le {DB E : Type} (env : Storage DB E)
    (str : Address → GoString) (s : backend) (db : DB) (parent header : types.Header) :
    s.maxEpochStartHeight ≤ (s.UpdateEpoch env str db parent header).1.maxEpochStartHeight := by
  rcases UpdateEpoch_cases env str s db parent header with h | ⟨_, _, _, hlt, _, h⟩
  · rw [h]
  · rw [h]; exact Nat.le_of_lt hlt

theorem sampleGenesisHeader_extra :
    types.ExtractBftExtra sampleGenesisHeader = Except.ok sampleExtra :=
  types.ExtractBftExtraPayload_encoded (List.replicate 32 7) sampleExtra (by decide)
    (by decide)

theorem sampleUpdate_store :
    (sampleStoreGenesis.UpdateEpoch sampleStorage sampleStr ([], 0) sampleParent
      sampleHeader100).1 = sampleStore := by
  simp only [backend.UpdateEpoch, sampleParent_extra]
  decide

/-- C12, counterexample: the parent's extra-data names four validators and the header's
number 1 is above `maxEpochStartHeight = 0`, yet `UpdateEpoch` returns nil and leaves the
store as it was: nothing is recorded under height 1. -/
theorem UpdateEpoch_skips_height_one :
    types.ExtractBftExtra sampleGenesisHeader = Except.ok sampleExtra ∧
      sampleExtra.Validators ≠ [] ∧
      (sampleStoreGenesis.maxEpochStartHeight : Int) < sampleHeader1.Number ∧
      sampleStoreGenesis.UpdateEpoch sampleStorage sampleStr ([], 0) sampleGenesisHeader
        sampleHeader1 = (sampleStoreGenesis, ([], 0), none) ∧
      sampleStoreGenesis.epochs.lookup 1 = none :=
  ⟨sampleGenesisHeader_extra, by decide, by decide, by decide, by decide⟩

/-- C12: for every parent header and header, if the parent's extra-data decodes to a
`BftExtra` with a non-empty `Validators` list, `header.Number` is a `uint64` above
`maxEpochStartHeight` and other than 1, no epoch is recorded under `header.Number` yet, and
the epoch is written to the database without error, then `UpdateEpoch(parent, header)`
returns nil and saves a new epoch whose `StartHeight` is `header.Number`: it is recorded
under that height, with the parent's validators and the former `maxEpochStartHeight` as
`LastEpochStartHeight`, `maxEpochStartHeight` becomes `header.Number`, and the epochs
recorded under other heights stay. -/
theorem UpdateEpoch_saves_epoch {DB E : Type} (env : Storage DB E) (str : Address → GoString)
    (s : backend) (db db1 : DB) (parent header : types.Header) (parentExt : types.BftExtra)
    (hnum : 0 ≤ header.Number ∧ header.Number < 2 ^ 64)
    (hextra : types.ExtractBftExtra parent = Except.ok parentExt)
    (hvals : parentExt.Validators ≠ [])
    (hmax : (s.maxEpochStartHeight : Int) < header.Number)
    (hone : header.Number ≠ 1)
    (hfresh : s.epochs.lookup header.Number.toNat = none)
    (hstore : storeCurEpoch env db
      { StartHeight := header.Number.toNat, ValSet := newValSet str parentExt.Validators,
        LastEpochStartHeight := s.maxEpochStartHeight } = (db1, none)) :
    ∃ s1 : backend, s.UpdateEpoch env str db parent header = (s1, db1, none) ∧
      s1.maxEpochStartHeight = header.Number.toNat ∧
      s1.epochs.lookup header.Number.toNat =
        some { StartHeight := header.Number.toNat
               ValSet := newValSet str parentExt.Validators
               LastEpochStartHeight := s.maxEpochStartHeight } ∧
      ∀ k, k ≠ header.Number.toNat → s1.epochs.lookup k = s.epochs.lookup k := by
  have hH := bigUint64_of_fits header.Number hnum.1 hnum.2
  have hguard : ¬ (header.Number.toNat ≤ s.maxEpochStartHeight ∨ header.Number.toNat = 1) := by
    omega
  have hlen : ¬ parentExt.Validators.length = 0 := by
    intro h
    exact hvals (List.length_eq_zero.mp h)
  have hsave := saveEpoch_saved env str s db db1 header.Number.toNat parentExt.Validators
    hfresh (by omega) hstore
  refine ⟨⟨mapSet s.epochs header.Number.toNat
      ⟨header.Number.toNat, newValSet str parentExt.Validators, s.maxEpochStartHeight⟩,
    header.Number.toNat⟩, ?_, rfl, lookup_mapSet_self _ _ _,
    fun k hk => lookup_mapSet_ne _ _ _ _ hk⟩
  simp only [backend.UpdateEpoch, hH, if_neg hguard, hextra, if_neg hlen, hsave, Option.map_none']

/-- C12, instance: the store with the genesis epoch, a parent whose extra-data names the
validators 1, 2, 3, 5, and a header at height 100. -/
theorem UpdateEpoch_saves_epoch_witness :
    (0 ≤ sampleHeader100.Number ∧ sampleHeader100.Number < 2 ^ 64) ∧
      types.ExtractBftExtra sampleParent = Except.ok sampleExtra ∧
      sampleExtra.Validators ≠ [] ∧
      (sampleStoreGenesis.maxEpochStartHeight : Int) < sampleHeader100.Number ∧
      sampleHeader100.Number ≠ 1 ∧
      sampleStoreGenesis.epochs.lookup sampleHeader100.Number.toNat = none ∧
      ∃ s1 : backend,
        sampleStoreGenesis.UpdateEpoch sampleStorage sampleStr ([], 0) sampleParent
          sampleHeader100 = (s1, ([(100, [100, 0, 1, 2, 3, 5])], 100), none) ∧
        s1.maxEpochStartHeight = sampleHeader100.Number.toNat ∧
        s1.epochs.lookup sampleHeader100.Number.toNat =
          some { StartHeight := sampleHeader100.Number.toNat
                 ValSet := newValSet sampleStr sampleExtra.Validators
                 LastEpochStartHeight := sampleStoreGenesis.maxEpochStartHeight } ∧
        ∀ k, k ≠ sampleHeader100.Number.toNat →
          s1.epochs.lookup k = sampleStoreGenesis.epochs.lookup k :=
  ⟨by decide, sampleParent_extra, by decide, by decide, by decide, by decide,
    UpdateEpoch_saves_epoch sampleStorage sampleStr sampleStoreGenesis ([], 0)
      ([(100, [100, 0, 1, 2, 3, 5])], 100) sampleParent sampleHeader100 sampleExtra
      (by decide) sampleParent_extra (by decide) (by decide) (by decide) (by decide)
      (by decide)⟩

/-- C13: whenever `UpdateEpoch` saves a new epoch, that is, leaves another store than it
found, at the height H of the header while the previous `maxEpochStartHeight` is M, then
M < H, the epoch recorded under H is `{StartHeight: H, ValSet: the validator set of the
parent's BftExtra.Validators, LastEpochStartHeight: M}`, whose address list is a permutation
of that list, and afterwards `Validators(h)` returns a set with the new address list for
every h >= H, and for every h < H the set it returned before the update (given one more
loop test than before). -/
theorem UpdateEpoch_new_epoch {DB E : Type} (env : Storage DB E) (str : Address → GoString)
    (s : backend) (db : DB) (parent header : types.Header)
    (hsaved : (s.UpdateEpoch env str db parent header).1 ≠ s) :
    s.maxEpochStartHeight < bigUint64 header.Number ∧
      ∃ parentExt, types.ExtractBftExtra parent = Except.ok parentExt ∧
        (s.UpdateEpoch env str db parent header).1.epochs.lookup (bigUint64 header.Number) =
          some { StartHeight := bigUint64 header.Number
                 ValSet := newValSet str parentExt.Validators
                 LastEpochStartHeight := s.maxEpochStartHeight } ∧
        (newValSet str parentExt.Validators).AddressList.Perm parentExt.Validators ∧
        (∀ h fuel, bigUint64 header.Number ≤ h → 0 < fuel →
          ∃ valSet,
            (s.UpdateEpoch env str db parent header).1.Validators str h fuel =
              Outcome.ok valSet ∧
            valSet.AddressList = (newValSet str parentExt.Validators).AddressList) ∧
        (∀ h fuel valSet, h < bigUint64 header.Number →
          s.Validators str h fuel = Outcome.ok valSet →
          (s.UpdateEpoch env str db parent header).1.Validators str h (fuel + 1) =
            Outcome.ok valSet) := by
  rcases UpdateEpoch_cases env str s db parent header with h | ⟨ext, hext, _, hlt, hfresh, h⟩
  · exact absurd h hsaved
  · have hv := Validators_after_save str s (bigUint64 header.Number) ext.Validators hfresh
    rw [h]
    exact ⟨hlt, ext, hext, lookup_mapSet_self _ _ _, sortValidators_perm str ext.Validators,
      hv.1, hv.2⟩

/-- The example of the two epochs: after the update, `Validators(99)` has the addresses
1, 2, 3, 4 and `Validators(100)` has 1, 2, 3, 5. -/
theorem sampleUpdate_validators :
    ∃ before after : defaultSet,
      (sampleStoreGenesis.UpdateEpoch sampleStorage sampleStr ([], 0) sampleParent
        sampleHeader100).1.Validators sampleStr 99 2 = Outcome.ok before ∧
      before.AddressList = [1, 2, 3, 4] ∧
      (sampleStoreGenesis.UpdateEpoch sampleStorage sampleStr ([], 0) sampleParent
        sampleHeader100).1.Validators sampleStr 100 1 = Outcome.ok after ∧
      after.AddressList = [1, 2, 3, 5] := by
  rw [sampleUpdate_store]
  exact ⟨_, _, rfl, by decide, rfl, by decide⟩

/-- C13, instance: the genesis epoch has the validators 1, 2, 3, 4 and the parent of block
100 names 1, 2, 3, 5. -/
theorem UpdateEpoch_new_epoch_witness :
    (sampleStoreGenesis.UpdateEpoch sampleStorage sampleStr ([], 0) sampleParent
        sampleHeader100).1 ≠ sampleStoreGenesis ∧
      sampleStoreGenesis.maxEpochStartHeight < bigUint64 sampleHeader100.Number ∧
      ∃ parentExt, types.ExtractBftExtra sampleParent = Except.ok parentExt ∧
        (sampleStoreGenesis.UpdateEpoch sampleStorage sampleStr ([], 0) sampleParent
            sampleHeader100).1.epochs.lookup (bigUint64 sampleHeader100.Number) =
          some { StartHeight := bigUint64 sampleHeader100.Number
                 ValSet := newValSet sampleStr parentExt.Validators
                 LastEpochStartHeight := sampleStoreGenesis.maxEpochStartHeight } ∧
        (newValSet sampleStr parentExt.Validators).AddressList.Perm parentExt.Validators ∧
        (∀ h fuel, bigUint64 sampleHeader100.Number ≤ h → 0 < fuel →
          ∃ valSet,
            (sampleStoreGenesis.UpdateEpoch sampleStorage sampleStr ([], 0) sampleParent
                sampleHeader100).1.Validators sampleStr h fuel = Outcome.ok valSet ∧
            valSet.AddressList = (newValSet sampleStr parentExt.Validators).AddressList) ∧
        (∀ h fuel valSet, h < bigUint64 sampleHeader100.Number →
          sampleStoreGenesis.Validators sampleStr h fuel = Outcome.ok valSet →
          (sampleStoreGenesis.UpdateEpoch sampleStorage sampleStr ([], 0) sampleParent
              sampleHeader100).1.Validators sampleStr h (fuel + 1) = Outcome.ok valSet) :=
  ⟨by rw [sampleUpdate_store]; decide,
    UpdateEpoch_new_epoch sampleStorage sampleStr sampleStoreGenesis ([], 0) sampleParent
      sampleHeader100 (by rw [sampleUpdate_store]; decide)⟩

/-- C14, failing input: on the store with epochs at the heights 0 and 100, where
`maxEpochStartHeight` is 100, `ChangeEpoch(50, [1, 2, 3])` returns nil and leaves
`maxEpochStartHeight` at 50. -/
theorem ChangeEpoch_lowers_maxEpochStartHeight :
    sampleStore.maxEpochStartHeight = 100 ∧
      (sampleStore.ChangeEpoch sampleStorage sampleStr ([], 0) 50 [1, 2, 3]).2.2 = none ∧
      (sampleStore.ChangeEpoch sampleStorage sampleStr ([], 0) 50
        [1, 2, 3]).1.maxEpochStartHeight = 50 :=
  ⟨by decide, by decide, by decide⟩

end backend

/-! ## The sorted order is kept by every operation on a validator set -/

namespace validator

open bft

theorem removeFirst_sublist (address : Address) :
    ∀ (l rest : List Address), removeFirst address l = some rest → rest.Sublist l := by
  intro l
  induction l with
  | nil => intro rest h; simp [removeFirst] at h
  | cons v vs ih =>
    intro rest h
    simp only [removeFirst] at h
    by_cases hv : v = address
    · rw [if_pos hv] at h
      cases h
      exact List.sublist_cons_self v vs
    · rw [if_neg hv] at h
      cases hrec : removeFirst address vs with
      | none => rw [hrec] at h; simp at h
      | some r =>
        rw [hrec] at h
        simp only [Option.map_some'] at h
        cases h
        exact (ih r hrec).cons₂ v

theorem NewSet_validators_sorted (str : Address → GoString) (addrs : List Address)
    (policy : SelectProposerPolicy) :
    (NewSet str addrs policy).validators.Sorted (notAfter str) :=
  sortValidators_sorted str addrs

theorem AddValidator_validators_sorted (str : Address → GoString) (valSet : defaultSet)
    (address : Address) (h : valSet.validators.Sorted (notAfter str)) :
    (valSet.AddValidator str address).1.validators.Sorted (notAfter str) := by
  unfold defaultSet.AddValidator
  split_ifs
  · exact h
  · exact sortValidators_sorted str _

theorem RemoveValidator_validators_sorted (str : Address → GoString) (valSet : defaultSet)
    (address : Address) (h : valSet.validators.Sorted (notAfter str)) :
    (valSet.RemoveValidator address).1.validators.Sorted (notAfter str) := by
  unfold defaultSet.RemoveValidator
  cases hrem : removeFirst address valSet.validators with
  | none => exact h
  | some rest => exact List.Pairwise.sublist (removeFirst_sublist address _ rest hrem) h

theorem CalcProposer_validators_sorted (str : Address → GoString) (valSet : defaultSet)
    (lastProposer : Address) (round : Nat) (h : valSet.validators.Sorted (notAfter str)) :
    (valSet.CalcProposer lastProposer round).validators.Sorted (notAfter str) := h

/-- An instance under the sample rendering: the addresses 3, 1, 4, 2 under the round-robin
policy. -/
theorem NewSet_sorted_permutation_witness :
    ([3, 1, 4, 2] : List Address) ≠ [] ∧
      (NewSet sampleStr [3, 1, 4, 2] RoundRobin).AddressList = [1, 2, 3, 4] ∧
      (NewSet sampleStr [3, 1, 4, 2] RoundRobin).GetProposer ≠ none ∧
      (NewSet sampleStr [3, 1, 4, 2] RoundRobin).GetProposer =
        (NewSet sampleStr [3, 1, 4, 2] RoundRobin).GetByIndex 0 :=
  ⟨by decide, by decide,
    (NewSet_sorted_permutation sampleStr [3, 1, 4, 2] RoundRobin).2.2.2 (by decide)⟩

end validator

/-! ## The order `NewSet` sorts by: the checksummed rendering of the addresses -/

namespace common

open bft

/-- The hash of the empty input is the known value of Keccak-256. -/
theorem Keccak256_empty :
    Keccak256 [] =
      [0xc5, 0xd2, 0x46, 0x01, 0x86, 0xf7, 0x23, 0x3c, 0x92, 0x7e, 0x7d, 0xb2, 0xdc, 0xc7,
       0x03, 0xc0, 0xe5, 0x00, 0xb6, 0x53, 0xca, 0x82, 0x27, 0x3b, 0x7b, 0xfa, 0xd8, 0x04,
       0x5d, 0x85, 0xa4, 0x70] := by
  decide!

/-- The rendering of the sample address of EIP-55 has the letters in the case the standard
gives. -/
theorem Address_String_checksum :
    Address.String 0x5aaeb6053f3e94c9b9a09f33669435e7ef1beaed
      = "0x5aAeb6053F3E94C9b9A09f33669435E7Ef1BeAed".toList.map Char.toNat := by
  decide!

end common

namespace validator

open bft

/-- The renderings of the addresses 11 and 12: the letter of 11 is in lower case, the letter
of 12 in upper case. -/
theorem String_11_12 :
    common.Address.String 11 = [48, 120] ++ List.replicate 39 48 ++ [98] ∧
      common.Address.String 12 = [48, 120] ++ List.replicate 39 48 ++ [67] := by
  decide!

/-- C19 (as stated, refuted): `NewSet` puts the address 12 before the address 11, as the
rendering of 12 ends in the upper-case letter C and the rendering of 11 in the lower-case
letter b; the list 12, 11 is in ascending order neither of the address bytes, nor of the
hexadecimal digits without regard to case, nor of the addresses as numbers. -/
theorem NewSet_not_in_address_order :
    (NewSet common.Address.String [11, 12] RoundRobin).AddressList = [12, 11] ∧
      ¬ ([12, 11] : List Address).Pairwise
          (fun a b => stringsCompare (rlp.addressBytes a) (rlp.addressBytes b) ≤ 0) ∧
      ¬ ([12, 11] : List Address).Pairwise
          (fun a b => stringsCompare (common.hexLower a) (common.hexLower b) ≤ 0) ∧
      ¬ ([12, 11] : List Address).Pairwise (fun a b => a.val ≤ b.val) :=
  ⟨by decide!, by decide, by decide, by decide⟩

/-- C19 (amended): for every list of addresses and every policy, the `AddressList()` of the
set `NewSet` builds is a permutation of the input list in ascending order of the `String()`
renderings of the addresses, the checksummed hexadecimal strings, as `strings.Compare`
orders them byte by byte. `Size()` is the length of the input, and when the input is not
empty the initial proposer is the validator at index 0. -/
theorem NewSet_sorted_by_String (addrs : List Address) (policy : SelectProposerPolicy) :
    (NewSet common.Address.String addrs policy).AddressList.Perm addrs ∧
      (NewSet common.Address.String addrs policy).AddressList.Pairwise
        (fun a b => stringsCompare (common.Address.String a) (common.Address.String b) ≤ 0) ∧
      (NewSet common.Address.String addrs policy).Size = addrs.length ∧
      (addrs ≠ [] →
        (NewSet common.Address.String addrs policy).GetProposer ≠ none ∧
        (NewSet common.Address.String addrs policy).GetProposer
          = (NewSet common.Address.String addrs policy).GetByIndex 0) :=
  NewSet_sorted_permutation common.Address.String addrs policy

/-- C19 (amended), instance: the addresses 11 and 12 under the round-robin policy. -/
theorem NewSet_sorted_by_String_witness :
    ([11, 12] : List Address) ≠ [] ∧
      (NewSet common.Address.String [11, 12] RoundRobin).AddressList = [12, 11] ∧
      (NewSet common.Address.String [11, 12] RoundRobin).GetProposer ≠ none ∧
      (NewSet common.Address.String [11, 12] RoundRobin).GetProposer
        = (NewSet common.Address.String [11, 12] RoundRobin).GetByIndex 0 :=
  ⟨by decide, by decide!,
    (NewSet_sorted_by_String [11, 12] RoundRobin).2.2.2 (by decide)⟩

end validator

/-! ## The decoder never runs out of loop tests -/

namespace rlp

open bft

theorem readUint_rest_le (size : Nat) (input : List Nat) (n : Nat) (rest : List Nat)
    (h : readUint size input = Except.ok (n, rest)) : rest.length ≤ input.length := by
  unfold readUint at h
  split_ifs at h
  · cases h; exact Nat.le_refl _
  · cases h; simp

theorem readKind_rest_lt (inList : Bool) (input : List Nat) (head : Head)
    (h : readKind inList input = Except.ok head) : head.rest.length < input.length := by
  cases input with
  | nil => simp [readKind] at h
  | cons b rest =>
    simp only [readKind] at h
    by_cases h1 : b < 128
    · rw [if_pos h1] at h
      cases h
      simp
    rw [if_neg h1] at h
    by_cases h2 : b < 184
    · rw [if_pos h2] at h
      by_cases hlen : rest.length < b - 128
      · rw [if_pos hlen] at h; cases h
      · rw [if_neg hlen] at h; cases h; simp
    rw [if_neg h2] at h
    by_cases h3 : b < 192
    · rw [if_pos h3] at h
      cases hu : readUint (b - 183) rest with
      | error e => rw [hu] at h; cases h
      | ok v =>
        obtain ⟨size, rest1⟩ := v
        rw [hu] at h
        have hle := readUint_rest_le _ _ _ _ hu
        simp only at h
        by_cases hs : size < 56
        · rw [if_pos hs] at h; cases h
        rw [if_neg hs] at h
        by_cases hlen : rest1.length < size
        · rw [if_pos hlen] at h; cases h
        · rw [if_neg hlen] at h
          cases h
          simp only [List.length_cons]
          omega
    rw [if_neg h3] at h
    by_cases h4 : b < 248
    · rw [if_pos h4] at h
      by_cases hlen : rest.length < b - 192
      · rw [if_pos hlen] at h; cases h
      · rw [if_neg hlen] at h; cases h; simp
    rw [if_neg h4] at h
    cases hu : readUint (b - 247) rest with
    | error e => rw [hu] at h; cases h
    | ok v =>
      obtain ⟨size, rest1⟩ := v
      rw [hu] at h
      have hle := readUint_rest_le _ _ _ _ hu
      simp only at h
      by_cases hs : size < 56
      · rw [if_pos hs] at h; cases h
      rw [if_neg hs] at h
      by_cases hlen : rest1.length < size
      · rw [if_pos hlen] at h; cases h
      · rw [if_neg hlen] at h
        cases h
        simp only [List.length_cons]
        omega

theorem decodeBytes_rest_lt (inList : Bool) (input b rest : List Nat)
    (h : decodeBytes inList input = Except.ok (b, rest)) : rest.length < input.length := by
  unfold decodeBytes at h
  cases hk : readKind inList input with
  | error e => rw [hk] at h; simp at h
  | ok head =>
    rw [hk] at h
    have hlt := readKind_rest_lt inList input head hk
    simp only at h
    cases hkind : head.kind with
    | Byte => rw [hkind] at h; simp only at h; cases h; exact hlt
    | String =>
      rw [hkind] at h
      simp only at h
      have hdrop : (head.rest.drop head.size).length ≤ head.rest.length := by simp
      split at h
      · split_ifs at h
        cases h
        omega
      · cases h
        omega
    | List => rw [hkind] at h; simp at h

theorem decodeAddress_rest_lt (inList : Bool) (input : List Nat) (a : Address)
    (rest : List Nat) (h : decodeAddress inList input = Except.ok (a, rest)) :
    rest.length < input.length := by
  unfold decodeAddress at h
  cases hk : readKind inList input with
  | error e => rw [hk] at h; simp at h
  | ok head =>
    rw [hk] at h
    have hlt := readKind_rest_lt inList input head hk
    simp only at h
    cases hkind : head.kind with
    | Byte => rw [hkind] at h; simp at h
    | String =>
      rw [hkind] at h
      simp only at h
      have hdrop : (head.rest.drop head.size).length ≤ head.rest.length := by simp
      split_ifs at h
      cases h
      omega
    | List => rw [hkind] at h; simp at h

/-- The loop over a list of byte strings ends within as many tests as the payload has bytes,
plus one: more tests do not change the result. -/
theorem decodeByteSlices_enough_fuel :
    ∀ (fuel more : Nat) (payload : List Nat), payload.length < fuel → payload.length < more →
      decodeByteSlices fuel payload = decodeByteSlices more payload := by
  intro fuel
  induction fuel with
  | zero => intro more payload h; exact absurd h (Nat.not_lt_zero _)
  | succ n ih =>
    intro more payload hfuel hmore
    cases more with
    | zero => exact absurd hmore (Nat.not_lt_zero _)
    | succ m =>
      simp only [decodeByteSlices]
      by_cases hp : payload = []
      · rw [if_pos hp, if_pos hp]
      · rw [if_neg hp, if_neg hp]
        cases hd : decodeBytes true payload with
        | error e => rfl
        | ok v =>
          obtain ⟨b, rest⟩ := v
          have hlt := decodeBytes_rest_lt true payload b rest hd
          simp only
          rw [ih m rest (by omega) (by omega)]

/-- The loop over a list of addresses ends within as many tests as the payload has bytes,
plus one: more tests do not change the result. -/
theorem decodeAddresses_enough_fuel :
    ∀ (fuel more : Nat) (payload : List Nat), payload.length < fuel → payload.length < more →
      decodeAddresses fuel payload = decodeAddresses more payload := by
  intro fuel
  induction fuel with
  | zero => intro more payload h; exact absurd h (Nat.not_lt_zero _)
  | succ n ih =>
    intro more payload hfuel hmore
    cases more with
    | zero => exact absurd hmore (Nat.not_lt_zero _)
    | succ m =>
      simp only [decodeAddresses]
      by_cases hp : payload = []
      · rw [if_pos hp, if_pos hp]
      · rw [if_neg hp, if_neg hp]
        cases hd : decodeAddress true payload with
        | error e => rfl
        | ok v =>
          obtain ⟨a, rest⟩ := v
          have hlt := decodeAddress_rest_lt true payload a rest hd
          simp only
          rw [ih m rest (by omega) (by omega)]

end rlp

/-! ## Comparison, proposer test and the sticky policy -/

namespace validator

open bft

theorem GetByAddress_index_neg_iff (valSet : defaultSet) (v : Address) :
    (valSet.GetByAddress v).1 < 0 ↔ v ∉ valSet.validators := by
  unfold defaultSet.GetByAddress
  rw [getByAddressFrom_eq]
  by_cases hm : v ∈ valSet.validators
  · simp only [hm, if_true, not_true_eq_false, iff_false, not_lt]
    exact Int.ofNat_nonneg _
  · simp [hm]

theorem foldl_participants (valSet : defaultSet) (list : List Address) :
    ∀ size : Nat,
      list.foldl (fun size v => if (valSet.GetByAddress v).1 < 0 then size else size + 1) size
        = size + (list.filter (fun v => decide (v ∈ valSet.validators))).length := by
  induction list with
  | nil => intro size; rfl
  | cons v rest ih =>
    intro size
    rw [List.foldl_cons, ih]
    by_cases hm : v ∈ valSet.validators
    · have hneg : ¬ (valSet.GetByAddress v).1 < 0 := by
        rw [GetByAddress_index_neg_iff]; exact fun h => h hm
      rw [if_neg hneg, List.filter_cons_of_pos (by simpa using hm), List.length_cons]
      omega
    · have hneg : (valSet.GetByAddress v).1 < 0 := (GetByAddress_index_neg_iff valSet v).mpr hm
      rw [if_pos hneg, List.filter_cons_of_neg (by simpa using hm)]

theorem ParticipantsNumber_eq (valSet : defaultSet) (list : List Address) :
    valSet.ParticipantsNumber list
      = (list.filter (fun v => decide (v ∈ valSet.validators))).length := by
  unfold defaultSet.ParticipantsNumber
  rw [foldl_participants, Nat.zero_add]

/-- What `Cmp` computes: every address of the argument is in the receiver, and the two sets
have the same size. -/
theorem Cmp_iff (valSet src : defaultSet) :
    valSet.Cmp src = true ↔
      (∀ v ∈ src.validators, v ∈ valSet.validators) ∧ valSet.Size = src.Size := by
  unfold defaultSet.Cmp
  simp only [ParticipantsNumber_eq, defaultSet.AddressList, defaultSet.Size]
  have hle := List.length_filter_le (fun v => decide (v ∈ valSet.validators)) src.validators
  constructor
  · intro h
    split_ifs at h with hc
    have h1 : (src.validators.filter (fun v => decide (v ∈ valSet.validators))).length
        = valSet.validators.length := by omega
    have h2 : (src.validators.filter (fun v => decide (v ∈ valSet.validators))).length
        = src.validators.length := by omega
    refine ⟨fun v hv => ?_, by omega⟩
    have hall := List.filter_length_eq_length.mp h2 v hv
    simpa using hall
  · rintro ⟨hall, hsize⟩
    have h2 : (src.validators.filter (fun v => decide (v ∈ valSet.validators))).length
        = src.validators.length :=
      List.filter_length_eq_length.mpr (fun v hv => by simpa using hall v hv)
    rw [if_neg (by omega)]

end validator

namespace validator

open bft

/-- C21 (as stated, refuted): the set of the validators 1 and 2 and the set that holds the
validator 1 twice compare as equal, although their multisets of addresses differ. -/
theorem Cmp_ignores_multiplicity :
    (NewSet sampleStr [1, 2] RoundRobin).AddressList = [1, 2] ∧
      (NewSet sampleStr [1, 1] RoundRobin).AddressList = [1, 1] ∧
      (NewSet sampleStr [1, 2] RoundRobin).Cmp (NewSet sampleStr [1, 1] RoundRobin) = true ∧
      ¬ (NewSet sampleStr [1, 2] RoundRobin).AddressList.Perm
          (NewSet sampleStr [1, 1] RoundRobin).AddressList := by
  decide

/-- C21 (amended): for every pair of validator sets a and b, `a.Cmp(b)` returns true whenever
the multisets of addresses of a and b are equal, and when b holds no address twice it
returns true if and only if they are equal. -/
theorem Cmp_multiset (a b : defaultSet) :
    (a.AddressList.Perm b.AddressList → a.Cmp b = true) ∧
      (b.AddressList.Nodup → (a.Cmp b = true ↔ a.AddressList.Perm b.AddressList)) := by
  have hperm : a.AddressList.Perm b.AddressList → a.Cmp b = true := by
    intro h
    rw [Cmp_iff]
    exact ⟨fun v hv => h.symm.subset hv, h.length_eq⟩
  refine ⟨hperm, fun hnodup => ⟨fun h => ?_, hperm⟩⟩
  rw [Cmp_iff] at h
  have hsub : b.validators.Subperm a.validators :=
    List.subperm_of_subset hnodup (fun v hv => h.1 v hv)
  exact (hsub.perm_of_length_le (by
    have := h.2
    simp only [defaultSet.Size] at this
    omega)).symm

/-- C21 (amended), instance: the validators 1, 2, 3, 4 given in two orders. -/
theorem Cmp_multiset_witness :
    (NewSet sampleStr [4, 3, 2, 1] Sticky).AddressList.Nodup ∧
      (sampleSet4.Cmp (NewSet sampleStr [4, 3, 2, 1] Sticky) = true ↔
        sampleSet4.AddressList.Perm (NewSet sampleStr [4, 3, 2, 1] Sticky).AddressList) :=
  ⟨by decide, (Cmp_multiset sampleSet4 (NewSet sampleStr [4, 3, 2, 1] Sticky)).2 (by decide)⟩

/-- C22, failing input: after `CalcProposer` the set of the validators 1, 2, 3 under the VRF
policy has no proposer, and `IsProposer` returns true for the address 9, which is not even a
validator; the set of no validators, which has no proposer either, does the same. -/
theorem IsProposer_without_proposer :
    (sampleSetVRF.CalcProposer 0 0).GetProposer = none ∧
      (sampleSetVRF.CalcProposer 0 0).IsProposer 9 = true ∧
      sampleSetEmpty.GetProposer = none ∧
      sampleSetEmpty.IsProposer 9 = true := by
  decide

end validator

namespace validator

open bft

/-- C23 (as stated, refuted): with the three validators 1, 2, 3 under the sticky policy, last
proposer 2 (index 1) and round `2 ^ 64 - 1`, `CalcProposer` picks index 0, not index
`(1 + round) mod 3 = 1`: the seed is computed in `uint64` and wraps to 0. -/
theorem CalcProposer_sticky_wraps :
    sampleSetSticky.validators = [1, 2, 3] ∧
      sampleSetSticky.selector = Selector.sticky ∧
      (sampleSetSticky.CalcProposer 2 (2 ^ 64 - 1)).proposer = sampleSetSticky.validators[0]? ∧
      (sampleSetSticky.CalcProposer 2 (2 ^ 64 - 1)).proposer ≠
        sampleSetSticky.validators[(sampleSetSticky.validators.indexOf 2 + (2 ^ 64 - 1)) % 3]? := by
  decide

/-- C23 (amended): on a non-empty set of size n whose selector is `stickySelector` (the one
`NewSet` installs for the Sticky policy), `CalcProposer(lastProposer, round)` sets the
proposer to the validator at index `round mod n` when `lastProposer` is the zero address, and
otherwise at index `((idx + round) mod 2 ^ 64) mod n`, where idx is the position of the first
entry equal to `lastProposer`, or 0 when it is not in the set; this is `(idx + round) mod n`
whenever `idx + round < 2 ^ 64`. With round 0 a last proposer that stands at index i, and
nowhere before, and is not the zero address unless i = 0, stays leader. -/
theorem CalcProposer_sticky (str : Address → GoString) (valSet : defaultSet)
    (lastProposer : Address) (round : Nat)
    (hsel : valSet.selector = Selector.sticky) (hn : 0 < valSet.Size) :
    (∀ addrs, (NewSet str addrs Sticky).selector = Selector.sticky) ∧
    (lastProposer = 0 →
      (valSet.CalcProposer lastProposer round).proposer
        = valSet.validators[round % valSet.Size]?) ∧
    (lastProposer ≠ 0 →
      (valSet.CalcProposer lastProposer round).proposer
        = valSet.validators[((if lastProposer ∈ valSet.validators
            then valSet.validators.indexOf lastProposer else 0) + round) % 2 ^ 64
              % valSet.Size]?) ∧
    (lastProposer ≠ 0 →
      (if lastProposer ∈ valSet.validators
        then valSet.validators.indexOf lastProposer else 0) + round < 2 ^ 64 →
      (valSet.CalcProposer lastProposer round).proposer
        = valSet.validators[((if lastProposer ∈ valSet.validators
            then valSet.validators.indexOf lastProposer else 0) + round)
              % valSet.Size]?) ∧
    (∀ (i : Nat) (v : Address), valSet.validators[i]? = some v → (v ≠ 0 ∨ i = 0) →
      valSet.validators.indexOf v = i → valSet.Size < 2 ^ 64 →
      (valSet.CalcProposer v 0).proposer = some v) := by
  have hne : ¬ valSet.Size = 0 := by omega
  have hzero : ∀ r : Nat, (valSet.CalcProposer 0 r).proposer
      = valSet.validators[r % valSet.Size]? := by
    intro r
    simp only [defaultSet.CalcProposer, hsel, Selector.apply, stickySelector, if_neg hne,
      emptyAddress, decide_True, if_true, GetByIndex_mod _ _ hn]
  have hnz : ∀ (a : Address) (r : Nat), a ≠ 0 →
      (valSet.CalcProposer a r).proposer
        = valSet.validators[((if a ∈ valSet.validators
            then valSet.validators.indexOf a else 0) + r) % 2 ^ 64
              % valSet.Size]? := by
    intro a r ha
    simp only [defaultSet.CalcProposer, hsel, Selector.apply, stickySelector, if_neg hne,
      emptyAddress, ha, decide_False, Bool.false_eq_true, if_false, calcSeed_eq,
      GetByIndex_mod _ _ hn]
  refine ⟨fun _ => by simp [NewSet, newDefaultSet, RoundRobin, VRF, Sticky], ?_,
    hnz lastProposer round, ?_, ?_⟩
  · intro h0
    rw [h0]; exact hzero round
  · intro h0 hlt
    rw [hnz lastProposer round h0, Nat.mod_eq_of_lt hlt]
  · intro i v hv hv0 hidx hsize
    have hi : i < valSet.Size := (List.getElem?_eq_some.mp hv).1
    have hmem : v ∈ valSet.validators := List.mem_iff_getElem?.mpr ⟨i, hv⟩
    by_cases hz : v = 0
    · have hi0 : i = 0 := by
        rcases hv0 with h | h
        · exact absurd hz h
        · exact h
      rw [hz, hzero 0, Nat.zero_mod, ← hi0, hv, hz]
    · rw [hnz v 0 hz, if_pos hmem, hidx, Nat.add_zero,
        Nat.mod_eq_of_lt (show i < 2 ^ 64 by omega), Nat.mod_eq_of_lt hi, hv]

/-- C23 (amended), instance: the validators 1, 2, 3 under the sticky policy, last proposer 2,
round 4. -/
theorem CalcProposer_sticky_witness :
    sampleSetSticky.selector = Selector.sticky ∧ 0 < sampleSetSticky.Size ∧
      ((2 : Address) ≠ 0 →
        (sampleSetSticky.CalcProposer 2 4).proposer
          = sampleSetSticky.validators[((if (2 : Address) ∈ sampleSetSticky.validators
              then sampleSetSticky.validators.indexOf (2 : Address) else 0) + 4) % 2 ^ 64
                % sampleSetSticky.Size]?) :=
  ⟨by decide, by decide,
    (CalcProposer_sticky sampleStr sampleSetSticky 2 4 (by decide) (by decide)).2.2.1⟩

/-- C24: for every validator set whose address list is sorted and duplicate-free and every
address a, the address list is sorted and duplicate-free after `AddValidator(a)` and after
`RemoveValidator(a)`. -/
theorem mutation_keeps_sorted_nodup (str : Address → GoString) (valSet : defaultSet)
    (a : Address) (hsorted : valSet.AddressList.Sorted (notAfter str))
    (hnodup : valSet.AddressList.Nodup) :
    ((valSet.AddValidator str a).1.AddressList.Sorted (notAfter str) ∧
        (valSet.AddValidator str a).1.AddressList.Nodup) ∧
      ((valSet.RemoveValidator a).1.AddressList.Sorted (notAfter str) ∧
        (valSet.RemoveValidator a).1.AddressList.Nodup) := by
  refine ⟨⟨AddValidator_validators_sorted str valSet a hsorted, ?_⟩,
    ⟨RemoveValidator_validators_sorted str valSet a hsorted, ?_⟩⟩
  · unfold defaultSet.AddValidator
    by_cases hm : a ∈ valSet.validators
    · rw [if_pos hm]; exact hnodup
    · rw [if_neg hm]
      simp only [defaultSet.AddressList] at hnodup ⊢
      refine (sortValidators_perm str _).nodup_iff.mpr ?_
      rw [List.nodup_append]
      refine ⟨hnodup, List.nodup_singleton a, ?_⟩
      intro x hx hxa
      rw [List.mem_singleton] at hxa
      exact hm (hxa ▸ hx)
  · unfold defaultSet.RemoveValidator
    cases hrem : removeFirst a valSet.validators with
    | none => exact hnodup
    | some rest => exact List.Nodup.sublist (removeFirst_sublist a _ rest hrem) hnodup

/-- C24, instance: adding the validator 5 to, and removing the validator 2 from, the
validators 1, 2, 3, 4. -/
theorem mutation_keeps_sorted_nodup_witness :
    sampleSet4.AddressList.Sorted (notAfter sampleStr) ∧ sampleSet4.AddressList.Nodup ∧
      (sampleSet4.AddValidator sampleStr 5).1.AddressList = [1, 2, 3, 4, 5] ∧
      (sampleSet4.RemoveValidator 2).1.AddressList = [1, 3, 4] ∧
      (sampleSet4.AddValidator sampleStr 5).1.AddressList.Sorted (notAfter sampleStr) ∧
      (sampleSet4.RemoveValidator 2).1.AddressList.Nodup :=
  ⟨by decide, by decide, by decide, by decide,
    (mutation_keeps_sorted_nodup sampleStr sampleSet4 5 (by decide) (by decide)).1.1,
    (mutation_keeps_sorted_nodup sampleStr sampleSet4 2 (by decide) (by decide)).2.2⟩

/-- C26: for every validator set of size n >= 1 (below `2 ^ 52`, as every slice is),
`n - F() >= Q()`: the validators left when `F()` of them are silent still reach the quorum
threshold; for n = 4 one silent validator leaves 3 = `Q()`. -/
theorem silent_F_leaves_quorum (valSet : defaultSet) (hn : 1 ≤ valSet.Size)
    (hsize : valSet.Size < 2 ^ 52) :
    (valSet.Size : Int) - valSet.F ≥ (valSet.Q : Int) ∧
      (valSet.Size = 4 → (valSet.Size : Int) - valSet.F = 3 ∧ valSet.Q = 3) := by
  have hQ : valSet.Q = (2 * valSet.Size + 2) / 3 := by
    unfold defaultSet.Q
    exact ceilDiv3Float64_eq _ (by omega)
  have hF : valSet.F = (((valSet.Size + 2) / 3 : Nat) : Int) - 1 := by
    unfold defaultSet.F
    rw [ceilDiv3Float64_eq _ (by omega)]
  refine ⟨?_, ?_⟩
  · rw [hQ, hF]
    omega
  · intro h
    rw [hQ, hF, h]
    decide

/-- C26, instance: the four validators 1, 2, 3, 4. -/
theorem silent_F_leaves_quorum_witness :
    1 ≤ sampleSet4.Size ∧ sampleSet4.Size < 2 ^ 52 ∧
      (sampleSet4.Size : Int) - sampleSet4.F ≥ (sampleSet4.Q : Int) :=
  ⟨by decide, by decide, (silent_F_leaves_quorum sampleSet4 (by decide) (by decide)).1⟩

end validator

/-! ## Theorems on records that exist already -/

namespace backend

open bft validator

theorem saveEpoch_existing {DB E : Type} (env : Storage DB E) (str : Address → GoString)
    (s : backend) (db : DB) (height : Nat) (list : List Address) (e : Epoch)
    (hrec : s.epochs.lookup height = some e) :
    s.saveEpoch env str db height list = (s, db, none) := by
  simp [backend.saveEpoch, hrec]

theorem sampleStoreLowered_reached :
    (sampleStore.ChangeEpoch sampleStorage sampleStr ([], 0) 50 [1, 2, 3]).1
      = sampleStoreLowered := by
  decide

/-- C25, failing input: the store holds records at the heights 100 and 0, and
`maxEpochStartHeight` is 100. There `UpdateEpoch` for a header at height 100, where a record
exists, returns nil even when the parent's extra-data cannot be decoded. After
`ChangeEpoch(50, [1, 2, 3])`, which returns nil and leaves `maxEpochStartHeight` at 50, the
record at height 100 lies above `maxEpochStartHeight`, and the same call of `UpdateEpoch`
returns the error of the decoder. -/
theorem UpdateEpoch_existing_record_error :
    sampleStore.maxEpochStartHeight = 100 ∧
      sampleStore.epochs.lookup 100 = some sampleEpoch100 ∧
      bigUint64 sampleHeader100.Number = 100 ∧
      sampleStore.UpdateEpoch sampleStorage sampleStr ([], 0) sampleParentBare
        sampleHeader100 = (sampleStore, ([], 0), none) ∧
      (sampleStore.ChangeEpoch sampleStorage sampleStr ([], 0) 50 [1, 2, 3]).1
        = sampleStoreLowered ∧
      (sampleStore.ChangeEpoch sampleStorage sampleStr ([], 0) 50 [1, 2, 3]).2.2 = none ∧
      sampleStoreLowered.maxEpochStartHeight = 50 ∧
      sampleStoreLowered.epochs.lookup 100 = some sampleEpoch100 ∧
      sampleStoreLowered.UpdateEpoch sampleStorage sampleStr ([], 0) sampleParentBare
        sampleHeader100 =
        (sampleStoreLowered, ([], 0),
          some (Error.extra types.Error.ErrInvalidBftHeaderExtra)) :=
  ⟨by decide, by decide, by decide, by decide, by decide, by decide, by decide, by decide,
    by decide⟩

/-- What holds in every engine state, also with records above `maxEpochStartHeight`: for
every height H for which an epoch record exists, `ChangeEpoch` targeting H returns nil and leaves the store, that is the record, the
epochs map and `maxEpochStartHeight`, and the database unchanged; `UpdateEpoch` for a header
at height H leaves them unchanged too, and returns nil when H is at most
`maxEpochStartHeight` or the parent's extra-data can be decoded. -/
theorem existing_record_unchanged {DB E : Type} (env : Storage DB E)
    (str : Address → GoString) (s : backend) (db : DB) (H : Nat) (e : Epoch)
    (hrec : s.epochs.lookup H = some e) :
    (∀ list, s.ChangeEpoch env str db H list = (s, db, none)) ∧
      (∀ parent header : types.Header, bigUint64 header.Number = H →
        (s.UpdateEpoch env str db parent header).1 = s ∧
        (s.UpdateEpoch env str db parent header).2.1 = db ∧
        (s.UpdateEpoch env str db parent header).1.epochs.lookup H = some e ∧
        ((H ≤ s.maxEpochStartHeight ∨ ∃ ext, types.ExtractBftExtra parent = Except.ok ext) →
          s.UpdateEpoch env str db parent header = (s, db, none))) := by
  refine ⟨fun list => saveEpoch_existing env str s db H list e hrec, ?_⟩
  intro parent header hH
  have hall : (H ≤ s.maxEpochStartHeight ∨ ∃ ext, types.ExtractBftExtra parent = Except.ok ext) →
      s.UpdateEpoch env str db parent header = (s, db, none) := by
    intro hc
    unfold backend.UpdateEpoch
    simp only [hH]
    by_cases hguard : H ≤ s.maxEpochStartHeight ∨ H = 1
    · rw [if_pos hguard]
    · rw [if_neg hguard]
      rcases hc with hle | ⟨ext, hext⟩
      · exact absurd (Or.inl hle) hguard
      · rw [hext]
        simp only
        by_cases hlen : ext.Validators.length = 0
        · rw [if_pos hlen]
        · rw [if_neg hlen, saveEpoch_existing env str s db H ext.Validators e hrec]
          rfl
  have hstate : (s.UpdateEpoch env str db parent header).1 = s ∧
      (s.UpdateEpoch env str db parent header).2.1 = db := by
    cases hext : types.ExtractBftExtra parent with
    | ok ext => rw [hall (Or.inr ⟨ext, hext⟩)]; exact ⟨rfl, rfl⟩
    | error err =>
      unfold backend.UpdateEpoch
      simp only [hH, hext]
      split_ifs <;> exact ⟨rfl, rfl⟩
  refine ⟨hstate.1, hstate.2, ?_, hall⟩
  rw [hstate.1]; exact hrec

/-- An instance with no record above `maxEpochStartHeight`: the store with records at the
heights 100 and 0, a header at height 100 and a parent that names the validators 1, 2, 3, 5. -/
theorem existing_record_unchanged_witness :
    sampleStore.epochs.lookup 100 = some sampleEpoch100 ∧
      sampleStore.ChangeEpoch sampleStorage sampleStr ([], 0) 100 [7, 8, 9] =
        (sampleStore, ([], 0), none) ∧
      bigUint64 sampleHeader100.Number = 100 ∧
      (sampleStore.UpdateEpoch sampleStorage sampleStr ([], 0) sampleParent
        sampleHeader100).1 = sampleStore :=
  ⟨by decide,
    (existing_record_unchanged sampleStorage sampleStr sampleStore ([], 0) 100 sampleEpoch100
      (by decide)).1 [7, 8, 9],
    by decide,
    ((existing_record_unchanged sampleStorage sampleStr sampleStore ([], 0) 100 sampleEpoch100
      (by decide)).2 sampleParent sampleHeader100 (by decide)).1⟩

end backend

/-! ## Theorems on rejected calls and on the fresh round state -/

namespace core

open bft validator message_set

/-- The parts of the round state `startNewRound` installs that come from `newRoundState`
unchanged, whether the engine had a round state before or not. -/
theorem startNewRound_fresh (proposal2QC : Option Proposal → Int → Option QuorumCert)
    (b : Backend) (c : core) (round : Int) (last : Proposal)
    (proposer : Address) (changeView : Bool) (slept : List Effect)
    (hrun : c.isRunning = true)
    (hcatch : catchup b c.current round c.retryPeriod (maxRetry - 1) 0 []
      = Decision.proceed (some last) proposer changeView slept) :
    ∃ c1 cur1, c.startNewRound proposal2QC b round = Outcome.ok c1 ∧
      c1.current = some cur1 ∧
      c1.valSet = some cur1.vs ∧
      cur1.state = State.StateAcceptRequest ∧
      cur1.newViews = NewMessageSet cur1.vs ∧
      cur1.prepareVotes = NewMessageSet cur1.vs ∧
      cur1.preCommitVotes = NewMessageSet cur1.vs ∧
      cur1.commitVotes = NewMessageSet cur1.vs ∧
      cur1.highQC = none ∧
      cur1.prepareQC = proposal2QC (some last) 0 ∧
      cur1.lockedQC = proposal2QC (some last) 0 ∧
      cur1.committedQC = proposal2QC (some last) 0 := by
  unfold core.startNewRound
  simp only [hrun, hcatch, Bool.true_eq_false, if_false]
  cases hc : c.current with
  | none =>
    cases changeView <;> cases ht : c.roundChangeTimer <;>
      simp [core.setCurrentState, core.sendNewView, core.newRoundChangeTimer, core.stopTimer,
        core.processBacklog, roundState.SetState, roundState.SetProposal,
        roundState.LockProposal, roundState.SetPendingRequest, roundState.LastLockedProposal,
        roundState.PendingRequest, newRoundState, ht]
  | some cur =>
    cases changeView <;> cases hl : cur.proposalLocked <;> cases hp : cur.proposal <;>
      cases hq : cur.pendingRequest <;> cases ht : c.roundChangeTimer <;>
      simp [core.setCurrentState, core.sendNewView, core.newRoundChangeTimer, core.stopTimer,
        core.processBacklog, roundState.SetState, roundState.SetProposal,
        roundState.LockProposal, roundState.SetPendingRequest, roundState.LastLockedProposal,
        roundState.PendingRequest, roundState.Height, newRoundState, hl, hp, hq, ht]

end core

namespace core

open bft validator message_set

theorem View_Cmp_self (v : View) : v.Cmp v = 0 := by
  simp [View.Cmp]

theorem catchup_too_low (b : Backend) (cur : roundState) (round retryPeriod : Int)
    (retriesLeft reads : Nat) (slept : List Effect) (last : Proposal) (proposer : Address)
    (hlast : b.LastProposal reads = (some last, proposer))
    (hlo : -2 ^ 63 < cur.height) (hhi : cur.height < 2 ^ 63)
    (hnum : last.number < cur.height - 1) :
    catchup b (some cur) round retryPeriod retriesLeft reads slept = Decision.reject slept := by
  obtain ⟨retry, h⟩ := catchup_eq_pass b (some cur) round retryPeriod retriesLeft reads slept
  rw [h, hlast]
  simp only [catchupPass, roundState.Height]
  rw [if_neg (by omega), height_minus_one cur.height hlo hhi, if_neg (by omega)]

/-- C28 (as stated, refuted): the engine is at the height `2 ^ 64 + 5`, round 3, and the
last proposal of the backend has the number 4, far below the height minus one. `Int64()` of
the height is 5, so the code compares 4 with 5 - 1, takes the call with round 4 for a view
change and installs a round state for round 4: the engine is not left as it was. -/
theorem startNewRound_accepts_stale_chain :
    sampleCoreHugeHeight.isRunning = true ∧
      sampleCoreHugeHeight.current = some sampleRoundHugeHeight ∧
      sampleBackendAt4.LastProposal 0 = (some sampleBlock4, 2) ∧
      sampleBlock4.number < sampleRoundHugeHeight.Height - 1 ∧
      sampleRoundHugeHeight.View = { Height := 2 ^ 64 + 5, Round := 3 } ∧
      sampleCoreHugeHeight.startNewRound sampleProposal2QC sampleBackendAt4 4
        ≠ Outcome.ok sampleCoreHugeHeight ∧
      ∃ c1 cur1, sampleCoreHugeHeight.startNewRound sampleProposal2QC sampleBackendAt4 4
          = Outcome.ok c1 ∧ c1.current = some cur1 ∧
        cur1.View = { Height := 2 ^ 64 + 5, Round := 4 } := by
  refine ⟨by decide, by decide, by decide, by decide, by decide, by decide, ?_⟩
  obtain ⟨c1, cur1, h1, h2, h3, _⟩ :=
    startNewRound_proceed sampleProposal2QC sampleBackendAt4 sampleCoreHugeHeight 4
      sampleRoundHugeHeight sampleBlock4 2 true [] (by decide) (by decide) (by decide)
  refine ⟨c1, cur1, h1, h2, ?_⟩
  rw [h3]
  decide

/-- C28 (amended): on a running engine with a round state whose height lies in the `int64`
range, when the last proposal of the backend has `Number < current.Height - 1`, `startNewRound` returns and
leaves the engine as it was: the current round state with its view, state, proposal, lock
flag, certificates and message sets, and the validator set. A call on an engine that is not
running, as after `Stop`, does the same. -/
theorem startNewRound_rejects_stale_chain
    (proposal2QC : Option Proposal → Int → Option QuorumCert) (b : Backend) (c : core)
    (round : Int) :
    (c.isRunning = false → c.startNewRound proposal2QC b round = Outcome.ok c) ∧
      c.Stop.startNewRound proposal2QC b round = Outcome.ok c.Stop ∧
      (∀ (cur : roundState) (last : Proposal) (proposer : Address),
        c.isRunning = true → c.current = some cur →
        b.LastProposal 0 = (some last, proposer) →
        -2 ^ 63 < cur.Height → cur.Height < 2 ^ 63 → last.number < cur.Height - 1 →
        c.startNewRound proposal2QC b round = Outcome.ok c) := by
  have hstopped : ∀ c0 : core, c0.isRunning = false →
      c0.startNewRound proposal2QC b round = Outcome.ok c0 := by
    intro c0 h
    unfold core.startNewRound
    rw [if_pos h]
  refine ⟨hstopped c, hstopped _ rfl, ?_⟩
  intro cur last proposer hrun hcur hlast hlo hhi hnum
  have hcatch := catchup_too_low b cur round c.retryPeriod (maxRetry - 1) 0 [] last proposer
    hlast hlo hhi hnum
  unfold core.startNewRound
  simp only [hrun, hcur, hcatch, Bool.true_eq_false, if_false, List.append_nil]
  rw [← hcur, ← hrun]

/-- C28 (amended), instance: the engine at height 5, round 3, when the chain head is at
height 3. -/
theorem startNewRound_rejects_stale_chain_witness :
    sampleCore.isRunning = true ∧ sampleCore.current = some sampleRoundLocked ∧
      sampleBackendAt3.LastProposal 0 = (some { hash := 31, number := 3 }, 2) ∧
      -2 ^ 63 < sampleRoundLocked.Height ∧ sampleRoundLocked.Height < 2 ^ 63 ∧
      (3 : Int) < sampleRoundLocked.Height - 1 ∧
      sampleCore.startNewRound sampleProposal2QC sampleBackendAt3 4 = Outcome.ok sampleCore :=
  ⟨by decide, by decide, by decide, by decide, by decide, by decide,
    (startNewRound_rejects_stale_chain sampleProposal2QC sampleBackendAt3 sampleCore 4).2.2
      sampleRoundLocked { hash := 31, number := 3 } 2 (by decide) (by decide) (by decide)
      (by decide) (by decide) (by decide)⟩

/-- C29: whenever `startNewRound` passes the label `catchup` towards a new view, be it on
the initial start, as a catch-up or as a view change, it returns with a round state whose
state is `StateAcceptRequest` and whose four message sets `newViews`, `prepareVotes`,
`preCommitVotes` and `commitVotes` have size 0. -/
theorem startNewRound_round_state_fresh
    (proposal2QC : Option Proposal → Int → Option QuorumCert)
    (b : Backend) (c : core) (round : Int) (last : Proposal)
    (proposer : Address) (changeView : Bool) (slept : List Effect)
    (hrun : c.isRunning = true)
    (hcatch : catchup b c.current round c.retryPeriod (maxRetry - 1) 0 []
      = Decision.proceed (some last) proposer changeView slept) :
    ∃ c1 cur1, c.startNewRound proposal2QC b round = Outcome.ok c1 ∧
      c1.current = some cur1 ∧
      cur1.State = State.StateAcceptRequest ∧
      cur1.NewViewSize = 0 ∧ cur1.PrepareVoteSize = 0 ∧
      cur1.PreCommitVoteSize = 0 ∧ cur1.CommitVoteSize = 0 := by
  obtain ⟨c1, cur1, h1, h2, _, h4, h5, h6, h7, h8, _⟩ :=
    startNewRound_fresh proposal2QC b c round last proposer changeView slept hrun hcatch
  refine ⟨c1, cur1, h1, h2, h4, ?_, ?_, ?_, ?_⟩
  · simp [roundState.NewViewSize, h5, NewMessageSet, MessageSet.Size]
  · simp [roundState.PrepareVoteSize, h6, NewMessageSet, MessageSet.Size]
  · simp [roundState.PreCommitVoteSize, h7, NewMessageSet, MessageSet.Size]
  · simp [roundState.CommitVoteSize, h8, NewMessageSet, MessageSet.Size]

/-- C29, instance: the initial start of an engine without a round state, chain head at
height 4. -/
theorem startNewRound_round_state_fresh_witness :
    sampleCoreInitial.isRunning = true ∧
      catchup sampleBackendAt4 sampleCoreInitial.current 0 sampleCoreInitial.retryPeriod
        (maxRetry - 1) 0 [] = Decision.proceed (some sampleBlock4) 2 false [] ∧
      ∃ c1 cur1, sampleCoreInitial.startNewRound sampleProposal2QC sampleBackendAt4 0
          = Outcome.ok c1 ∧
        c1.current = some cur1 ∧
        cur1.State = State.StateAcceptRequest ∧
        cur1.NewViewSize = 0 ∧ cur1.PrepareVoteSize = 0 ∧
        cur1.PreCommitVoteSize = 0 ∧ cur1.CommitVoteSize = 0 :=
  ⟨by decide, by decide,
    startNewRound_round_state_fresh sampleProposal2QC sampleBackendAt4 sampleCoreInitial 0
      sampleBlock4 2 false [] (by decide) (by decide)⟩

/-- C30: the round state `newRoundState` builds with a certificate q has `prepareQC`,
`lockedQC` and `committedQC` equal to q and no `highQC`; and when `startNewRound` passes the
label `catchup` towards a new view and `proposal2QC` gives the certificate q for the last
proposal at round 0, the round state it installs has these four values, so the view of its
`lockedQC` is not above the view of its `prepareQC`. -/
theorem fresh_round_certificates
    (proposal2QC : Option Proposal → Int → Option QuorumCert)
    (b : Backend) (c : core) (round : Int) (last : Proposal)
    (proposer : Address) (changeView : Bool) (slept : List Effect) (q : QuorumCert)
    (hrun : c.isRunning = true)
    (hcatch : catchup b c.current round c.retryPeriod (maxRetry - 1) 0 []
      = Decision.proceed (some last) proposer changeView slept)
    (hq : proposal2QC (some last) 0 = some q) :
    (∀ (view : View) (validatorSet : defaultSet),
      (newRoundState view validatorSet (some q)).PrepareQC = some q ∧
      (newRoundState view validatorSet (some q)).PreCommittedQC = some q ∧
      (newRoundState view validatorSet (some q)).CommittedQC = some q ∧
      (newRoundState view validatorSet (some q)).HighQC = none) ∧
    ∃ c1 cur1, c.startNewRound proposal2QC b round = Outcome.ok c1 ∧
      c1.current = some cur1 ∧
      cur1.PrepareQC = some q ∧ cur1.PreCommittedQC = some q ∧
      cur1.CommittedQC = some q ∧ cur1.HighQC = none ∧
      ∀ l p, cur1.PreCommittedQC = some l → cur1.PrepareQC = some p →
        l.View.Cmp p.View ≤ 0 := by
  refine ⟨fun view validatorSet => ⟨rfl, rfl, rfl, rfl⟩, ?_⟩
  obtain ⟨c1, cur1, h1, h2, _, _, _, _, _, _, h9, h10, h11, h12⟩ :=
    startNewRound_fresh proposal2QC b c round last proposer changeView slept hrun hcatch
  rw [hq] at h10 h11 h12
  refine ⟨c1, cur1, h1, h2, h10, h11, h12, h9, ?_⟩
  intro l p hl hp
  simp only [roundState.PreCommittedQC, roundState.PrepareQC, h10, h11] at hl hp
  cases hl
  cases hp
  rw [View_Cmp_self]

/-- C30, instance: the engine at height 5, round 3 changes to round 4 while the chain head
is at height 4. -/
theorem fresh_round_certificates_witness :
    sampleCore.isRunning = true ∧
      catchup sampleBackendAt4 sampleCore.current 4 sampleCore.retryPeriod
        (maxRetry - 1) 0 [] = Decision.proceed (some sampleBlock4) 2 true [] ∧
      sampleProposal2QC (some sampleBlock4) 0 = some sampleQC ∧
      ∃ c1 cur1, sampleCore.startNewRound sampleProposal2QC sampleBackendAt4 4
          = Outcome.ok c1 ∧
        c1.current = some cur1 ∧
        cur1.PrepareQC = some sampleQC ∧ cur1.PreCommittedQC = some sampleQC ∧
        cur1.CommittedQC = some sampleQC ∧ cur1.HighQC = none ∧
        ∀ l p, cur1.PreCommittedQC = some l → cur1.PrepareQC = some p →
          l.View.Cmp p.View ≤ 0 :=
  ⟨by decide, by decide, by decide,
    (fresh_round_certificates sampleProposal2QC sampleBackendAt4 sampleCore 4 sampleBlock4 2
      true [] sampleQC (by decide) (by decide) (by decide)).2⟩

/-- C10: when `startNewRound` is a view change (the label `catchup` is left with
`changeView` set) and the previous round state had `proposalLocked = true` with the proposal
P, the call installs a new round state: its view keeps the height and has the round of the
call, its state is `StateAcceptRequest` and its four message sets are empty; and this new
round state has the proposal P and `proposalLocked = true`, so that `LastLockedProposal`
gives P again. -/
theorem startNewRound_keeps_locked_proposal
    (proposal2QC : Option Proposal → Int → Option QuorumCert)
    (b : Backend) (c : core) (round : Int) (cur : roundState) (lastProposal : Option Proposal)
    (proposer : Address) (slept : List Effect) (P : Proposal)
    (hrun : c.isRunning = true) (hcur : c.current = some cur)
    (hcatch : catchup b c.current round c.retryPeriod (maxRetry - 1) 0 []
      = Decision.proceed lastProposal proposer true slept)
    (hlocked : cur.IsProposalLocked = true) (hP : cur.Proposal = some P) :
    ∃ c1 cur1, c.startNewRound proposal2QC b round = Outcome.ok c1 ∧
      c1.current = some cur1 ∧
      cur1.View = { Height := cur.Height, Round := round } ∧
      cur1.State = State.StateAcceptRequest ∧
      cur1.NewViewSize = 0 ∧ cur1.PrepareVoteSize = 0 ∧
      cur1.PreCommitVoteSize = 0 ∧ cur1.CommitVoteSize = 0 ∧
      cur1.Proposal = some P ∧ cur1.IsProposalLocked = true ∧
      cur1.LastLockedProposal = (true, some P) := by
  obtain ⟨cur0, last, _, hl, _⟩ := catchup_change_view b c.current round _ _ _ _ _ _ _ hcatch
  subst hl
  obtain ⟨c1, cur1, h1, h2, h3, _, h5, h6, _⟩ :=
    startNewRound_proceed proposal2QC b c round cur last proposer true slept hrun hcur hcatch
  obtain ⟨c2, cur2, f1, f2, _, f4, f5, f6, f7, f8, _⟩ :=
    startNewRound_fresh proposal2QC b c round last proposer true slept hrun hcatch
  rw [h1] at f1
  cases f1
  rw [h2] at f2
  cases f2
  simp only [roundState.IsProposalLocked, roundState.Proposal] at hlocked hP
  have hprop : cur1.proposal = some P := by simpa [hlocked, hP] using h5
  have hlock : cur1.proposalLocked = true := by simpa [hlocked, hP] using h6
  refine ⟨c1, cur1, h1, h2, ?_, f4, ?_, ?_, ?_, ?_, hprop, hlock, ?_⟩
  · simpa [roundState.Height] using h3
  · simp [roundState.NewViewSize, f5, NewMessageSet, MessageSet.Size]
  · simp [roundState.PrepareVoteSize, f6, NewMessageSet, MessageSet.Size]
  · simp [roundState.PreCommitVoteSize, f7, NewMessageSet, MessageSet.Size]
  · simp [roundState.CommitVoteSize, f8, NewMessageSet, MessageSet.Size]
  · simp [roundState.LastLockedProposal, hprop, hlock]

/-- C10, instance: the engine at height 5, round 3 with the block 51 locked, chain head at
height 4, round argument 4: the new round state is the one of the view (5, 4), not the
previous one of the view (5, 3). -/
theorem startNewRound_keeps_locked_proposal_witness :
    sampleCore.isRunning = true ∧ sampleCore.current = some sampleRoundLocked ∧
      catchup sampleBackendAt4 sampleCore.current 4 sampleCore.retryPeriod (maxRetry - 1) 0 []
        = Decision.proceed (some sampleBlock4) 2 true [] ∧
      sampleRoundLocked.IsProposalLocked = true ∧
      sampleRoundLocked.Proposal = some sampleBlock5 ∧
      sampleRoundLocked.View = { Height := 5, Round := 3 } ∧
      ∃ c1 cur1, sampleCore.startNewRound sampleProposal2QC sampleBackendAt4 4 = Outcome.ok c1 ∧
        c1.current = some cur1 ∧
        cur1.View = { Height := sampleRoundLocked.Height, Round := 4 } ∧
        cur1.State = State.StateAcceptRequest ∧
        cur1.NewViewSize = 0 ∧ cur1.PrepareVoteSize = 0 ∧
        cur1.PreCommitVoteSize = 0 ∧ cur1.CommitVoteSize = 0 ∧
        cur1.Proposal = some sampleBlock5 ∧ cur1.IsProposalLocked = true ∧
        cur1.LastLockedProposal = (true, some sampleBlock5) :=
  ⟨by decide, by decide, by decide, by decide, by decide, by decide,
    startNewRound_keeps_locked_proposal sampleProposal2QC sampleBackendAt4 sampleCore 4
      sampleRoundLocked (some sampleBlock4) 2 [] sampleBlock5 (by decide) (by decide)
      (by decide) (by decide) (by decide)⟩

end core

/-! ## The retry loop, the order of views and the lock flag -/

namespace core

open bft validator message_set

theorem catchup_retries (b : Backend) (cur : roundState) (retryPeriod : Int)
    (hlo : -2 ^ 63 < cur.height) (hhi : cur.height < 2 ^ 63) :
    ∀ (n reads : Nat) (slept : List Effect),
      (∀ i, reads ≤ i → i ≤ reads + n →
        ∃ last proposer, b.LastProposal i = (some last, proposer) ∧
          last.number = cur.height - 1) →
      catchup b (some cur) 0 retryPeriod n reads slept =
        Decision.reject (slept ++ List.replicate n (Effect.sleep retryPeriod)) := by
  intro n
  induction n with
  | zero =>
    intro reads slept h
    obtain ⟨last, proposer, hlast, hnum⟩ := h reads (Nat.le_refl _) (by omega)
    simp only [catchup, hlast, catchupPass, roundState.Height]
    rw [if_neg (by omega), height_minus_one cur.height hlo hhi, if_pos hnum, if_pos trivial]
    simp
  | succ n ih =>
    intro reads slept h
    obtain ⟨last, proposer, hlast, hnum⟩ := h reads (Nat.le_refl _) (by omega)
    simp only [catchup, hlast, catchupPass, roundState.Height]
    rw [if_neg (by omega), height_minus_one cur.height hlo hhi, if_pos hnum, if_pos trivial,
      ih (reads + 1) _ (fun i h1 h2 => h i (by omega) (by omega))]
    simp [List.replicate_succ]

theorem retryPeriod_of_fits (c : core)
    (hfit : ((c.config.RequestTimeout / 10 : Nat) : Int) * Millisecond < 2 ^ 63) :
    c.retryPeriod = ((c.config.RequestTimeout / 10 : Nat) : Int) * Millisecond := by
  unfold core.retryPeriod maxRetry
  have hnn : (0 : Int) ≤ ((c.config.RequestTimeout / 10 : Nat) : Int) := Int.ofNat_nonneg _
  have hms : (0 : Int) ≤ ((c.config.RequestTimeout / 10 : Nat) : Int) * Millisecond := by
    unfold Millisecond; positivity
  have hle : ((c.config.RequestTimeout / 10 : Nat) : Int)
      ≤ ((c.config.RequestTimeout / 10 : Nat) : Int) * Millisecond := by
    unfold Millisecond; omega
  rw [wrapInt64_of_fits ((c.config.RequestTimeout / 10 : Nat) : Int) (by omega) (by omega),
    wrapInt64_of_fits _ (by omega) (by omega)]

/-- C31 (as stated, refuted): with a `RequestTimeout` of `10 ^ 14` milliseconds the engine at
height 5 reads the last proposal, at height 4, ten times and returns with its round state
unchanged, but the nine waits in between last `-8446744073709551616` nanoseconds each, not
`RequestTimeout / 10` milliseconds: the product with `time.Millisecond` does not fit a
`time.Duration`. -/
theorem startNewRound_retry_wait_wraps :
    sampleCoreHugeTimeout.startNewRound sampleProposal2QC sampleBackendAt4 0 =
        Outcome.ok { sampleCoreHugeTimeout with
          trace := List.replicate 9 (Effect.sleep (-8446744073709551616)) } ∧
      (-8446744073709551616 : Int) ≠
        ((sampleCoreHugeTimeout.config.RequestTimeout / 10 : Nat) : Int) * Millisecond := by
  decide

/-- C31 (amended): on a running engine with a round state (its height in the `int64`
range), for round 0 and a backend whose first ten answers are a last proposal with
`Number == current.Height - 1`, `startNewRound` reads `LastProposal` ten times and no more,
sleeps nine times in between, each time for
`time.Duration(RequestTimeout/10) * time.Millisecond`, and returns leaving the round state
unchanged; each wait is `RequestTimeout / 10` milliseconds (the quotient rounded down) when
that duration is below `2 ^ 63` nanoseconds. -/
theorem startNewRound_retry_terminates
    (proposal2QC : Option Proposal → Int → Option QuorumCert) (b : Backend) (c : core)
    (cur : roundState)
    (hrun : c.isRunning = true) (hcur : c.current = some cur)
    (hlo : -2 ^ 63 < cur.Height) (hhi : cur.Height < 2 ^ 63)
    (hlast : ∀ i, i < 10 → ∃ last proposer, b.LastProposal i = (some last, proposer) ∧
      last.number = cur.Height - 1) :
    c.startNewRound proposal2QC b 0 = Outcome.ok
        { c with trace := c.trace ++ List.replicate 9 (Effect.sleep c.retryPeriod) } ∧
      (∀ other : Backend, (∀ i, i < 10 → other.LastProposal i = b.LastProposal i) →
        c.startNewRound proposal2QC other 0 = c.startNewRound proposal2QC b 0) ∧
      (((c.config.RequestTimeout / 10 : Nat) : Int) * Millisecond < 2 ^ 63 →
        c.retryPeriod = ((c.config.RequestTimeout / 10 : Nat) : Int) * Millisecond) := by
  have hmain : ∀ b1 : Backend,
      (∀ i, i < 10 → ∃ last proposer, b1.LastProposal i = (some last, proposer) ∧
        last.number = cur.Height - 1) →
      c.startNewRound proposal2QC b1 0 = Outcome.ok
        { c with trace := c.trace ++ List.replicate 9 (Effect.sleep c.retryPeriod) } := by
    intro b1 h1
    have hcatch := catchup_retries b1 cur c.retryPeriod hlo hhi 9 0 []
      (fun i _ h2 => h1 i (by omega))
    unfold core.startNewRound
    simp only [hrun, hcur, maxRetry, hcatch, Bool.true_eq_false, if_false, List.nil_append]
  refine ⟨hmain b hlast, fun other hsame => ?_, retryPeriod_of_fits c⟩
  rw [hmain b hlast, hmain other (fun i hi => by rw [hsame i hi]; exact hlast i hi)]

/-- C31 (amended), instance: the engine at height 5 with the default configuration, chain
head at height 4. -/
theorem startNewRound_retry_terminates_witness :
    sampleCore.isRunning = true ∧ sampleCore.current = some sampleRoundLocked ∧
      -2 ^ 63 < sampleRoundLocked.Height ∧ sampleRoundLocked.Height < 2 ^ 63 ∧
      sampleBackendAt4.LastProposal 0 = (some sampleBlock4, 2) ∧
      sampleBlock4.number = sampleRoundLocked.Height - 1 ∧
      sampleCore.startNewRound sampleProposal2QC sampleBackendAt4 0 = Outcome.ok
        { sampleCore with
          trace := sampleCore.trace ++ List.replicate 9 (Effect.sleep sampleCore.retryPeriod) } ∧
      sampleCore.retryPeriod = 600 * Millisecond :=
  ⟨by decide, by decide, by decide, by decide, by decide, by decide,
    (startNewRound_retry_terminates sampleProposal2QC sampleBackendAt4 sampleCore
      sampleRoundLocked (by decide) (by decide) (by decide) (by decide)
      (fun _ _ => ⟨sampleBlock4, 2, rfl, by decide⟩)).1,
    by decide⟩

end core

namespace core

open bft validator message_set

theorem catchupPass_outcome (cur : roundState) (round : Int) (lastProposal : Option Proposal)
    (lastProposer : Address) (slept : List Effect) (retry : Decision) :
    catchupPass (some cur) round lastProposal lastProposer slept retry = retry ∨
      (∃ slept1, catchupPass (some cur) round lastProposal lastProposer slept retry
        = Decision.reject slept1) ∨
      (∃ last proposer slept1,
        catchupPass (some cur) round lastProposal lastProposer slept retry
          = Decision.proceed (some last) proposer false slept1 ∧ cur.height ≤ last.number) ∨
      (∃ last proposer slept1,
        catchupPass (some cur) round lastProposal lastProposer slept retry
          = Decision.proceed (some last) proposer true slept1 ∧ cur.round ≤ round) := by
  unfold catchupPass
  cases lastProposal with
  | none => exact Or.inr (Or.inl ⟨slept, rfl⟩)
  | some last =>
    simp only [roundState.Height, roundState.Round]
    by_cases h1 : last.number ≥ cur.height
    · rw [if_pos h1]
      exact Or.inr (Or.inr (Or.inl ⟨last, lastProposer, slept, rfl, h1⟩))
    · rw [if_neg h1]
      by_cases h2 : last.number = wrapInt64 (bigInt64 cur.height - 1)
      · rw [if_pos h2]
        by_cases h3 : round = 0
        · rw [if_pos h3]
          exact Or.inl rfl
        · rw [if_neg h3]
          by_cases h4 : round < cur.round
          · rw [if_pos h4]
            exact Or.inr (Or.inl ⟨slept, rfl⟩)
          · rw [if_neg h4]
            exact Or.inr (Or.inr (Or.inr ⟨last, lastProposer, slept, rfl, by omega⟩))
      · rw [if_neg h2]
        exact Or.inr (Or.inl ⟨slept, rfl⟩)

/-- How the label `catchup` can be left when the engine has a round state: with a return, as
a catch-up to a last proposal at or above the current height, or as a view change to a round
that is not below the current one. -/
theorem catchup_outcome (b : Backend) (cur : roundState) (round retryPeriod : Int) :
    ∀ (n reads : Nat) (slept : List Effect),
      (∃ slept1, catchup b (some cur) round retryPeriod n reads slept
        = Decision.reject slept1) ∨
      (∃ last proposer slept1, catchup b (some cur) round retryPeriod n reads slept
        = Decision.proceed (some last) proposer false slept1 ∧ cur.height ≤ last.number) ∨
      (∃ last proposer slept1, catchup b (some cur) round retryPeriod n reads slept
        = Decision.proceed (some last) proposer true slept1 ∧ cur.round ≤ round) := by
  intro n
  induction n with
  | zero =>
    intro reads slept
    simp only [catchup]
    rcases catchupPass_outcome cur round (b.LastProposal reads).1 (b.LastProposal reads).2
      slept (Decision.reject slept) with h | h
    · exact Or.inl ⟨slept, h⟩
    · exact h
  | succ n ih =>
    intro reads slept
    simp only [catchup]
    rcases catchupPass_outcome cur round (b.LastProposal reads).1 (b.LastProposal reads).2
      slept (catchup b (some cur) round retryPeriod n (reads + 1)
        (slept ++ [Effect.sleep retryPeriod])) with h | h
    · rw [h]
      exact ih (reads + 1) _
    · exact h

theorem View_Cmp_le_of_height_lt (v y : View) (h : v.Height < y.Height) : v.Cmp y ≤ 0 := by
  simp [View.Cmp, h]

theorem View_Cmp_le_of_round_le (v y : View) (hh : v.Height = y.Height)
    (hr : v.Round ≤ y.Round) : v.Cmp y ≤ 0 := by
  unfold View.Cmp
  rw [hh, if_neg (lt_irrefl _), if_neg (lt_irrefl _)]
  split_ifs <;> omega

/-- C36: for every running engine with a round state, every backend and every round
argument, `startNewRound` returns with a round state whose view is, in the lexicographic
order of height and round, at or above the view before the call; so does
`handleTimeoutMsg`, which calls it with the current round plus one. -/
theorem startNewRound_view_not_backwards
    (proposal2QC : Option Proposal → Int → Option QuorumCert) (b : Backend) (c : core)
    (round : Int) (cur : roundState)
    (hrun : c.isRunning = true) (hcur : c.current = some cur) :
    (∃ c1 cur1, c.startNewRound proposal2QC b round = Outcome.ok c1 ∧
        c1.current = some cur1 ∧ cur.View.Cmp cur1.View ≤ 0) ∧
      (∃ c1 cur1, c.handleTimeoutMsg proposal2QC b = Outcome.ok c1 ∧
        c1.current = some cur1 ∧ cur.View.Cmp cur1.View ≤ 0) := by
  have hmain : ∀ r : Int, ∃ c1 cur1, c.startNewRound proposal2QC b r = Outcome.ok c1 ∧
      c1.current = some cur1 ∧ cur.View.Cmp cur1.View ≤ 0 := by
    intro r
    rcases catchup_outcome b cur r c.retryPeriod (maxRetry - 1) 0 [] with
      ⟨slept1, h⟩ | ⟨last, proposer, slept1, h, hnum⟩ | ⟨last, proposer, slept1, h, hround⟩
    · refine ⟨{ c with trace := c.trace ++ slept1 }, cur, ?_, hcur, ?_⟩
      · unfold core.startNewRound
        simp only [hrun, hcur, h, Bool.true_eq_false, if_false]
      · rw [View_Cmp_self]
    · rw [← hcur] at h
      obtain ⟨c1, cur1, h1, h2, h3, _⟩ :=
        startNewRound_proceed proposal2QC b c r cur last proposer false slept1 hrun hcur h
      refine ⟨c1, cur1, h1, h2, ?_⟩
      rw [h3]
      apply View_Cmp_le_of_height_lt
      simp only [roundState.View, Bool.false_eq_true, if_false]
      omega
    · rw [← hcur] at h
      obtain ⟨c1, cur1, h1, h2, h3, _⟩ :=
        startNewRound_proceed proposal2QC b c r cur last proposer true slept1 hrun hcur h
      refine ⟨c1, cur1, h1, h2, ?_⟩
      rw [h3]
      apply View_Cmp_le_of_round_le
      · simp [roundState.View]
      · simpa [roundState.View] using hround
  refine ⟨hmain round, ?_⟩
  unfold core.handleTimeoutMsg
  rw [hcur]
  exact hmain (cur.Round + 1)

/-- C36, instance: the engine at height 5, round 3, asked for round 4 while the chain head
is at height 4. -/
theorem startNewRound_view_not_backwards_witness :
    sampleCore.isRunning = true ∧ sampleCore.current = some sampleRoundLocked ∧
      ∃ c1 cur1, sampleCore.startNewRound sampleProposal2QC sampleBackendAt4 4
          = Outcome.ok c1 ∧
        c1.current = some cur1 ∧ sampleRoundLocked.View.Cmp cur1.View ≤ 0 :=
  ⟨by decide, by decide,
    (startNewRound_view_not_backwards sampleProposal2QC sampleBackendAt4 sampleCore 4
      sampleRoundLocked (by decide) (by decide)).1⟩

theorem call_keeps_lock_invariant (s : roundState) (call : LockCall)
    (h : s.proposalLocked = true → s.proposal ≠ none) :
    (s.call call).proposalLocked = true → (s.call call).proposal ≠ none := by
  cases call with
  | setProposal proposal =>
    intro _
    simp [roundState.call, roundState.SetProposal]
  | lockProposal =>
    simp only [roundState.call, roundState.LockProposal]
    split_ifs with hc
    · intro _; exact hc.1
    · exact h
  | unLockProposal =>
    simp only [roundState.call, roundState.UnLockProposal]
    split_ifs with hc
    · intro hl; simp at hl
    · exact h

theorem callAll_keeps_lock_invariant (calls : List LockCall) :
    ∀ s : roundState, (s.proposalLocked = true → s.proposal ≠ none) →
      (s.callAll calls).proposalLocked = true → (s.callAll calls).proposal ≠ none := by
  induction calls with
  | nil => intro s h; exact h
  | cons call rest ih =>
    intro s h
    exact ih (s.call call) (call_keeps_lock_invariant s call h)

/-- C39: `LockProposal` sets `proposalLocked` when a proposal is present and changes nothing
else, and is a no-op when there is none; `UnLockProposal` on a state whose flag is set and
whose proposal is present clears both, and is a no-op on a state whose flag is not set; and
every round state reached from a fresh one by calls of `SetProposal` with proposals that are
not nil, `LockProposal` and `UnLockProposal` has a proposal whenever its flag is set, so that
on such a state with the flag set `UnLockProposal` clears the flag and the proposal. -/
theorem lock_flag_consistent (view : View) (validatorSet : defaultSet)
    (prepareQC : Option QuorumCert) (calls : List LockCall) :
    (∀ s : roundState,
      (s.Proposal ≠ none → s.LockProposal = { s with proposalLocked := true }) ∧
      (s.Proposal = none → s.LockProposal = s) ∧
      (s.IsProposalLocked = true → s.Proposal ≠ none →
        s.UnLockProposal = { s with proposalLocked := false, proposal := none }) ∧
      (s.IsProposalLocked = false → s.UnLockProposal = s)) ∧
    (((newRoundState view validatorSet prepareQC).callAll calls).IsProposalLocked = true →
      ((newRoundState view validatorSet prepareQC).callAll calls).Proposal ≠ none) ∧
    (((newRoundState view validatorSet prepareQC).callAll calls).IsProposalLocked = true →
      ((newRoundState view validatorSet prepareQC).callAll calls).UnLockProposal.IsProposalLocked
          = false ∧
        ((newRoundState view validatorSet prepareQC).callAll calls).UnLockProposal.Proposal
          = none) := by
  have hinv := callAll_keeps_lock_invariant calls (newRoundState view validatorSet prepareQC)
    (by intro h; simp [newRoundState] at h)
  refine ⟨fun s => ⟨?_, ?_, ?_, ?_⟩, hinv, fun hl => ?_⟩
  · intro hp
    simp only [roundState.Proposal] at hp
    unfold roundState.LockProposal
    by_cases hf : s.proposalLocked = false
    · rw [if_pos ⟨hp, hf⟩]
    · rw [if_neg (fun h => hf h.2)]
      have ht : s.proposalLocked = true := by simpa using hf
      rw [← ht]
  · intro hp
    simp only [roundState.Proposal] at hp
    unfold roundState.LockProposal
    rw [if_neg (fun h => h.1 hp)]
  · intro hl hp
    simp only [roundState.Proposal, roundState.IsProposalLocked] at hl hp
    unfold roundState.UnLockProposal
    rw [if_pos ⟨hp, hl⟩]
  · intro hl
    simp only [roundState.IsProposalLocked] at hl
    unfold roundState.UnLockProposal
    rw [if_neg (fun h => by rw [hl] at h; exact Bool.false_ne_true h.2)]
  · have hp := hinv hl
    simp only [roundState.IsProposalLocked, roundState.Proposal] at hl hp ⊢
    unfold roundState.UnLockProposal
    rw [if_pos ⟨hp, hl⟩]
    exact ⟨rfl, rfl⟩

/-- C39, instance: a fresh round state after `LockProposal`, `SetProposal`, `LockProposal`,
`UnLockProposal`, `LockProposal`, `SetProposal`, `LockProposal`. -/
theorem lock_flag_consistent_witness :
    ((newRoundState ⟨0, 5⟩ sampleSet4 none).callAll
        [LockCall.lockProposal, LockCall.setProposal sampleBlock5, LockCall.lockProposal,
          LockCall.unLockProposal, LockCall.lockProposal, LockCall.setProposal sampleBlock4,
          LockCall.lockProposal]).IsProposalLocked = true ∧
      ((newRoundState ⟨0, 5⟩ sampleSet4 none).callAll
        [LockCall.lockProposal, LockCall.setProposal sampleBlock5, LockCall.lockProposal,
          LockCall.unLockProposal, LockCall.lockProposal, LockCall.setProposal sampleBlock4,
          LockCall.lockProposal]).Proposal ≠ none :=
  ⟨by decide,
    (lock_flag_consistent ⟨0, 5⟩ sampleSet4 none
      [LockCall.lockProposal, LockCall.setProposal sampleBlock5, LockCall.lockProposal,
        LockCall.unLockProposal, LockCall.lockProposal, LockCall.setProposal sampleBlock4,
        LockCall.lockProposal]).2.1 (by decide)⟩

end core

/-! ## Theorems on filling and filtering the extra-data of a header -/

namespace types

open bft

/-- C32: for every header and every address list `vals` (the encoding of the fields below
`2 ^ 64` bytes, as every byte slice is), `BftHeaderFillWithValidators(header, vals)` returns
nil; afterwards the first 32 bytes of `header.Extra` are the first 32 bytes of the previous
extra-data, padded on the right with zero bytes to the length 32, the other fields of the
header are as before, and `ExtractBftExtra(header)` succeeds with `Validators` equal to
`vals` and `Seal`, `CommittedSeal` and `Salt` empty. -/
theorem BftHeaderFillWithValidators_extract (header : Header) (vals : List Address)
    (hsize : (BftExtra.EncodeRLP
      { Validators := vals, Seal := [], CommittedSeal := [], Salt := [] }).length < 2 ^ 64) :
    (BftHeaderFillWithValidators header vals).2 = none ∧
      (BftHeaderFillWithValidators header vals).1.Extra.take 32
        = header.Extra.take 32 ++ List.replicate (32 - header.Extra.length) 0 ∧
      (BftHeaderFillWithValidators header vals).1.Number = header.Number ∧
      ExtractBftExtra (BftHeaderFillWithValidators header vals).1
        = Except.ok { Validators := vals, Seal := [], CommittedSeal := [], Salt := [] } := by
  have hvan : (header.Extra.take 32 ++ List.replicate (32 - header.Extra.length) 0).length
      = 32 := by
    simp only [List.length_append, List.length_take, List.length_replicate]
    omega
  have hextra : (BftHeaderFillWithValidators header vals).1.Extra
      = (header.Extra.take 32 ++ List.replicate (32 - header.Extra.length) 0)
        ++ BftExtra.EncodeRLP
          { Validators := vals, Seal := [], CommittedSeal := [], Salt := [] } := by
    simp only [BftHeaderFillWithValidators, EncodeToBytes, BftExtraVanity]
    by_cases hlt : header.Extra.length < 32
    · rw [if_pos hlt]
      simp only
      rw [List.take_of_length_le (by
          simp only [List.length_append, List.length_replicate]; omega),
        List.take_of_length_le (by omega : header.Extra.length ≤ 32)]
    · rw [if_neg hlt]
      have h0 : 32 - header.Extra.length = 0 := by omega
      rw [h0, List.replicate_zero, List.append_nil]
  refine ⟨rfl, ?_, ?_, ?_⟩
  · rw [hextra, List.take_append_of_le_length (by omega), List.take_of_length_le (by omega)]
  · simp only [BftHeaderFillWithValidators, EncodeToBytes]
    split_ifs <;> rfl
  · unfold ExtractBftExtra
    rw [hextra]
    exact ExtractBftExtraPayload_encoded _ _ hvan hsize

/-- C32, instance: a header with three bytes of extra-data and the validators 1, 2, 3. -/
theorem BftHeaderFillWithValidators_extract_witness :
    (BftExtra.EncodeRLP
        { Validators := [1, 2, 3], Seal := [], CommittedSeal := [], Salt := [] }).length
        < 2 ^ 64 ∧
      (BftHeaderFillWithValidators sampleHeaderShort [1, 2, 3]).1.Extra.take 32
        = [1, 2, 3] ++ List.replicate 29 0 ∧
      ExtractBftExtra (BftHeaderFillWithValidators sampleHeaderShort [1, 2, 3]).1
        = Except.ok { Validators := [1, 2, 3], Seal := [], CommittedSeal := [], Salt := [] } :=
  ⟨by decide,
    (BftHeaderFillWithValidators_extract sampleHeaderShort [1, 2, 3] (by decide)).2.1,
    (BftHeaderFillWithValidators_extract sampleHeaderShort [1, 2, 3] (by decide)).2.2.2⟩

/-- The value `BftFilteredHeader` computes: for every header value h and flag `keepSeal` it
is nil when the extra-data of h cannot be decoded; otherwise, with the fields x decoded from
it (their filtered encoding below `2 ^ 64` bytes, as every byte slice is), it is a header
with the other fields of h, whose extra-data starts with the same 32 vanity bytes and
decodes to the `Validators` and `Salt` of x, an empty `CommittedSeal`, and the `Seal` of x
when `keepSeal` is true and an empty one when it is false. -/
theorem BftFilteredHeader_fields (h : Header) (keepSeal : Bool) :
    (∀ err, ExtractBftExtra h = Except.error err → BftFilteredHeader h keepSeal = none) ∧
      (∀ x : BftExtra, ExtractBftExtra h = Except.ok x →
        (BftExtra.EncodeRLP
          { Validators := x.Validators, Seal := if keepSeal = true then x.Seal else [],
            CommittedSeal := [], Salt := x.Salt }).length < 2 ^ 64 →
        ∃ newHeader, BftFilteredHeader h keepSeal = some newHeader ∧
          newHeader.Number = h.Number ∧
          newHeader.Extra.take 32 = h.Extra.take 32 ∧
          ExtractBftExtra newHeader = Except.ok
            { Validators := x.Validators, Seal := if keepSeal = true then x.Seal else [],
              CommittedSeal := [], Salt := x.Salt }) := by
  constructor
  · intro err herr
    simp only [BftFilteredHeader, CopyHeader]
    have : ExtractBftExtra { Number := h.Number, Extra := h.Extra } = Except.error err := herr
    rw [this]
  · intro x hx hsize
    have hlen : 32 ≤ h.Extra.length := by
      by_contra hshort
      have hs := ExtractBftExtraPayload_short h.Extra (by omega)
      unfold ExtractBftExtra at hx
      rw [hs] at hx
      cases hx
    have hvan : (h.Extra.take 32).length = 32 := by
      rw [List.length_take]; omega
    have hcopy : ExtractBftExtra { Number := h.Number, Extra := h.Extra } = Except.ok x := hx
    refine ⟨{ Number := h.Number,
              Extra := h.Extra.take 32 ++ BftExtra.EncodeRLP
                { Validators := x.Validators, Seal := if keepSeal = true then x.Seal else [],
                  CommittedSeal := [], Salt := x.Salt } }, ?_, rfl, ?_, ?_⟩
    · simp only [BftFilteredHeader, CopyHeader, hcopy, EncodeToBytes, BftExtraVanity]
      cases keepSeal <;> simp
    · simp only
      rw [List.take_append_of_le_length (by omega), List.take_of_length_le (by omega)]
    · unfold ExtractBftExtra
      exact ExtractBftExtraPayload_encoded _ _ hvan hsize

/-- An instance on values: the sample parent header, whose extra-data holds a seal and two
committed seals, filtered without keeping the seal. -/
theorem BftFilteredHeader_fields_witness :
    ExtractBftExtra sampleParent = Except.ok sampleExtra ∧
      ∃ newHeader, BftFilteredHeader sampleParent false = some newHeader ∧
        newHeader.Number = sampleParent.Number ∧
        newHeader.Extra.take 32 = sampleParent.Extra.take 32 ∧
        ExtractBftExtra newHeader = Except.ok
          { Validators := sampleExtra.Validators,
            Seal := if false = true then sampleExtra.Seal else [],
            CommittedSeal := [], Salt := sampleExtra.Salt } :=
  ⟨sampleParent_extra,
    (BftFilteredHeader_fields sampleParent false).2 sampleExtra sampleParent_extra
      (by decide)⟩

end types

/-! ## `BftFilteredHeader` works on a copy of the header -/

namespace types

open bft

theorem Memory.append_fst_headers (m : Memory) (s : ByteSlice) (elems : List Nat) :
    (m.append s elems).1.headers = m.headers := by
  unfold Memory.append
  simp only
  split_ifs <;> rfl

theorem Memory.append_fst_arrays_of_lt (m : Memory) (s : ByteSlice) (elems : List Nat)
    (a : Nat) (ha : a ≠ s.array) (bs : List Nat) (hbs : m.arrays[a]? = some bs) :
    (m.append s elems).1.arrays[a]? = some bs := by
  unfold Memory.append
  simp only
  split_ifs
  · simp only
    rw [List.getElem?_set_ne (Ne.symm ha)]
    exact hbs
  · simp only
    have hlt : a < m.arrays.length := by
      rcases List.getElem?_eq_some_iff.mp hbs with ⟨h, _⟩
      exact h
    rw [List.getElem?_append_left hlt]
    exact hbs

theorem Memory.bytes_append (m : Memory) (s : ByteSlice) (elems : List Nat)
    (hs : s.array < m.arrays.length) (array : List Nat) (harray : m.arrays[s.array]? = some array)
    (hlen : s.len ≤ array.length) :
    (m.append s elems).1.bytes (m.append s elems).2 = array.take s.len ++ elems := by
  unfold Memory.append Memory.bytes
  simp only [harray, Option.getD_some]
  split_ifs with hroom
  · simp only
    rw [List.getElem?_set_self hs, Option.getD_some,
      List.take_append_of_le_length (by
        rw [List.length_append, List.length_take]; omega),
      List.take_of_length_le (by rw [List.length_append, List.length_take]; omega)]
  · simp only
    rw [List.getElem?_concat_length, Option.getD_some,
      List.take_of_length_le (by rw [List.length_append, List.length_take]; omega)]

end types

namespace types

open bft

/-- The call of `BftFilteredHeader` on the memory returns, every header struct and every
byte array that was in the memory before the call is as before, and the header behind the
returned pointer is the value `BftFilteredHeader` computes from the value of h. -/
theorem Memory.BftFilteredHeader_eq (m : Memory) (h : Nat) (keepSeal : Bool)
    (obj : HeaderObject) (array : List Nat)
    (hobj : m.headers[h]? = some obj)
    (harray : m.arrays[obj.Extra.array]? = some array)
    (hlen : obj.Extra.len ≤ array.length) :
    ∃ m1 result,
      m.BftFilteredHeader h keepSeal = Outcome.ok (m1, result) ∧
      (∀ (p : Nat) (o : HeaderObject), m.headers[p]? = some o → m1.headers[p]? = some o) ∧
      (∀ (a : Nat) (bs : List Nat), m.arrays[a]? = some bs → m1.arrays[a]? = some bs) ∧
      (∀ p, result = some p → m.headers.length ≤ p ∧ (m1.header p).isSome = true) ∧
      result.bind m1.header
        = types.BftFilteredHeader
            { Number := obj.Number, Extra := array.take obj.Extra.len } keepSeal := by
  have hbytes : m.bytes obj.Extra = array.take obj.Extra.len := by
    simp only [Memory.bytes, harray, Option.getD_some]
  have hblen : (array.take obj.Extra.len).length = obj.Extra.len := by
    rw [List.length_take]; omega
  have hframeH : ∀ (tail : List HeaderObject) (p : Nat) (o : HeaderObject),
      m.headers[p]? = some o → (m.headers ++ tail)[p]? = some o := by
    intro tail p o hp
    rw [List.getElem?_append_left (List.getElem?_eq_some_iff.mp hp).1]
    exact hp
  have hframeA : ∀ (tail : List (List Nat)) (a : Nat) (bs : List Nat),
      m.arrays[a]? = some bs → (m.arrays ++ tail)[a]? = some bs := by
    intro tail a bs ha
    rw [List.getElem?_append_left (List.getElem?_eq_some_iff.mp ha).1]
    exact ha
  by_cases hpos : 0 < obj.Extra.len
  · obtain ⟨mc, hmc⟩ : ∃ mc : Memory, mc =
        { arrays := m.arrays ++ [array.take obj.Extra.len]
          headers := m.headers ++
            [{ Number := obj.Number
               Extra := { array := m.arrays.length, len := obj.Extra.len } }] } := ⟨_, rfl⟩
    have hmcA : mc.arrays = m.arrays ++ [array.take obj.Extra.len] := by rw [hmc]
    have hmcH : mc.headers = m.headers ++
        [{ Number := obj.Number
           Extra := { array := m.arrays.length, len := obj.Extra.len } }] := by rw [hmc]
    have hcopy : m.CopyHeader h = Outcome.ok (mc, m.headers.length) := by
      simp only [Memory.CopyHeader, hobj, if_pos hpos, hbytes, hmc]
    have hnew : mc.headers[m.headers.length]? = some
        { Number := obj.Number
          Extra := { array := m.arrays.length, len := obj.Extra.len } } := by
      rw [hmcH, List.getElem?_concat_length]
    have hnewA : mc.arrays[m.arrays.length]? = some (array.take obj.Extra.len) := by
      rw [hmcA, List.getElem?_concat_length]
    have hb1 : mc.bytes { array := m.arrays.length, len := obj.Extra.len }
        = array.take obj.Extra.len := by
      simp only [Memory.bytes, hnewA, Option.getD_some]
      rw [List.take_of_length_le (by omega)]
    cases hext : ExtractBftExtraPayload (array.take obj.Extra.len) with
    | error e =>
      refine ⟨mc, none, ?_, ?_, ?_, ?_, ?_⟩
      · unfold Memory.BftFilteredHeader
        rw [hcopy]
        simp only [hnew, hb1, hext]
      · intro p o hp
        rw [hmcH]
        exact hframeH _ p o hp
      · intro a bs ha
        rw [hmcA]
        exact hframeA _ a bs ha
      · intro p hp
        cases hp
      · simp only [Option.bind, types.BftFilteredHeader, types.CopyHeader, ExtractBftExtra, hext]
    | ok extra =>
      have h32 : 32 ≤ (array.take obj.Extra.len).length := by
        by_contra hshort
        rw [ExtractBftExtraPayload_short _ (by omega)] at hext
        cases hext
      obtain ⟨payload, hpayload⟩ : ∃ payload : List Nat, payload = BftExtra.EncodeRLP
          { (if keepSeal = false then { extra with Seal := [] } else extra) with
            CommittedSeal := [] } := ⟨_, rfl⟩
      have hmcAlen : m.arrays.length < mc.arrays.length := by
        rw [hmcA, List.length_append, List.length_singleton]; omega
      have happ := Memory.bytes_append mc { array := m.arrays.length, len := 32 } payload
        hmcAlen (array.take obj.Extra.len) hnewA h32
      refine ⟨{ (mc.append { array := m.arrays.length, len := 32 } payload).1 with
                headers := (mc.append { array := m.arrays.length, len := 32 } payload).1.headers.set
                  m.headers.length
                  { Number := obj.Number
                    Extra := (mc.append { array := m.arrays.length, len := 32 } payload).2 } },
              some m.headers.length, ?_, ?_, ?_, ?_, ?_⟩
      · unfold Memory.BftFilteredHeader
        rw [hcopy]
        simp only [hnew, hb1, hext, EncodeToBytes, BftExtraVanity, ← hpayload]
      · intro p o hp
        simp only
        have hp1 := (List.getElem?_eq_some_iff.mp hp).1
        rw [List.getElem?_set_ne (by omega), Memory.append_fst_headers, hmcH]
        exact hframeH _ p o hp
      · intro a bs ha
        simp only
        have ha1 := (List.getElem?_eq_some_iff.mp ha).1
        apply Memory.append_fst_arrays_of_lt
        · simp only; omega
        · rw [hmcA]
          exact hframeA _ a bs ha
      · intro p hp
        cases hp
        refine ⟨le_refl _, ?_⟩
        simp only [Memory.header]
        rw [List.getElem?_set_self (by
          rw [Memory.append_fst_headers, hmcH, List.length_append, List.length_singleton]
          omega)]
        rfl
      · simp only [Option.bind, Memory.header]
        rw [List.getElem?_set_self (by
          rw [Memory.append_fst_headers, hmcH, List.length_append, List.length_singleton]
          omega)]
        simp only [Option.map_some', types.BftFilteredHeader, types.CopyHeader, ExtractBftExtra, hext,
          EncodeToBytes, BftExtraVanity, ← hpayload]
        have hbytes2 : Memory.bytes
            { arrays := (mc.append { array := m.arrays.length, len := 32 } payload).1.arrays
              headers := (mc.append { array := m.arrays.length, len := 32 } payload).1.headers.set
                m.headers.length
                { Number := obj.Number
                  Extra := (mc.append { array := m.arrays.length, len := 32 } payload).2 } }
            (mc.append { array := m.arrays.length, len := 32 } payload).2
            = (mc.append { array := m.arrays.length, len := 32 } payload).1.bytes
              (mc.append { array := m.arrays.length, len := 32 } payload).2 := rfl
        rw [hbytes2, happ]
  · have hzero : obj.Extra.len = 0 := by omega
    have hcopy : m.CopyHeader h
        = Outcome.ok ({ m with headers := m.headers ++ [obj] }, m.headers.length) := by
      simp only [Memory.CopyHeader, hobj, if_neg hpos]
    have hext : ExtractBftExtraPayload (array.take obj.Extra.len)
        = Except.error Error.ErrInvalidBftHeaderExtra :=
      ExtractBftExtraPayload_short _ (by rw [hblen, hzero]; decide)
    refine ⟨{ m with headers := m.headers ++ [obj] }, none, ?_, ?_, ?_, ?_, ?_⟩
    · unfold Memory.BftFilteredHeader
      rw [hcopy]
      have hb1 : Memory.bytes { m with headers := m.headers ++ [obj] } obj.Extra
          = array.take obj.Extra.len := hbytes
      simp only [List.getElem?_concat_length, hb1, hext]
    · intro p o hp
      exact hframeH _ p o hp
    · intro a bs ha
      exact ha
    · intro p hp
      cases hp
    · simp only [Option.bind, types.BftFilteredHeader, types.CopyHeader, ExtractBftExtra, hext]

/-- C33: for every header h in memory (its extra-data a slice within its array) and flag
`keepSeal`, the call `BftFilteredHeader(h, keepSeal)` returns, and the header h itself is not
modified: its struct and the bytes of its array are as before, like every header and every
byte array that was in the memory before the call. The call returns nil when the extra-data
of h cannot be decoded; otherwise, with the fields x decoded from it (their filtered encoding
below `2 ^ 64` bytes, as every byte slice is), it returns a pointer to another header, with
the number of h, whose extra-data starts with the same 32 vanity bytes and decodes to the
`Validators` and `Salt` of x, an empty `CommittedSeal`, and the `Seal` of x when `keepSeal`
is true and an empty one when it is false. -/
theorem BftFilteredHeader_keeps_input (m : Memory) (h : Nat) (keepSeal : Bool)
    (obj : HeaderObject) (array : List Nat) (before : Header)
    (hobj : m.headers[h]? = some obj)
    (harray : m.arrays[obj.Extra.array]? = some array)
    (hlen : obj.Extra.len ≤ array.length)
    (hbefore : m.header h = some before) :
    ∃ m1 result,
      m.BftFilteredHeader h keepSeal = Outcome.ok (m1, result) ∧
      m1.headers[h]? = some obj ∧ m1.arrays[obj.Extra.array]? = some array ∧
      m1.header h = some before ∧
      (∀ (p : Nat) (o : HeaderObject), m.headers[p]? = some o → m1.headers[p]? = some o) ∧
      (∀ (a : Nat) (bs : List Nat), m.arrays[a]? = some bs → m1.arrays[a]? = some bs) ∧
      (∀ err, ExtractBftExtra before = Except.error err → result = none) ∧
      (∀ x : BftExtra, ExtractBftExtra before = Except.ok x →
        (BftExtra.EncodeRLP
          { Validators := x.Validators, Seal := if keepSeal = true then x.Seal else [],
            CommittedSeal := [], Salt := x.Salt }).length < 2 ^ 64 →
        ∃ p newHeader, result = some p ∧ p ≠ h ∧ m1.header p = some newHeader ∧
          newHeader.Number = before.Number ∧
          newHeader.Extra.take 32 = before.Extra.take 32 ∧
          ExtractBftExtra newHeader = Except.ok
            { Validators := x.Validators, Seal := if keepSeal = true then x.Seal else [],
              CommittedSeal := [], Salt := x.Salt }) := by
  have hvalue : before = { Number := obj.Number, Extra := array.take obj.Extra.len } := by
    simp only [Memory.header, hobj, Option.map_some', Memory.bytes, harray, Option.getD_some,
      Option.some.injEq] at hbefore
    exact hbefore.symm
  obtain ⟨m1, result, hrun, hH, hA, hnew, hres⟩ :=
    Memory.BftFilteredHeader_eq m h keepSeal obj array hobj harray hlen
  rw [← hvalue] at hres
  have hlt : h < m.headers.length := (List.getElem?_eq_some_iff.mp hobj).1
  refine ⟨m1, result, hrun, hH h obj hobj, hA _ array harray, ?_, hH, hA, ?_, ?_⟩
  · simp only [Memory.header, hH h obj hobj, Option.map_some', Memory.bytes,
      hA _ array harray, Option.getD_some, hvalue]
  · intro err herr
    have hnone := (BftFilteredHeader_fields before keepSeal).1 err herr
    rw [hnone] at hres
    cases hr : result with
    | none => rfl
    | some p =>
      have hsome := (hnew p hr).2
      rw [hr] at hres
      have hres1 : m1.header p = none := hres
      rw [hres1] at hsome
      cases hsome
  · intro x hx hsize
    obtain ⟨newHeader, hfiltered, hnumber, hvanity, hextract⟩ :=
      (BftFilteredHeader_fields before keepSeal).2 x hx hsize
    rw [hfiltered] at hres
    obtain ⟨p, hp, hheader⟩ := Option.bind_eq_some.mp hres
    have hge := (hnew p hp).1
    exact ⟨p, newHeader, hp, by omega, hheader, hnumber, hvanity, hextract⟩

set_option maxRecDepth 8000 in
/-- C33, instance: the sample parent header, whose extra-data holds a seal and two committed
seals, filtered in memory without keeping the seal: the header behind the pointer 0 is the
sample parent header before and after the call. -/
theorem BftFilteredHeader_keeps_input_witness :
    sampleHeaderMemory.header 0 = some sampleParent ∧
      ExtractBftExtra sampleParent = Except.ok sampleExtra ∧
      ∃ m1 p newHeader,
        sampleHeaderMemory.BftFilteredHeader 0 false = Outcome.ok (m1, some p) ∧
          m1.header 0 = some sampleParent ∧ p ≠ 0 ∧ m1.header p = some newHeader ∧
          newHeader.Extra.take 32 = sampleParent.Extra.take 32 ∧
          ExtractBftExtra newHeader = Except.ok
            { Validators := sampleExtra.Validators,
              Seal := if false = true then sampleExtra.Seal else [],
              CommittedSeal := [], Salt := sampleExtra.Salt } := by
  obtain ⟨m1, result, hrun, _, _, hsame, _, _, _, hok⟩ :=
    BftFilteredHeader_keeps_input sampleHeaderMemory 0 false
      { Number := 99, Extra := { array := 0, len := sampleParent.Extra.length } }
      sampleParent.Extra sampleParent rfl rfl (le_refl _) (by decide)
  obtain ⟨p, newHeader, hp, hne, hheader, _, hvanity, hextract⟩ :=
    hok sampleExtra sampleParent_extra (by decide)
  rw [hp] at hrun
  exact ⟨by decide, sampleParent_extra, m1, p, newHeader, hrun, hsame, hne, hheader, hvanity,
    hextract⟩

set_option maxRecDepth 8000 in
/-- The append of `BftFilteredHeader` writes in place: filtering the sample parent header
leaves two byte arrays in the memory, the one of the parent as before and the one of the
copy, whose bytes behind the vanity are overwritten with the payload. -/
theorem BftFilteredHeader_writes_copy :
    sampleHeaderMemory.BftFilteredHeader 0 false = Outcome.ok
      ({ arrays :=
           [sampleParent.Extra,
            sampleParent.Extra.take 32
              ++ BftExtra.EncodeRLP { sampleExtra with Seal := [], CommittedSeal := [] }
              ++ sampleParent.Extra.drop
                (32 + (BftExtra.EncodeRLP
                  { sampleExtra with Seal := [], CommittedSeal := [] }).length)]
         headers :=
           [{ Number := 99, Extra := { array := 0, len := sampleParent.Extra.length } },
            { Number := 99
              Extra :=
                { array := 1
                  len := 32 + (BftExtra.EncodeRLP
                    { sampleExtra with Seal := [], CommittedSeal := [] }).length } }] },
        some 1) ∧
      (BftExtra.EncodeRLP { sampleExtra with Seal := [], CommittedSeal := [] }).length
        < sampleExtra.EncodeRLP.length := by
  decide

end types

/-! ## Quorum soundness and quorum intersection -/

namespace validator

open bft

/-- C34, failing input: on the seven validators 1 to 7, whose `Q()` is 5, the four committers
1, 2, 3, 4 pass `CheckQuorum`: the threshold is taken from the working copy, which holds
three validators when the loop ends, so the test is 4 > 2. -/
theorem CheckQuorum_accepts_below_Q :
    sampleSet7.AddressList = [1, 2, 3, 4, 5, 6, 7] ∧ sampleSet7.Q = 5 ∧
      sampleSet7.CheckQuorum sampleStr [1, 2, 3, 4] = none ∧
      ([1, 2, 3, 4] : List Address).length < sampleSet7.Q ∧
      ((((sampleSet7.RemoveValidator 1).1.RemoveValidator 2).1.RemoveValidator 3).1.RemoveValidator
        4).1.Q = 2 := by
  decide

/-- C35: for every validator set of size n >= 1 (below `2 ^ 52`, as every slice is),
`2 * Q() - n >= F() + 1`: two groups of `Q()` validators of the set have at least `F() + 1`
members in common. -/
theorem quorum_intersection (valSet : defaultSet) (hn : 1 ≤ valSet.Size)
    (hsize : valSet.Size < 2 ^ 52) :
    2 * (valSet.Q : Int) - (valSet.Size : Int) ≥ valSet.F + 1 ∧
      (∀ (first second : List Address), first.Nodup → second.Nodup →
        (∀ a ∈ first, a ∈ valSet.validators) → (∀ a ∈ second, a ∈ valSet.validators) →
        valSet.validators.Nodup →
        valSet.Q ≤ first.length → valSet.Q ≤ second.length →
        valSet.F + 1 ≤ ((first.filter (fun a => decide (a ∈ second))).length : Int)) := by
  have hQ : valSet.Q = (2 * valSet.Size + 2) / 3 := by
    unfold defaultSet.Q
    exact ceilDiv3Float64_eq _ (by omega)
  have hF : valSet.F = (((valSet.Size + 2) / 3 : Nat) : Int) - 1 := by
    unfold defaultSet.F
    rw [ceilDiv3Float64_eq _ (by omega)]
  have hnum : 2 * (valSet.Q : Int) - (valSet.Size : Int) ≥ valSet.F + 1 := by
    rw [hQ, hF]
    omega
  refine ⟨hnum, ?_⟩
  intro first second hf hs hfm hsm hv hqf hqs
  have hunion : ((first.filter (fun a => !decide (a ∈ second))) ++ second).length
      ≤ valSet.validators.length := by
    apply (List.subperm_of_subset ?_ ?_).length_le
    · rw [List.nodup_append]
      refine ⟨hf.filter _, hs, ?_⟩
      intro a ha hb
      have := (List.mem_filter.mp ha).2
      simp [hb] at this
    · intro a ha
      rcases List.mem_append.mp ha with h | h
      · exact hfm a (List.mem_filter.mp h).1
      · exact hsm a h
  have hsplit : (first.filter (fun a => decide (a ∈ second))).length
      + (first.filter (fun a => !decide (a ∈ second))).length = first.length := by
    have := List.length_eq_length_filter_add (l := first) (fun a => decide (a ∈ second))
    omega
  simp only [List.length_append] at hunion
  simp only [defaultSet.Size] at hnum hQ hF
  have h1 : (valSet.Q : Int) ≤ first.length := by exact_mod_cast hqf
  have h2 : (valSet.Q : Int) ≤ second.length := by exact_mod_cast hqs
  have h3 : ((first.filter (fun a => !decide (a ∈ second))).length : Int)
      + (second.length : Int) ≤ (valSet.validators.length : Int) := by exact_mod_cast hunion
  have h4 : ((first.filter (fun a => decide (a ∈ second))).length : Int)
      + ((first.filter (fun a => !decide (a ∈ second))).length : Int)
      = (first.length : Int) := by exact_mod_cast hsplit
  omega

/-- C35, instance: the four validators 1, 2, 3, 4, where `Q()` is 3 and `F()` is 1. -/
theorem quorum_intersection_witness :
    1 ≤ sampleSet4.Size ∧ sampleSet4.Size < 2 ^ 52 ∧
      2 * (sampleSet4.Q : Int) - (sampleSet4.Size : Int) ≥ sampleSet4.F + 1 :=
  ⟨by decide, by decide, (quorum_intersection sampleSet4 (by decide) (by decide)).1⟩

end validator

/-! ## The epoch chain of an engine-built store -/

namespace backend

open bft validator

theorem Linked_mapSet (s : backend) (H top : Nat) (epoch : Epoch) :
    ∀ (chain : List Epoch) (k : Nat), Linked s k chain → k < H →
      Linked { epochs := mapSet s.epochs H epoch, maxEpochStartHeight := top } k chain := by
  intro chain
  induction chain with
  | nil => intro k h _; exact absurd h (by simp [Linked])
  | cons e rest ih =>
    intro k h hk
    cases rest with
    | nil =>
      obtain ⟨h1, h2, h3⟩ := h
      refine ⟨?_, h2, h3⟩
      simp only
      rw [lookup_mapSet_ne _ _ _ _ (by omega), h1]
    | cons next rest =>
      obtain ⟨h1, h2, h3, h4⟩ := h
      refine ⟨?_, h2, h3, ih _ h4 (by omega)⟩
      simp only
      rw [lookup_mapSet_ne _ _ _ _ (by omega), h1]

theorem Linked_props (s : backend) :
    ∀ (chain : List Epoch) (k : Nat), Linked s k chain → ∀ e ∈ chain,
      0 < e.StartHeight → e.LastEpochStartHeight < e.StartHeight ∧
        (s.epochs.lookup e.LastEpochStartHeight).isSome = true := by
  intro chain
  induction chain with
  | nil => intro k h; exact absurd h (by simp [Linked])
  | cons e rest ih =>
    intro k h e1 he1 hpos
    cases rest with
    | nil =>
      rw [List.mem_singleton] at he1
      obtain ⟨_, h2, h3⟩ := h
      rw [he1, h2, h3] at hpos
      exact absurd hpos (lt_irrefl 0)
    | cons next rest =>
      obtain ⟨h1, h2, h3, h4⟩ := h
      rcases List.mem_cons.mp he1 with heq | hmem
      · rw [heq, h2]
        refine ⟨h3, ?_⟩
        rw [(Linked_head s _ next rest h4).1]
        rfl
      · exact ih _ h4 e1 hmem hpos

theorem Linked_lookup (s : backend) :
    ∀ (chain : List Epoch) (k : Nat), Linked s k chain → ∀ e ∈ chain,
      s.epochs.lookup e.StartHeight = some e := by
  intro chain
  induction chain with
  | nil => intro k h; exact absurd h (by simp [Linked])
  | cons e rest ih =>
    intro k h e1 he1
    obtain ⟨h1, h2⟩ := Linked_head s k e rest h
    rcases List.mem_cons.mp he1 with heq | hmem
    · rw [heq, h2, h1]
    · cases rest with
      | nil => exact absurd hmem (List.not_mem_nil _)
      | cons next rest => exact ih _ h.2.2.2 e1 hmem

/-- The invariant of the stores the engine builds: the epochs form a chain from
`maxEpochStartHeight` back to height 0, and every record of the map is an epoch of the
chain, kept under its start height. -/
theorem UpdateEpoch_keeps_chain {DB E : Type} (env : Storage DB E) (str : Address → GoString)
    (s : backend) (db : DB) (parent header : types.Header)
    (h : ∃ chain, Linked s s.maxEpochStartHeight chain ∧
      ∀ k e, s.epochs.lookup k = some e → e ∈ chain ∧ e.StartHeight = k) :
    ∃ chain, Linked (s.UpdateEpoch env str db parent header).1
        (s.UpdateEpoch env str db parent header).1.maxEpochStartHeight chain ∧
      ∀ k e, (s.UpdateEpoch env str db parent header).1.epochs.lookup k = some e →
        e ∈ chain ∧ e.StartHeight = k := by
  obtain ⟨chain, hlinked, hall⟩ := h
  rcases UpdateEpoch_cases env str s db parent header with hsame | ⟨ext, _, _, hlt, hfresh, hsaved⟩
  · rw [hsame]
    exact ⟨chain, hlinked, hall⟩
  · rw [hsaved]
    cases chain with
    | nil => exact absurd hlinked (by simp [Linked])
    | cons e0 rest =>
      refine ⟨⟨bigUint64 header.Number, newValSet str ext.Validators, s.maxEpochStartHeight⟩
        :: e0 :: rest, ⟨lookup_mapSet_self _ _ _, rfl, hlt, ?_⟩, ?_⟩
      · exact Linked_mapSet s _ _ _ _ _ hlinked hlt
      · intro k e hk
        simp only at hk
        by_cases hkH : k = bigUint64 header.Number
        · rw [hkH, lookup_mapSet_self] at hk
          cases hk
          exact ⟨List.mem_cons_self _ _, hkH.symm⟩
        · rw [lookup_mapSet_ne _ _ _ _ hkH] at hk
          exact ⟨List.mem_cons_of_mem _ (hall k e hk).1, (hall k e hk).2⟩

theorem updateAll_keeps_chain {DB E : Type} (env : Storage DB E) (str : Address → GoString)
    (blocks : List (types.Header × types.Header)) :
    ∀ (s : backend) (db : DB),
      (∃ chain, Linked s s.maxEpochStartHeight chain ∧
        ∀ k e, s.epochs.lookup k = some e → e ∈ chain ∧ e.StartHeight = k) →
      ∃ chain, Linked (updateAll env str s db blocks).1
          (updateAll env str s db blocks).1.maxEpochStartHeight chain ∧
        ∀ k e, (updateAll env str s db blocks).1.epochs.lookup k = some e →
          e ∈ chain ∧ e.StartHeight = k := by
  induction blocks with
  | nil => intro s db h; exact h
  | cons block rest ih =>
    intro s db h
    obtain ⟨parent, header⟩ := block
    simp only [updateAll]
    exact ih _ _ (UpdateEpoch_keeps_chain env str s db parent header h)

/-- C37: in every epoch store obtained from a genesis epoch with `StartHeight` 0 (its
`LastEpochStartHeight`, 0, is never read) by a sequence of `UpdateEpoch` calls, every record
is kept under its start height, every epoch with `StartHeight > 0` has
`LastEpochStartHeight < StartHeight` and names in it a height that has a record, and for
every height h the backward walk of `Validators(h)` ends and returns the set of an epoch:
there is a number of loop tests, the same for all h, within which the call returns. -/
theorem Validators_total_after_updates {DB E : Type} (env : Storage DB E)
    (str : Address → GoString) (genesis : Epoch) (db : DB)
    (blocks : List (types.Header × types.Header))
    (hstart : genesis.StartHeight = 0) :
    (∀ k e, (updateAll env str ⟨[(0, genesis)], 0⟩ db blocks).1.epochs.lookup k = some e →
      e.StartHeight = k ∧
      (0 < e.StartHeight → e.LastEpochStartHeight < e.StartHeight ∧
        ((updateAll env str ⟨[(0, genesis)], 0⟩ db blocks).1.epochs.lookup
          e.LastEpochStartHeight).isSome = true)) ∧
      ∃ bound, ∀ h fuel, bound ≤ fuel →
        ∃ k e, (updateAll env str ⟨[(0, genesis)], 0⟩ db blocks).1.epochs.lookup k = some e ∧
          (updateAll env str ⟨[(0, genesis)], 0⟩ db blocks).1.Validators str h fuel
            = Outcome.ok (e.ValSet.Copy str) := by
  have hinit : ∃ chain, Linked (⟨[(0, genesis)], 0⟩ : backend) 0 chain ∧
      ∀ k e, (⟨[(0, genesis)], 0⟩ : backend).epochs.lookup k = some e →
        e ∈ chain ∧ e.StartHeight = k := by
    refine ⟨[genesis], ⟨by simp [List.lookup], hstart, rfl⟩, ?_⟩
    intro k e hk
    by_cases hk0 : k = 0
    · subst hk0
      simp [List.lookup] at hk
      rw [← hk]
      exact ⟨List.mem_singleton.mpr rfl, hstart⟩
    · have hne : (k == 0) = false := by simpa using hk0
      simp [List.lookup, hne] at hk
  obtain ⟨chain, hlinked, hall⟩ :=
    updateAll_keeps_chain env str blocks ⟨[(0, genesis)], 0⟩ db hinit
  refine ⟨fun k e hk => ⟨(hall k e hk).2, Linked_props _ chain _ hlinked e (hall k e hk).1⟩,
    chain.length, fun h fuel hfuel => ?_⟩
  obtain ⟨e, he, _, _, hrun⟩ := validatorsLoop_spec str _ h chain _ hlinked
  refine ⟨e.StartHeight, e, ?_, hrun fuel hfuel⟩
  exact Linked_lookup _ chain _ hlinked e he

/-- C37, instance: the store with the genesis epoch after the insertion of block 100, whose
parent names the validators 1, 2, 3, 5. -/
theorem Validators_total_after_updates_witness :
    sampleEpoch0.StartHeight = 0 ∧
      ∃ bound, ∀ h fuel, bound ≤ fuel →
        ∃ k e, (updateAll sampleStorage sampleStr ⟨[(0, sampleEpoch0)], 0⟩ ([], 0)
            [(sampleParent, sampleHeader100)]).1.epochs.lookup k = some e ∧
          (updateAll sampleStorage sampleStr ⟨[(0, sampleEpoch0)], 0⟩ ([], 0)
            [(sampleParent, sampleHeader100)]).1.Validators sampleStr h fuel
            = Outcome.ok (e.ValSet.Copy sampleStr) :=
  ⟨by decide,
    (Validators_total_after_updates sampleStorage sampleStr sampleEpoch0 ([], 0)
      [(sampleParent, sampleHeader100)] (by decide)).2⟩

end backend

/-! ## `CheckQuorum` works on a copy -/

namespace validator

open bft

theorem take_set_of_le {α : Type} (l : List α) (n i : Nat) (a : α) (h : n ≤ i) :
    (l.set i a).take n = l.take n := by
  apply List.ext_getElem?
  intro k
  by_cases hk : k < n
  · rw [List.getElem?_take_of_lt hk, List.getElem?_take_of_lt hk,
      List.getElem?_set_ne (by omega)]
  · rw [List.getElem?_take_eq_none (by omega), List.getElem?_take_eq_none (by omega)]

theorem RemoveValidator_keepsOld (m mk : Memory) (na ns : Nat) (address : Address)
    (h : KeepsOld m mk na ns) :
    ∃ m1 removed, mk.RemoveValidator ns address = Outcome.ok (m1, removed) ∧
      KeepsOld m m1 na ns := by
  obtain ⟨ha, hs, objq, hq, harr⟩ := h
  unfold Memory.RemoveValidator
  rw [hq]
  simp only
  by_cases hmem : address ∈ mk.elements objq.validators
  · rw [if_pos hmem]
    refine ⟨_, true, rfl, ?_, ?_, ?_⟩
    · simp only
      rw [harr, take_set_of_le _ _ _ _ (by omega), ha]
    · simp only
      rw [take_set_of_le _ _ _ _ (Nat.le_refl _), hs]
    · have hlt : ns < mk.sets.length := by
        rcases List.getElem?_eq_some.mp hq with ⟨h1, _⟩
        exact h1
      exact ⟨_, List.getElem?_set_self hlt, harr⟩
  · rw [if_neg hmem]
    exact ⟨mk, false, rfl, ha, hs, objq, hq, harr⟩

theorem checkQuorumLoop_keepsOld (m : Memory) (na ns : Nat) :
    ∀ (committers : List Address) (mk : Memory) (validSeal : Nat), KeepsOld m mk na ns →
      ∃ m1 err, mk.checkQuorumLoop ns committers validSeal = Outcome.ok (m1, err) ∧
        KeepsOld m m1 na ns := by
  intro committers
  induction committers with
  | nil =>
    intro mk validSeal h
    obtain ⟨ha, hs, objq, hq, harr⟩ := h
    simp only [Memory.checkQuorumLoop, Memory.Q, hq]
    exact ⟨mk, _, rfl, ha, hs, objq, hq, harr⟩
  | cons addr rest ih =>
    intro mk validSeal h
    obtain ⟨m1, removed, hrem, hkeep⟩ := RemoveValidator_keepsOld m mk na ns addr h
    simp only [Memory.checkQuorumLoop, hrem]
    cases removed with
    | true => exact ih m1 (validSeal + 1) hkeep
    | false => exact ⟨m1, _, rfl, hkeep⟩

theorem Copy_keepsOld (str : Address → GoString) (m : Memory) (valSet : Nat) (obj : SetObject)
    (hobj : m.sets[valSet]? = some obj) :
    ∃ m1, m.Copy str valSet = Outcome.ok (m1, m.sets.length) ∧
      KeepsOld m m1 m.arrays.length m.sets.length := by
  unfold Memory.Copy
  rw [hobj]
  refine ⟨_, rfl, ?_, ?_, ?_⟩
  · simp [Memory.NewSet, Memory.newDefaultSet, Memory.makeSlice]
  · simp [Memory.NewSet, Memory.newDefaultSet, Memory.makeSlice]
  · simp [Memory.NewSet, Memory.newDefaultSet, Memory.makeSlice]

theorem getElem?_of_take_eq {α : Type} (l l1 : List α) (n i : Nat) (h : l1.take n = l.take n)
    (hi : i < n) : l1[i]? = l[i]? := by
  rw [← List.getElem?_take_of_lt hi, h, List.getElem?_take_of_lt hi]

end validator

namespace validator

open bft

theorem erase_eq_take_drop (l : List Address) (a : Address) (h : a ∈ l) :
    l.erase a = l.take (l.indexOf a) ++ l.drop (l.indexOf a + 1) := by
  induction l with
  | nil => simp at h
  | cons b l ih =>
    by_cases hb : b = a
    · subst hb
      simp
    · have hmem : a ∈ l := by
        rcases List.mem_cons.mp h with h1 | h1
        · exact absurd h1.symm hb
        · exact h1
      have hne : ¬ (b == a) = true := by simpa using hb
      rw [List.erase_cons_tail hne, List.indexOf_cons_ne _ hb, ih hmem]
      simp

theorem removeAt_take (array : List Address) (len i : Nat) (hlen : len ≤ array.length)
    (hi : i < len) :
    (removeAt array len i).take (len - 1)
      = (array.take len).take i ++ (array.take len).drop (i + 1) := by
  unfold removeAt
  have h1 : (array.take i ++ (array.take len).drop (i + 1)).length = len - 1 := by
    simp only [List.length_append, List.length_take, List.length_drop]
    omega
  rw [List.take_append_of_le_length (by omega), List.take_of_length_le (by omega),
    List.take_take, Nat.min_eq_left (by omega)]

theorem RemoveValidator_shows (mk : Memory) (q : Nat) (w : defaultSet) (address : Address)
    (h : Shows mk q w) :
    ∃ m1, mk.RemoveValidator q address = Outcome.ok (m1, (w.RemoveValidator address).2) ∧
      Shows m1 q (w.RemoveValidator address).1 := by
  obtain ⟨objq, array, hq, harr, hlen, hw⟩ := h
  have hqlt : q < mk.sets.length := (List.getElem?_eq_some.mp hq).1
  have halt : objq.validators.array < mk.arrays.length := (List.getElem?_eq_some.mp harr).1
  have helems : mk.elements objq.validators = w.validators := by
    rw [hw]
    simp [Memory.elements, harr]
  unfold Memory.RemoveValidator defaultSet.RemoveValidator
  rw [hq, removeFirst_eq]
  simp only [helems]
  by_cases hmem : address ∈ w.validators
  · rw [if_pos hmem, if_pos hmem]
    have hi : w.validators.indexOf address < objq.validators.len := by
      have h1 := List.indexOf_lt_length.mpr hmem
      have h2 : w.validators.length = objq.validators.len := by
        rw [hw]; simp only [List.length_take]; omega
      omega
    refine ⟨_, rfl, _, removeAt array objq.validators.len (w.validators.indexOf address),
      List.getElem?_set_self hqlt, ?_, ?_, ?_⟩
    · simp only [harr, Option.getD_some, List.getElem?_set_self halt]
    · simp only [removeAt, List.length_append, List.length_take, List.length_drop]
      omega
    · simp only
      rw [removeAt_take array _ _ hlen hi, erase_eq_take_drop _ _ hmem]
      rw [hw]
  · rw [if_neg hmem, if_neg hmem]
    exact ⟨mk, rfl, objq, array, hq, harr, hlen, hw⟩

theorem checkQuorumLoop_shows (q : Nat) :
    ∀ (committers : List Address) (mk : Memory) (w : defaultSet) (validSeal : Nat),
      Shows mk q w →
      ∃ m1, mk.checkQuorumLoop q committers validSeal
        = Outcome.ok (m1, checkQuorumLoop w committers validSeal) := by
  intro committers
  induction committers with
  | nil =>
    intro mk w validSeal h
    obtain ⟨objq, array, hq, harr, hlen, hw⟩ := h
    have hsize : w.Size = objq.validators.len := by
      rw [hw]; simp only [defaultSet.Size, List.length_take]; omega
    simp only [Memory.checkQuorumLoop, Memory.Q, hq, checkQuorumLoop, defaultSet.Q, hsize]
    exact ⟨mk, rfl⟩
  | cons addr rest ih =>
    intro mk w validSeal h
    obtain ⟨m1, hrem, hshow⟩ := RemoveValidator_shows mk q w addr h
    simp only [Memory.checkQuorumLoop, hrem, checkQuorumLoop]
    cases hr : w.RemoveValidator addr with
    | mk w1 removed =>
      rw [hr] at hshow
      cases removed with
      | true => exact ih m1 w1 (validSeal + 1) hshow
      | false => exact ⟨m1, rfl⟩

theorem elements_makeSlice (m : Memory) (elems : List Address) :
    (m.makeSlice elems).1.elements (m.makeSlice elems).2 = elems := by
  simp only [Memory.makeSlice, Memory.elements]
  rw [List.getElem?_append_right (Nat.le_refl _)]
  simp

/-- What `Copy` leaves in memory: the slice `addresses`, the sorted array of the new set
and its struct, all behind what was there. -/
theorem Copy_eq (str : Address → GoString) (m : Memory) (valSet : Nat) (obj : SetObject)
    (hobj : m.sets[valSet]? = some obj) :
    m.Copy str valSet = Outcome.ok
      (⟨m.arrays ++ [m.elements obj.validators,
          sortValidators str (m.elements obj.validators)],
        m.sets ++ [⟨⟨m.arrays.length + 1,
            (sortValidators str (m.elements obj.validators)).length⟩, obj.policy,
          if 0 < (sortValidators str (m.elements obj.validators)).length
            then (sortValidators str (m.elements obj.validators))[0]? else none,
          if obj.policy = VRF then Selector.vrf
            else if obj.policy = Sticky then Selector.sticky else Selector.roundRobin⟩]⟩,
        m.sets.length) := by
  simp only [Memory.Copy, hobj, Memory.NewSet, Memory.newDefaultSet, elements_makeSlice]
  generalize m.elements obj.validators = elems
  simp only [Memory.makeSlice, List.length_append, List.length_singleton, List.append_assoc,
    List.singleton_append]

theorem Copy_shows (str : Address → GoString) (m : Memory) (valSet : Nat) (obj : SetObject)
    (hobj : m.sets[valSet]? = some obj) :
    ∃ m1 before, m.Copy str valSet = Outcome.ok (m1, m.sets.length) ∧
      m.valSet valSet = some before ∧ Shows m1 m.sets.length (before.Copy str) := by
  refine ⟨_, ⟨m.elements obj.validators, obj.policy, obj.proposer, obj.selector⟩,
    Copy_eq str m valSet obj hobj, by simp only [Memory.valSet, hobj, Option.map_some'], ?_⟩
  refine ⟨⟨⟨m.arrays.length + 1, (sortValidators str (m.elements obj.validators)).length⟩,
      obj.policy,
      if 0 < (sortValidators str (m.elements obj.validators)).length
        then (sortValidators str (m.elements obj.validators))[0]? else none,
      if obj.policy = VRF then Selector.vrf
        else if obj.policy = Sticky then Selector.sticky else Selector.roundRobin⟩,
    sortValidators str (m.elements obj.validators), ?_, ?_, Nat.le_refl _, ?_⟩
  · simp only
    rw [List.getElem?_append_right (Nat.le_refl _)]
    simp only [Nat.sub_self, List.getElem?_cons_zero]
  · simp only
    rw [List.getElem?_append_right (by omega)]
    simp
  · simp [defaultSet.Copy, NewSet, newDefaultSet]

end validator

namespace validator

open bft

/-- C38: `CheckQuorum` on a validator set in memory (a valid pointer to a struct whose slice
points into an existing array) returns, with the error the method computes on the value of
the set, and leaves the receiver as it was, whether the call succeeds or fails: the struct
behind the pointer and the elements of its slice, hence `AddressList()`, `Size()`,
`Policy()` and the proposer, are the same after the call as before. All writes go to the
copy. -/
theorem CheckQuorum_leaves_receiver (str : Address → GoString) (m : Memory) (valSet : Nat)
    (committers : List Address) (obj : SetObject)
    (hobj : m.sets[valSet]? = some obj) (harr : obj.validators.array < m.arrays.length) :
    ∃ m1 before after, m.valSet valSet = some before ∧
      m.CheckQuorum str valSet committers
        = Outcome.ok (m1, before.CheckQuorum str committers) ∧
      m1.sets[valSet]? = some obj ∧
      m1.valSet valSet = some after ∧
      after.AddressList = before.AddressList ∧ after.Size = before.Size ∧
      after.Policy = before.Policy ∧ after.GetProposer = before.GetProposer := by
  have hvlt : valSet < m.sets.length := (List.getElem?_eq_some.mp hobj).1
  obtain ⟨mc, hcopy, hkeep⟩ := Copy_keepsOld str m valSet obj hobj
  obtain ⟨mc1, before, hcopy1, hbefore, hshow⟩ := Copy_shows str m valSet obj hobj
  rw [hcopy] at hcopy1
  injection hcopy1 with hmc
  injection hmc with hmc _
  subst hmc
  obtain ⟨m1, err, hloop, hk1⟩ :=
    checkQuorumLoop_keepsOld m m.arrays.length m.sets.length committers mc 0 hkeep
  obtain ⟨m2, hloop2⟩ :=
    checkQuorumLoop_shows m.sets.length committers mc (before.Copy str) 0 hshow
  rw [hloop] at hloop2
  injection hloop2 with hm
  injection hm with hm herr
  obtain ⟨ha, hs, _⟩ := hk1
  have hset : m1.sets[valSet]? = some obj := by
    rw [getElem?_of_take_eq m.sets m1.sets m.sets.length valSet hs hvlt, hobj]
  have harray : m1.arrays[obj.validators.array]? = m.arrays[obj.validators.array]? :=
    getElem?_of_take_eq m.arrays m1.arrays m.arrays.length _ ha harr
  have hafter : m1.valSet valSet = some before := by
    rw [← hbefore]
    simp only [Memory.valSet, hset, hobj, Memory.elements, Option.map_some', harray]
  refine ⟨m1, before, before, hbefore, ?_, hset, hafter, rfl, rfl, rfl, rfl⟩
  simp only [Memory.CheckQuorum, hcopy, hloop, herr, defaultSet.CheckQuorum]

/-- C38, instance: the set of the validators 1, 2, 3, 4 in memory, and the committers
1, 2, 3. -/
theorem CheckQuorum_leaves_receiver_witness :
    sampleMemory.sets[0]? = some
        { validators := { array := 0, len := 4 }, policy := RoundRobin, proposer := some 1,
          selector := Selector.roundRobin } ∧
      (0 : Nat) < sampleMemory.arrays.length ∧
      ∃ m1 before after, sampleMemory.valSet 0 = some before ∧
        sampleMemory.CheckQuorum sampleStr 0 [1, 2, 3]
          = Outcome.ok (m1, before.CheckQuorum sampleStr [1, 2, 3]) ∧
        m1.sets[0]? = some
          { validators := { array := 0, len := 4 }, policy := RoundRobin, proposer := some 1,
            selector := Selector.roundRobin } ∧
        m1.valSet 0 = some after ∧
        after.AddressList = before.AddressList ∧ after.Size = before.Size ∧
        after.Policy = before.Policy ∧ after.GetProposer = before.GetProposer :=
  ⟨by decide, by decide,
    CheckQuorum_leaves_receiver sampleStr sampleMemory 0 [1, 2, 3] _ (by decide) (by decide)⟩

/-- The memory after the sample call: the receiver's array is untouched, and the array of
the copy lost the three committers in place. -/
theorem sampleMemory_after :
    sampleMemory.arrays = [[1, 2, 3, 4]] ∧
      sampleMemory.CheckQuorum sampleStr 0 [1, 2, 3] = Outcome.ok
        ({ arrays := [[1, 2, 3, 4], [1, 2, 3, 4], [4, 4, 4, 4]]
           sets := [{ validators := { array := 0, len := 4 }, policy := RoundRobin,
                      proposer := some 1, selector := Selector.roundRobin },
                    { validators := { array := 2, len := 1 }, policy := RoundRobin,
                      proposer := some 1, selector := Selector.roundRobin }] }, none) := by
  decide

end validator
